import Mathlib

/-!
# whoami: request report, client address resolution and rendering

A shallow embedding of `main.go` of the whoami diagnostic HTTP service, together
with the parts of the Go standard library its functions call (`strings`,
`unicode/utf8`, `net`, `net/textproto`, `strconv`, `sort`, `fmt`,
`encoding/json`), and theorems about `getRealIP`, `getEnvAsInt`, `getLocalIPs`,
`getRequestInfo`, `formatAsText` and the JSON rendering of `RequestInfo`.

Conventions of the embedding:

* a Go `string` is an immutable sequence of bytes: `GoString := List Byte`;
* a Go `rune` and a Go `int` index are natural numbers; an index result that Go
  reports as `-1` is `none`;
* a Go slice that may be `nil` is an `Option (List _)`, a Go map that may be
  `nil` is an `Option` of an association list with distinct keys whose order of
  entries stands for the (unspecified) iteration order of the map;
* a Go `(value, error)` result is an `Except`.
-/

namespace Whoami

/-! ## Strings and bytes -/

/-- One byte. -/
abbrev Byte := Fin 256

/-- A Go string: a sequence of bytes, not necessarily valid UTF-8. -/
abbrev GoString := List Byte

/-- Equality of Go results `(value, error)` is decidable. -/
instance instDecidableEqExcept {ε α : Type} [DecidableEq ε] [DecidableEq α] :
    DecidableEq (Except ε α)
  | .ok a, .ok b => if h : a = b then isTrue (by rw [h]) else isFalse (fun e => h (by cases e; rfl))
  | .error a, .error b =>
    if h : a = b then isTrue (by rw [h]) else isFalse (fun e => h (by cases e; rfl))
  | .ok _, .error _ => isFalse (fun e => by cases e)
  | .error _, .ok _ => isFalse (fun e => by cases e)

/-- The byte with the given value (reduced modulo 256, as a Go `byte` conversion). -/
def byte (n : Nat) : Byte := ⟨n % 256, Nat.mod_lt _ (by decide)⟩

namespace utf8

/-- The constant `utf8.RuneError`, U+FFFD. -/
def RuneError : Nat := 0xFFFD

/-- The constant `utf8.RuneSelf`: bytes below it are single-byte runes. -/
def RuneSelf : Nat := 0x80

/-- The constant `utf8.UTFMax`. -/
def UTFMax : Nat := 4

/-- The table `utf8.first` together with `utf8.acceptRanges`: for a leading byte
that starts a multi-byte sequence, the length of the sequence and the accepted
range of the second byte; `none` for ASCII and for bytes that start nothing. -/
def first (b : Byte) : Option (Nat × Nat × Nat) :=
  if b.val < 0xC2 then none
  else if b.val ≤ 0xDF then some (2, 0x80, 0xBF)
  else if b.val = 0xE0 then some (3, 0xA0, 0xBF)
  else if b.val ≤ 0xEC then some (3, 0x80, 0xBF)
  else if b.val = 0xED then some (3, 0x80, 0x9F)
  else if b.val ≤ 0xEF then some (3, 0x80, 0xBF)
  else if b.val = 0xF0 then some (4, 0x90, 0xBF)
  else if b.val ≤ 0xF3 then some (4, 0x80, 0xBF)
  else if b.val = 0xF4 then some (4, 0x80, 0x8F)
  else none

/-- Continuation byte test: `locb <= b && b <= hicb`. -/
def isCont (b : Byte) : Bool := 0x80 ≤ b.val && b.val ≤ 0xBF

/-- The function `utf8.DecodeRuneInString`: the first rune of `s` and its width in
bytes; `(RuneError, 0)` on the empty string and `(RuneError, 1)` on an invalid
encoding. -/
def DecodeRuneInString : GoString → Nat × Nat
  | [] => (RuneError, 0)
  | s0 :: rest =>
    if s0.val < RuneSelf then (s0.val, 1)
    else
      match first s0 with
      | none => (RuneError, 1)
      | some (sz, lo, hi) =>
        if rest.length + 1 < sz then (RuneError, 1)
        else
          match rest with
          | [] => (RuneError, 1)
          | s1 :: rest1 =>
            if s1.val < lo ∨ hi < s1.val then (RuneError, 1)
            else if sz ≤ 2 then ((s0.val % 32) * 64 + s1.val % 64, 2)
            else
              match rest1 with
              | [] => (RuneError, 1)
              | s2 :: rest2 =>
                if !isCont s2 then (RuneError, 1)
                else if sz ≤ 3 then
                  ((s0.val % 16) * 4096 + (s1.val % 64) * 64 + s2.val % 64, 3)
                else
                  match rest2 with
                  | [] => (RuneError, 1)
                  | s3 :: _ =>
                    if !isCont s3 then (RuneError, 1)
                    else ((s0.val % 8) * 262144 + (s1.val % 64) * 4096 +
                          (s2.val % 64) * 64 + s3.val % 64, 4)

/-- The function `utf8.RuneStart`: the byte is not a continuation byte. -/
def RuneStart (b : Byte) : Bool := b.val / 64 != 2

/-- The backward scan of `utf8.DecodeLastRuneInString`: starting below `start`,
move down to the nearest rune start, not below `lim`; `none` stands for an index
that ran below zero. -/
def lastRuneStart (s : GoString) (lim : Nat) : Nat → Nat → Option Nat
  | 0, start => some start
  | fuel + 1, start =>
    if start = 0 then none
    else
      let start1 := start - 1
      if start1 < lim then some start1
      else if RuneStart (s.getD start1 0) then some start1
      else lastRuneStart s lim fuel start1

/-- The function `utf8.DecodeLastRuneInString`: the last rune of `s` and its
width. -/
def DecodeLastRuneInString (s : GoString) : Nat × Nat :=
  let e := s.length
  if e = 0 then (RuneError, 0)
  else
    let r := (s.getD (e - 1) 0).val
    if r < RuneSelf then (r, 1)
    else
      let lim := e - UTFMax
      let start := (lastRuneStart s lim UTFMax (e - 1)).getD 0
      let d := DecodeRuneInString (s.drop start)
      if start + d.2 ≠ e then (RuneError, 1) else d

/-- The function `utf8.AppendRune` on an empty buffer (`utf8.EncodeRune`): the
UTF-8 encoding of a rune; surrogates and values above U+10FFFF are encoded as
U+FFFD. -/
def EncodeRune (r : Nat) : GoString :=
  if r < 0x80 then [byte r]
  else if r < 0x800 then [byte (0xC0 + r / 64), byte (0x80 + r % 64)]
  else if 0x10FFFF < r ∨ (0xD800 ≤ r ∧ r ≤ 0xDFFF) then [byte 0xEF, byte 0xBF, byte 0xBD]
  else if r < 0x10000 then
    [byte (0xE0 + r / 4096), byte (0x80 + r / 64 % 64), byte (0x80 + r % 64)]
  else
    [byte (0xF0 + r / 262144), byte (0x80 + r / 4096 % 64), byte (0x80 + r / 64 % 64),
     byte (0x80 + r % 64)]

/-- The function `utf8.RuneCountInString`, with fuel bounding the number of runes. -/
def runeCount : Nat → GoString → Nat
  | 0, _ => 0
  | _ + 1, [] => 0
  | fuel + 1, s => runeCount fuel (s.drop (DecodeRuneInString s).2) + 1

/-- The function `utf8.RuneCountInString`. -/
def RuneCountInString (s : GoString) : Nat := runeCount s.length s

end utf8

/-- A Go string literal: the UTF-8 encoding of its text. -/
def str (s : String) : GoString := s.data.flatMap (fun c => utf8.EncodeRune c.toNat)

/-- Go string comparison `a < b`: lexicographic on bytes. -/
def less : GoString → GoString → Bool
  | [], [] => false
  | [], _ :: _ => true
  | _ :: _, [] => false
  | a :: as, b :: bs => a.val < b.val || (a = b && less as bs)

namespace unicode

/-- The function `unicode.IsSpace`: the Latin-1 switch and the `White_Space`
range table. -/
def IsSpace (r : Nat) : Bool :=
  if r ≤ 0xFF then
    r = 0x09 || r = 0x0A || r = 0x0B || r = 0x0C || r = 0x0D || r = 0x20 || r = 0x85 || r = 0xA0
  else
    r = 0x1680 || (0x2000 ≤ r && r ≤ 0x200A) || r = 0x2028 || r = 0x2029 || r = 0x202F ||
      r = 0x205F || r = 0x3000

end unicode

namespace strings

/-- Whether `p` starts `s` (`strings.HasPrefix`). -/
def startsWith : GoString → GoString → Bool
  | _, [] => true
  | [], _ :: _ => false
  | a :: s, b :: p => a = b && startsWith s p

/-- The function `strings.Index`: the index of the first instance of `sep` in `s`,
`none` for Go's `-1`. -/
def Index : GoString → GoString → Option Nat
  | [], sep => if sep = [] then some 0 else none
  | c :: s, sep =>
    if startsWith (c :: s) sep then some 0 else (Index s sep).map (· + 1)

/-- The function `strings.Count` for a non-empty `sep`: the number of
non-overlapping instances, counted with the given fuel. -/
def countFrom : Nat → GoString → GoString → Nat
  | 0, _, _ => 0
  | fuel + 1, s, sep =>
    match Index s sep with
    | none => 0
    | some m => countFrom fuel (s.drop (m + sep.length)) sep + 1

/-- The function `strings.Count`: for an empty `sep` it is one more than the
number of runes. -/
def Count (s sep : GoString) : Nat :=
  if sep = [] then utf8.RuneCountInString s + 1 else countFrom s.length s sep

/-- The loop of `strings.explode`: `k` single-rune pieces, then the rest. -/
def explodeLoop : Nat → GoString → List GoString
  | 0, s => [s]
  | k + 1, s =>
    let size := (utf8.DecodeRuneInString s).2
    s.take size :: explodeLoop k (s.drop size)

/-- The function `strings.explode`: `s` split into UTF-8 sequences, at most `n`
pieces (`none` for a negative `n`: no limit). -/
def explode (s : GoString) (n : Option Nat) : List GoString :=
  let l := utf8.RuneCountInString s
  let n1 := match n with
    | none => l
    | some k => if l < k then l else k
  if n1 = 0 then [] else explodeLoop (n1 - 1) s

/-- The loop of `strings.genSplit` (with `sepSave = 0`): at most `k` cuts at
instances of `sep`, then the remainder as the last piece. -/
def genSplitLoop : Nat → GoString → GoString → List GoString
  | 0, s, _ => [s]
  | k + 1, s, sep =>
    match Index s sep with
    | none => [s]
    | some m => s.take m :: genSplitLoop k (s.drop (m + sep.length)) sep

/-- The function `strings.genSplit` with `sepSave = 0`. The count `n` is `none` for
a negative count (all pieces); the result `none` is the `nil` slice. -/
def genSplit (s sep : GoString) (n : Option Nat) : Option (List GoString) :=
  if n = some 0 then none
  else if sep = [] then some (explode s n)
  else
    let n1 := match n with
      | none => Count s sep + 1
      | some k => k
    let n2 := if s.length + 1 < n1 then s.length + 1 else n1
    some (genSplitLoop (n2 - 1) s sep)

/-- The function `strings.Split`: `genSplit(s, sep, 0, -1)`. -/
def Split (s sep : GoString) : Option (List GoString) := genSplit s sep none

/-- The function `strings.SplitN` for a count `n >= 0`: `genSplit(s, sep, 0, n)`. -/
def SplitN (s sep : GoString) (n : Nat) : Option (List GoString) := genSplit s sep (some n)

/-- The function `strings.Join`. -/
def Join : List GoString → GoString → GoString
  | [], _ => []
  | [a], _ => a
  | a :: b :: rest, sep => a ++ sep ++ Join (b :: rest) sep

/-- The table `strings.asciiSpace`. -/
def asciiSpace (c : Byte) : Bool :=
  c.val = 0x09 || c.val = 0x0A || c.val = 0x0B || c.val = 0x0C || c.val = 0x0D || c.val = 0x20

/-- The function `strings.indexFunc(s, f, false)` as used by `TrimLeftFunc`: the
suffix of `s` that starts at the first rune not satisfying `f`, empty if there is
none. The range loop decodes one rune per step. -/
def trimLeftLoop (f : Nat → Bool) : Nat → GoString → GoString
  | 0, _ => []
  | _ + 1, [] => []
  | fuel + 1, s =>
    let d := utf8.DecodeRuneInString s
    if f d.1 then trimLeftLoop f fuel (s.drop d.2) else s

/-- The function `strings.TrimLeftFunc`. -/
def TrimLeftFunc (s : GoString) (f : Nat → Bool) : GoString := trimLeftLoop f s.length s

/-- The function `strings.lastIndexFunc(s, f, false)`: the index of the last rune
of `s[0:i]` not satisfying `f`, `none` for `-1`. -/
def lastIndexFunc (s : GoString) (f : Nat → Bool) : Nat → Nat → Option Nat
  | 0, _ => none
  | fuel + 1, i =>
    if i = 0 then none
    else
      let d := utf8.DecodeLastRuneInString (s.take i)
      let i1 := i - d.2
      if f d.1 then lastIndexFunc s f fuel i1 else some i1

/-- The function `strings.TrimRightFunc`. -/
def TrimRightFunc (s : GoString) (f : Nat → Bool) : GoString :=
  match lastIndexFunc s f s.length s.length with
  | none => s.take 0
  | some i =>
    if (s.getD i 0).val ≥ utf8.RuneSelf then
      s.take (i + (utf8.DecodeRuneInString (s.drop i)).2)
    else s.take (i + 1)

/-- The function `strings.TrimFunc`. -/
def TrimFunc (s : GoString) (f : Nat → Bool) : GoString := TrimRightFunc (TrimLeftFunc s f) f

/-- The second loop of `strings.TrimSpace`, on the reversed remainder `s[start:]`:
drop ASCII space from the end, switching to the rune-aware `TrimRightFunc` at the
first non-ASCII byte. -/
def trimSpaceStop : GoString → GoString
  | [] => []
  | c :: r =>
    if c.val ≥ utf8.RuneSelf then TrimRightFunc (c :: r).reverse unicode.IsSpace
    else if asciiSpace c then trimSpaceStop r
    else (c :: r).reverse

/-- The function `strings.TrimSpace`: the first loop drops ASCII space from the
front, switching to the rune-aware `TrimFunc` at the first non-ASCII byte. -/
def TrimSpace : GoString → GoString
  | [] => []
  | c :: s =>
    if c.val ≥ utf8.RuneSelf then TrimFunc (c :: s) unicode.IsSpace
    else if asciiSpace c then TrimSpace s
    else trimSpaceStop (c :: s).reverse

end strings

/-! ## Package net: host and port -/

namespace net

/-- The function `bytealg.IndexByteString`: index of the first `c` in `s`. -/
def IndexByteString : GoString → Byte → Option Nat
  | [], _ => none
  | b :: rest, c => if b = c then some 0 else (IndexByteString rest c).map (· + 1)

/-- The function `bytealg.LastIndexByteString`: index of the last `c` in `s`. -/
def LastIndexByteString : GoString → Byte → Option Nat
  | [], _ => none
  | b :: rest, c =>
    match LastIndexByteString rest c with
    | some j => some (j + 1)
    | none => if b = c then some 0 else none

/-- The error type `net.AddrError`. -/
structure AddrError where
  Err : String
  Addr : GoString
deriving DecidableEq

/-- The function `net.SplitHostPort`: splits `host:port`, `[host]:port` (with the
brackets removed from the host) and reports malformed addresses. -/
def SplitHostPort (hostport : GoString) : Except AddrError (GoString × GoString) :=
  let missingPort := "missing port in address"
  let tooManyColons := "too many colons in address"
  let addrErr := fun (why : String) =>
    (Except.error ⟨why, hostport⟩ : Except AddrError (GoString × GoString))
  -- The port starts after the last colon.
  match LastIndexByteString hostport (byte 0x3A) with
  | none => addrErr missingPort
  | some i =>
    let rest := fun (host : GoString) (j k : Nat) =>
      if (IndexByteString (hostport.drop j) (byte 0x5B)).isSome then
        addrErr "unexpected '[' in address"
      else if (IndexByteString (hostport.drop k) (byte 0x5D)).isSome then
        addrErr "unexpected ']' in address"
      else Except.ok (host, hostport.drop (i + 1))
    if hostport.getD 0 0 = byte 0x5B then
      -- Expect the first ']' just before the last ':'.
      match IndexByteString hostport (byte 0x5D) with
      | none => addrErr "missing ']' in address"
      | some e =>
        if e + 1 = hostport.length then addrErr missingPort
        else if e + 1 = i then rest ((hostport.take e).drop 1) 1 (e + 1)
        else if hostport.getD (e + 1) 0 = byte 0x3A then addrErr tooManyColons
        else addrErr missingPort
    else
      let host := hostport.take i
      if (IndexByteString host (byte 0x3A)).isSome then addrErr tooManyColons
      else rest host 0 0

end net

/-! ## Package net/textproto and net/http: headers and requests -/

namespace textproto

/-- The function `textproto.validHeaderFieldByte`: the token bytes of RFC 7230,
that is digits, letters and the fifteen marks of the bit mask. -/
def validHeaderFieldByte (c : Byte) : Bool :=
  (0x30 ≤ c.val && c.val ≤ 0x39) || (0x61 ≤ c.val && c.val ≤ 0x7A) ||
  (0x41 ≤ c.val && c.val ≤ 0x5A) ||
  c.val = 0x21 || c.val = 0x23 || c.val = 0x24 || c.val = 0x25 || c.val = 0x26 ||
  c.val = 0x27 || c.val = 0x2A || c.val = 0x2B || c.val = 0x2D || c.val = 0x2E ||
  c.val = 0x5E || c.val = 0x5F || c.val = 0x60 || c.val = 0x7C || c.val = 0x7E

/-- The rewriting loop of `textproto.canonicalMIMEHeaderKey`: upper case for the
first letter and for a letter after a dash, lower case for the others. -/
def canonLoop : Bool → GoString → GoString
  | _, [] => []
  | upper, c :: rest =>
    let c1 : Byte :=
      if upper && (0x61 ≤ c.val && c.val ≤ 0x7A) then byte (c.val + 256 - 0x20)
      else if !upper && (0x41 ≤ c.val && c.val ≤ 0x5A) then byte (c.val + 0x20)
      else c
    c1 :: canonLoop (c1 = byte 0x2D) rest

/-- The function `textproto.canonicalMIMEHeaderKey`: a key with a byte that is
neither a token byte nor a space, or with a space, is returned unchanged. -/
def canonicalMIMEHeaderKey (a : GoString) : GoString :=
  if a.any (fun c => !validHeaderFieldByte c && c != byte 0x20) then a
  else if a.any (fun c => !validHeaderFieldByte c) then a
  else canonLoop true a

/-- The quick check of `textproto.CanonicalMIMEHeaderKey` over the bytes still to
be read of the key `s`. -/
def canonCheck (s : GoString) : Bool → GoString → GoString
  | _, [] => s
  | upper, c :: rest =>
    if !validHeaderFieldByte c then s
    else if upper && (0x61 ≤ c.val && c.val ≤ 0x7A) then canonicalMIMEHeaderKey s
    else if !upper && (0x41 ≤ c.val && c.val ≤ 0x5A) then canonicalMIMEHeaderKey s
    else canonCheck s (c = byte 0x2D) rest

/-- The function `textproto.CanonicalMIMEHeaderKey`. -/
def CanonicalMIMEHeaderKey (s : GoString) : GoString := canonCheck s true s

end textproto

namespace http

/-- The type `http.Header`, a `map[string][]string`: header names with their
values, distinct names, in the iteration order of the map. -/
abbrev Header := AList (fun _ : GoString => List GoString)

/-- The method `Header.Get`: the first value of the canonicalized key, or the empty
string. -/
def Header.Get (h : Header) (key : GoString) : GoString :=
  match h.lookup (textproto.CanonicalMIMEHeaderKey key) with
  | none => []
  | some v => if v.length = 0 then [] else v.getD 0 []

/-- The method `Header.Set`: the canonicalized key gets the single value. -/
def Header.Set (h : Header) (key value : GoString) : Header :=
  h.insert (textproto.CanonicalMIMEHeaderKey key) [value]

/-- The type `url.URL` of the parsed request target. The method `String` of
`net/url`, which reassembles the target, is not modelled: the value carries the
text that `String()` returns. -/
structure URL where
  text : GoString
deriving DecidableEq

/-- The method `URL.String`. -/
def URL.String (u : URL) : GoString := u.text

/-- The fields of `http.Request` that the program reads. -/
structure Request where
  Method : GoString
  URL : URL
  Proto : GoString
  Header : Header
  Host : GoString
  RemoteAddr : GoString

end http

/-! ## Package strconv and the process environment -/

namespace strconv

/-- The constant `strconv.IntSize` of a 64-bit platform. -/
def IntSize : Nat := 64

/-- The two causes of a `strconv.NumError`. -/
inductive NumError where
  | ErrSyntax
  | ErrRange
deriving DecidableEq

/-- The function `strconv.lower`: `c | ('x' - 'X')`. -/
def lower (c : Byte) : Byte := byte (c.val ||| 0x20)

/-- The loop of `strconv.ParseUint(s, 10, 0)` over the bytes still to be read,
with the value `n` so far; the arithmetic is that of `uint64`. The result is the
returned value and the error, if any. -/
def parseUintLoop (cutoff maxVal : Nat) : Nat → GoString → Nat × Option NumError
  | n, [] => (n, none)
  | n, c :: rest =>
    let d : Option Byte :=
      if 0x30 ≤ c.val ∧ c.val ≤ 0x39 then some (byte (c.val + 256 - 0x30))
      else if 0x61 ≤ (lower c).val ∧ (lower c).val ≤ 0x7A then
        some (byte ((lower c).val + 256 - 0x61 + 10))
      else none
    match d with
    | none => (0, some .ErrSyntax)
    | some d =>
      if d.val ≥ 10 then (0, some .ErrSyntax)
      else if n ≥ cutoff then (maxVal, some .ErrRange)
      else
        let n10 := (n * 10) % 2 ^ 64
        let n1 := (n10 + d.val) % 2 ^ 64
        if n1 < n10 ∨ n1 > maxVal then (maxVal, some .ErrRange)
        else parseUintLoop cutoff maxVal n1 rest

/-- The function `strconv.ParseUint(s, 10, 0)`. -/
def ParseUint (s : GoString) : Nat × Option NumError :=
  if s = [] then (0, some .ErrSyntax)
  else
    let cutoff := (2 ^ 64 - 1) / 10 + 1
    let maxVal := 2 ^ IntSize - 1
    parseUintLoop cutoff maxVal 0 s

/-- The function `strconv.ParseInt(s, 10, 0)`. -/
def ParseInt (s : GoString) : Except NumError Int :=
  match s with
  | [] => .error .ErrSyntax
  | s0 :: tl =>
    let neg := s0 = byte 0x2D
    let s1 := if s0 = byte 0x2B then tl else if s0 = byte 0x2D then tl else s0 :: tl
    let (un, err) := ParseUint s1
    if err = some .ErrSyntax then .error .ErrSyntax
    else
      let cutoff := 2 ^ (IntSize - 1)
      if !neg ∧ un ≥ cutoff then .error .ErrRange
      else if neg ∧ un > cutoff then .error .ErrRange
      else if neg then .ok (-(un : Int)) else .ok (un : Int)

/-- The digit loop of the fast path of `strconv.Atoi`. -/
def atoiLoop : Nat → GoString → Option Nat
  | n, [] => some n
  | n, ch :: rest =>
    let ch1 := byte (ch.val + 256 - 0x30)
    if ch1.val > 9 then none else atoiLoop (n * 10 + ch1.val) rest

/-- The function `strconv.Atoi`: the fast path for strings of fewer than 19 bytes
and `ParseInt(s, 10, 0)` for the others. -/
def Atoi (s : GoString) : Except NumError Int :=
  let sLen := s.length
  if 0 < sLen ∧ sLen < 19 then
    let s0 := s.getD 0 0
    let s1 := if s0 = byte 0x2D ∨ s0 = byte 0x2B then s.drop 1 else s
    if (s0 = byte 0x2D ∨ s0 = byte 0x2B) ∧ s1.length < 1 then .error .ErrSyntax
    else
      match atoiLoop 0 s1 with
      | none => .error .ErrSyntax
      | some n => if s0 = byte 0x2D then .ok (-(n : Int)) else .ok (n : Int)
  else ParseInt s

end strconv

namespace os

/-- The key and value of an environment entry `key=value`, cut at its first `=`;
`none` for an entry without `=`. -/
def cutEntry (s : GoString) : Option (GoString × GoString) :=
  (net.IndexByteString s (byte 0x3D)).map (fun j => (s.take j, s.drop (j + 1)))

/-- The function `os.Getenv` over the process environment `envs` (the entries
`key=value` in their order): the value of the first entry for `key`, or the empty
string when there is none or `key` is empty. -/
def Getenv (envs : List GoString) (key : GoString) : GoString :=
  if key.length = 0 then []
  else
    match envs.find? (fun s => (cutEntry s).map Prod.fst = some key) with
    | none => []
    | some s => ((cutEntry s).map Prod.snd).getD []

end os

/-! ## The program -/

/-- The type `Config`. -/
structure Config where
  Port : Int
  Name : GoString
  Verbose : Bool

/-- The function `getEnvAsInt` over the process environment `envs`. -/
def getEnvAsInt (envs : List GoString) (key : GoString) (defaultValue : Int) : Int :=
  let value := os.Getenv envs key
  if value ≠ [] then
    match strconv.Atoi value with
    | .ok intValue => intValue
    | .error _ => defaultValue
  else defaultValue

/-- The function `getRealIP`. -/
def getRealIP (r : http.Request) : GoString :=
  -- Check X-Forwarded-For header
  let xff := r.Header.Get (str "X-Forwarded-For")
  let ips := (strings.Split xff (str ",")).getD []
  if xff ≠ [] ∧ ips.length > 0 then strings.TrimSpace (ips.getD 0 [])
  else
    -- Check X-Real-IP header
    let xri := r.Header.Get (str "X-Real-IP")
    if xri ≠ [] then xri
    else
      -- Fall back to remote address
      match net.SplitHostPort r.RemoteAddr with
      | .error _ => r.RemoteAddr
      | .ok (ip, _) => ip


/-! ## Package net: interfaces and addresses -/

namespace net

/-- The type `net.IP`, a byte slice: `none` is the `nil` address. -/
abbrev IP := Option (List Byte)

/-- The constant `net.IPv4len`. -/
def IPv4len : Nat := 4

/-- The constant `net.IPv6len`. -/
def IPv6len : Nat := 16

/-- The length `len(ip)` of an address. -/
def IP.len (ip : IP) : Nat := (ip.getD []).length

/-- The method `IP.To4`: a 4-byte address is returned as it is, a 16-byte address
with the IPv4-in-IPv6 prefix (ten zero bytes, then 0xff 0xff) gives its last four
bytes, any other address gives `nil`. -/
def IP.To4 (ip : IP) : IP :=
  let b := ip.getD []
  if b.length = IPv4len then ip
  else if b.length = IPv6len ∧ (b.take 10).all (fun x => x = 0) ∧ b.getD 10 0 = byte 0xff ∧
      b.getD 11 0 = byte 0xff then some ((b.drop 12).take 4)
  else none

/-- The variable `net.IPv6loopback`. -/
def IPv6loopback : IP := some [0, 0, 0, 0, 0, 0, 0, 0, 0, 0, 0, 0, 0, 0, 0, 1]

/-- The variable `net.v4InV6Prefix`. -/
def v4InV6Prefix : List Byte := [0, 0, 0, 0, 0, 0, 0, 0, 0, 0, byte 0xff, byte 0xff]

/-- The method `IP.Equal`. -/
def IP.Equal (ip x : IP) : Bool :=
  let a := ip.getD []
  let b := x.getD []
  if a.length = b.length then a = b
  else if a.length = IPv4len ∧ b.length = IPv6len then b.take 12 = v4InV6Prefix && a = b.drop 12
  else if a.length = IPv6len ∧ b.length = IPv4len then a.take 12 = v4InV6Prefix && a.drop 12 = b
  else false

/-- The method `IP.IsLoopback`. -/
def IP.IsLoopback (ip : IP) : Bool :=
  match ip.To4 with
  | some ip4 => ip4.getD 0 0 = byte 127
  | none => ip.Equal IPv6loopback

/-- The digit of the table `digits` for a value below ten. -/
def digit (x : Nat) : Byte := byte (0x30 + x % 10)

/-- The function `netip.appendDecimal` on an empty buffer: the decimal digits of a
byte, without leading zeros. -/
def appendDecimal (x : Byte) : GoString :=
  (if x.val ≥ 100 then [digit (x.val / 100)] else []) ++
  (if x.val ≥ 10 then [digit (x.val / 10 % 10)] else []) ++ [digit (x.val % 10)]

/-- The method `netip.Addr.string4`: the dotted decimal form of four bytes. -/
def string4 (a b c d : Byte) : GoString :=
  appendDecimal a ++ [byte 0x2E] ++ appendDecimal b ++ [byte 0x2E] ++ appendDecimal c ++
    [byte 0x2E] ++ appendDecimal d

/-- A hexadecimal digit of the table `hexDigit`. -/
def hexDigit (x : Nat) : Byte := if x % 16 < 10 then byte (0x30 + x % 16) else byte (0x61 + x % 16 - 10)

/-- The function `net.hexString`: two hexadecimal digits per byte. -/
def hexString (b : List Byte) : GoString :=
  b.flatMap (fun x => [hexDigit (x.val / 16), hexDigit x.val])

/-- The function `netip.appendHex` on an empty buffer: a 16-bit value in
hexadecimal without leading zeros. -/
def appendHex (x : Nat) : GoString :=
  (if x ≥ 0x1000 then [hexDigit (x / 0x1000)] else []) ++
  (if x ≥ 0x100 then [hexDigit (x / 0x100)] else []) ++
  (if x ≥ 0x10 then [hexDigit (x / 0x10)] else []) ++ [hexDigit x]

/-- The number of zero fields from the front of a list of 16-bit fields. -/
def zeroRun : List Nat → Nat
  | [] => 0
  | x :: rest => if x = 0 then zeroRun rest + 1 else 0

/-- The first loop of `netip.Addr.appendTo6`: the first longest run of two or more
zero fields among the fields `fs` that start at index `i`, given the best run
`(zeroStart, zeroEnd)` so far, initially `(255, 255)`. -/
def longestZeroRun : List Nat → Nat → Nat × Nat → Nat × Nat
  | [], _, best => best
  | x :: rest, i, best =>
    let l := zeroRun (x :: rest)
    longestZeroRun rest (i + 1) (if l ≥ 2 ∧ l > best.2 - best.1 then (i, i + l) else best)

/-- The second loop of `netip.Addr.appendTo6` over the fields from index `i` on. -/
def appendFields (fs : List Nat) (zero : Nat × Nat) : Nat → Nat → GoString
  | 0, _ => []
  | fuel + 1, i =>
    if i ≥ 8 then []
    else if i = zero.1 then
      [byte 0x3A, byte 0x3A] ++
        (if zero.2 ≥ 8 then []
         else appendHex (fs.getD zero.2 0) ++ appendFields fs zero fuel (zero.2 + 1))
    else
      (if i > 0 then [byte 0x3A] else []) ++ appendHex (fs.getD i 0) ++
        appendFields fs zero fuel (i + 1)

/-- The eight 16-bit fields of a 16-byte address. -/
def fields16 : List Byte → List Nat
  | a :: b :: rest => (a.val * 256 + b.val) :: fields16 rest
  | _ => []

/-- The method `netip.Addr.string6` of an address without zone. -/
def string6 (b : List Byte) : GoString :=
  let fs := fields16 b
  appendFields fs (longestZeroRun fs 0 (255, 255)) 9 0

/-- The method `IP.String`. -/
def IP.String (ip : IP) : GoString :=
  let b := ip.getD []
  if b.length = 0 then str "<nil>"
  else if b.length ≠ IPv4len ∧ b.length ≠ IPv6len then str "?" ++ hexString b
  else
    match ip.To4 with
    | some [a, b, c, d] => string4 a b c d
    | _ => string6 b

/-- The type `net.Flags` is a bit set; the constant `net.FlagUp`. -/
def FlagUp : Nat := 1

/-- The constant `net.FlagLoopback`. -/
def FlagLoopback : Nat := 4

/-- The implementations of the interface type `net.Addr`: `*net.IPNet`,
`*net.IPAddr`, or any other type. -/
inductive Addr where
  | IPNet (ip : IP) (mask : List Byte)
  | IPAddr (ip : IP) (zone : GoString)
  | other (network text : GoString)

/-- The type `net.Interface` as far as the program reads it: the flags and the
result of the method `Addrs`. -/
structure Interface where
  Flags : Nat
  Addrs : Except String (List Addr)

end net

/-- The built-in `append(s, x)` on a slice that may be `nil`. -/
def append {α : Type} (s : Option (List α)) (x : α) : Option (List α) :=
  some (s.getD [] ++ [x])

/-- The address `ip` that the type switch of `getLocalIPs` takes from an `Addr`. -/
def addrIP : net.Addr → net.IP
  | .IPNet ip _ => ip
  | .IPAddr ip _ => ip
  | .other _ _ => none

/-- The function `getLocalIPs` over the state of the host: the result of
`net.Interfaces()`, each interface with the result of its method `Addrs`. -/
def getLocalIPs (interfaces : Except String (List net.Interface)) : Option (List GoString) :=
  match interfaces with
  | .error _ => none
  | .ok ifaces =>
    ifaces.foldl (fun ips iface =>
      if iface.Flags &&& net.FlagUp = 0 then ips -- interface down
      else if iface.Flags &&& net.FlagLoopback ≠ 0 then ips -- loopback interface
      else
        match iface.Addrs with
        | .error _ => ips
        | .ok addrs =>
          addrs.foldl (fun ips addr =>
            let ip := addrIP addr
            if ip = none ∨ ip.IsLoopback = true then ips
            else
              match ip.To4 with
              | none => ips -- not an ipv4 address
              | some ip4 => append ips (net.IP.String (some ip4))) ips) none

/-! ## Packages sort and fmt -/

namespace sort

/-- The function `sort.Strings`: the strings in increasing order. In Go this is
the pattern-defeating quicksort of package `slices`, which sorts at most twelve
elements by insertion; the embedding sorts by insertion throughout. -/
def Strings (x : List GoString) : List GoString :=
  x.insertionSort (fun a b => less b a = false)

end sort

namespace fmt

/-- The text that `fmt` prints for an operand list left over after the format is
used up: the operands of `%!(EXTRA string=a, string=b)`. -/
def extraArgs : List GoString → GoString
  | [] => []
  | [a] => str "string=" ++ a
  | a :: b :: rest => str "string=" ++ a ++ str ", " ++ extraArgs (b :: rest)

/-- The function `fmt.Sprintf` for formats without flags, width or precision whose
operands are strings: the verbs `%s` and `%v` print the operand, `%%` prints a
percent sign, another verb prints the bad-verb form, a verb without operand
prints `%!verb(MISSING)`, a lone `%` at the end `%!(NOVERB)` and operands left
over `%!(EXTRA ...)`. -/
def Sprintf : GoString → List GoString → GoString
  | [], [] => []
  | [], a :: args => str "%!(EXTRA " ++ extraArgs (a :: args) ++ str ")"
  | [c], args =>
    if c = byte 0x25 then str "%!(NOVERB)" ++ Sprintf [] args else c :: Sprintf [] args
  | c :: v :: rest, args =>
    if c = byte 0x25 then
      if v = byte 0x25 then byte 0x25 :: Sprintf rest args
      else
        match args with
        | [] => str "%!" ++ [v] ++ str "(MISSING)" ++ Sprintf rest []
        | a :: args1 =>
          if v = byte 0x73 ∨ v = byte 0x76 then a ++ Sprintf rest args1
          else str "%!" ++ [v] ++ str "(string=" ++ a ++ str ")" ++ Sprintf rest args1
    else c :: Sprintf (v :: rest) args

end fmt

/-! ## The report -/

/-- A Go `map[string]string` that is not `nil`: entries with distinct keys, in the
iteration order of the map. -/
abbrev StringMap := AList (fun _ : GoString => GoString)

/-- Equality of two such association lists is decided on their entries. -/
instance instDecidableEqStringMap : DecidableEq StringMap :=
  fun a b => decidable_of_iff (a.entries = b.entries) AList.ext_iff.symm

/-- The index expression `m[key]` on a map that may be `nil`: the value, or the
empty string when the key is absent. -/
def index (m : Option StringMap) (key : GoString) : GoString :=
  match m with
  | none => []
  | some m => (m.lookup key).getD []

/-- The keys that `for key := range m` visits, in the order of the visit. -/
def rangeKeys (m : Option StringMap) : List GoString :=
  match m with
  | none => []
  | some m => m.keys

/-- The type `RequestInfo`; the JSON field tags are in `RequestInfo.jsonFields`. -/
structure RequestInfo where
  Hostname : GoString
  Name : GoString
  IP : Option (List GoString)
  RemoteAddr : GoString
  Host : GoString
  URL : GoString
  Method : GoString
  RealIP : GoString
  Protocol : GoString
  Headers : Option StringMap
  Environment : Option StringMap
  OS : GoString
  Architecture : GoString
  Runtime : GoString
  Time : GoString
  Version : GoString
deriving DecidableEq

/-- What `getRequestInfo` reads from the host and the process: the result of
`os.Hostname()`, of `os.Environ()` and of `net.Interfaces()`, the constants
`runtime.GOOS` and `runtime.GOARCH`, the result of `runtime.Version()`, the text
`time.Now().Format(time.RFC3339)` and the package variable `version`. -/
structure HostState where
  hostname : GoString × Option String
  environ : List GoString
  interfaces : Except String (List net.Interface)
  GOOS : GoString
  GOARCH : GoString
  runtimeVersion : GoString
  now : GoString
  version : GoString

/-- The function `getRequestInfo` over the host state and the package variable
`config`. -/
def getRequestInfo (host : HostState) (config : Config) (r : http.Request) : RequestInfo :=
  let hostname := host.hostname.1
  -- Get all headers
  let headers : StringMap :=
    r.Header.entries.foldl (fun headers e => headers.insert e.1 (strings.Join e.2 (str ", "))) ∅
  -- Get environment variables
  let env : StringMap :=
    host.environ.foldl (fun env e =>
      match strings.SplitN e (str "=") 2 with
      | some [k, v] => env.insert k v
      | _ => env) ∅
  { Hostname := hostname
    Name := config.Name
    IP := getLocalIPs host.interfaces
    RemoteAddr := r.RemoteAddr
    Host := r.Host
    URL := r.URL.String
    Method := r.Method
    RealIP := getRealIP r
    Protocol := r.Proto
    Headers := some headers
    Environment := some env
    OS := host.GOOS
    Architecture := host.GOARCH
    Runtime := host.runtimeVersion
    Time := host.now
    Version := host.version }

/-- The function `formatAsText`; the value `sb` is the content of the
`strings.Builder`, to which `WriteString` appends. -/
def formatAsText (info : RequestInfo) : GoString :=
  let sb : GoString := []
  let sb := sb ++ fmt.Sprintf (str "Hostname: %s\n") [info.Hostname]
  let sb := if info.Name ≠ [] then sb ++ fmt.Sprintf (str "Name: %s\n") [info.Name] else sb
  let sb := sb ++ fmt.Sprintf (str "IP: %s\n") [strings.Join (info.IP.getD []) (str ", ")]
  let sb := sb ++ fmt.Sprintf (str "RemoteAddr: %s\n") [info.RemoteAddr]
  let sb := sb ++ fmt.Sprintf (str "Host: %s\n") [info.Host]
  let sb := sb ++ fmt.Sprintf (str "URL: %s\n") [info.URL]
  let sb := sb ++ fmt.Sprintf (str "Method: %s\n") [info.Method]
  let sb := sb ++ fmt.Sprintf (str "RealIP: %s\n") [info.RealIP]
  let sb := sb ++ fmt.Sprintf (str "Protocol: %s\n") [info.Protocol]
  let sb := sb ++ fmt.Sprintf (str "OS: %s\n") [info.OS]
  let sb := sb ++ fmt.Sprintf (str "Architecture: %s\n") [info.Architecture]
  let sb := sb ++ fmt.Sprintf (str "Runtime: %s\n") [info.Runtime]
  let sb := sb ++ fmt.Sprintf (str "Time: %s\n") [info.Time]
  let sb := sb ++ fmt.Sprintf (str "Version: %s\n") [info.Version]
  let sb := sb ++ str "\nHeaders:\n"
  let headerKeys := sort.Strings (rangeKeys info.Headers)
  let sb := headerKeys.foldl
    (fun sb key => sb ++ fmt.Sprintf (str "  %s: %s\n") [key, index info.Headers key]) sb
  let sb := sb ++ str "\nEnvironment:\n"
  let envKeys := sort.Strings (rangeKeys info.Environment)
  let sb := envKeys.foldl
    (fun sb key => sb ++ fmt.Sprintf (str "  %s: %s\n") [key, index info.Environment key]) sb
  sb

/-! ## Package encoding/json: the encoder -/

namespace json

/-- The table `hex` of the encoder: the lower-case hexadecimal digit of `x % 16`. -/
def hex (x : Nat) : Byte :=
  if x % 16 < 10 then byte (0x30 + x % 16) else byte (0x61 + (x % 16 - 10))

/-- The table `htmlSafeSet`: the ASCII bytes that the encoder copies unchanged when
it escapes HTML, that is every byte from the space to 0x7F except the double
quote, the ampersand, the angle brackets and the backslash. -/
def htmlSafeSet (b : Byte) : Bool :=
  0x20 ≤ b.val && b.val < 0x80 && b.val != 0x22 && b.val != 0x26 && b.val != 0x3C &&
    b.val != 0x3E && b.val != 0x5C

/-- The escape that `appendString` writes for an ASCII byte outside `htmlSafeSet`
(Go 1.22 and later, which write the short forms for backspace and form feed). -/
def escapeByte (b : Byte) : GoString :=
  if b.val = 0x5C ∨ b.val = 0x22 then [byte 0x5C, b]
  else if b.val = 0x08 then str "\\b"
  else if b.val = 0x0C then str "\\f"
  else if b.val = 0x0A then str "\\n"
  else if b.val = 0x0D then str "\\r"
  else if b.val = 0x09 then str "\\t"
  else str "\\u00" ++ [hex (b.val / 16), hex (b.val % 16)]

/-- The loop of `appendString` with `escapeHTML` set, over the bytes of the source
still to be read: safe ASCII is copied, other ASCII is escaped, a byte that does
not start a valid UTF-8 sequence is written as the escape of U+FFFD, the line and
paragraph separators U+2028 and U+2029 are escaped, and any other rune is copied. -/
def appendStringLoop : Nat → GoString → GoString
  | 0, _ => []
  | _ + 1, [] => []
  | fuel + 1, b :: rest =>
    if b.val < utf8.RuneSelf then
      if htmlSafeSet b then b :: appendStringLoop fuel rest
      else escapeByte b ++ appendStringLoop fuel rest
    else
      let d := utf8.DecodeRuneInString ((b :: rest).take utf8.UTFMax)
      if d.1 = utf8.RuneError ∧ d.2 = 1 then str "\\ufffd" ++ appendStringLoop fuel rest
      else if d.1 = 0x2028 ∨ d.1 = 0x2029 then
        str "\\u202" ++ [hex (d.1 % 16)] ++ appendStringLoop fuel ((b :: rest).drop d.2)
      else (b :: rest).take d.2 ++ appendStringLoop fuel ((b :: rest).drop d.2)

/-- The function `appendString(dst, src, true)` on an empty `dst`: the JSON string
literal for `src`. -/
def appendString (src : GoString) : GoString :=
  [byte 0x22] ++ appendStringLoop src.length src ++ [byte 0x22]

/-- The Go value of a field of `RequestInfo`, by its kind. -/
inductive FieldValue where
  | string (s : GoString)
  | slice (x : Option (List GoString))
  | map (m : Option StringMap)

/-- A field of a struct type as the encoder sees it: the name of its tag, the
option `omitempty` of its tag, and its value. -/
structure Field where
  name : GoString
  omitEmpty : Bool
  value : FieldValue

/-- The function `isEmptyValue` on a string, slice or map: the length is zero. -/
def isEmptyValue : FieldValue → Bool
  | .string s => s.length = 0
  | .slice x => (x.getD []).length = 0
  | .map m => (rangeKeys m).length = 0

/-- The function `arrayEncoder.encode` for a slice of strings. -/
def encodeArray (elems : List GoString) : GoString :=
  [byte 0x5B] ++ List.intercalate [byte 0x2C] (elems.map appendString) ++ [byte 0x5D]

/-- The function `mapEncoder.encode` for a map from strings to strings that is not
`nil`: the entries in the order of their sorted keys. -/
def encodeMap (m : StringMap) : GoString :=
  [byte 0x7B] ++
    List.intercalate [byte 0x2C]
      ((sort.Strings m.keys).map
        (fun k => appendString k ++ [byte 0x3A] ++ appendString ((m.lookup k).getD []))) ++
    [byte 0x7D]

/-- The encoder of a field value: `stringEncoder`, `sliceEncoder` or `mapEncoder`;
a `nil` slice and a `nil` map are written as `null`. -/
def encodeValue : FieldValue → GoString
  | .string s => appendString s
  | .slice none => str "null"
  | .slice (some elems) => encodeArray elems
  | .map none => str "null"
  | .map (some m) => encodeMap m

/-- The loop of `structEncoder.encode`: the buffer and the byte `next` to write
before the next field. A field with `omitempty` whose value is empty is skipped. -/
def structEncodeLoop : List Field → GoString × Byte → GoString × Byte
  | [], st => st
  | f :: fields, (buf, next) =>
    if f.omitEmpty && isEmptyValue f.value then structEncodeLoop fields (buf, next)
    else
      structEncodeLoop fields
        (buf ++ [next] ++ ([byte 0x22] ++ f.name ++ [byte 0x22, byte 0x3A]) ++
          encodeValue f.value, byte 0x2C)

/-- The function `structEncoder.encode`. -/
def structEncode (fields : List Field) : GoString :=
  let st := structEncodeLoop fields ([], byte 0x7B)
  if st.2 = byte 0x7B then st.1 ++ str "{}" else st.1 ++ [byte 0x7D]

end json

/-- The fields of `RequestInfo` with their JSON tags, in the order of the
declaration: every tag gives the name, the tag of `Name` also `omitempty`. -/
def RequestInfo.jsonFields (info : RequestInfo) : List json.Field :=
  [⟨str "hostname", false, .string info.Hostname⟩,
   ⟨str "name", true, .string info.Name⟩,
   ⟨str "ip", false, .slice info.IP⟩,
   ⟨str "remote_addr", false, .string info.RemoteAddr⟩,
   ⟨str "host", false, .string info.Host⟩,
   ⟨str "url", false, .string info.URL⟩,
   ⟨str "method", false, .string info.Method⟩,
   ⟨str "real_ip", false, .string info.RealIP⟩,
   ⟨str "protocol", false, .string info.Protocol⟩,
   ⟨str "headers", false, .map info.Headers⟩,
   ⟨str "environment", false, .map info.Environment⟩,
   ⟨str "os", false, .string info.OS⟩,
   ⟨str "architecture", false, .string info.Architecture⟩,
   ⟨str "runtime", false, .string info.Runtime⟩,
   ⟨str "time", false, .string info.Time⟩,
   ⟨str "version", false, .string info.Version⟩]

/-- The bytes that `json.NewEncoder(w).Encode(info)` writes in `apiHandler`: the
JSON text of the struct followed by a newline. Encoding a `RequestInfo` cannot
fail, so the error branch of `apiHandler` is not taken. -/
def Encode (info : RequestInfo) : GoString :=
  json.structEncode info.jsonFields ++ [byte 0x0A]

/-! ## Package encoding/json: the decoder -/

namespace utf16

/-- The function `utf16.IsSurrogate`. -/
def IsSurrogate (r : Nat) : Bool := 0xD800 ≤ r && r < 0xE000

/-- The function `utf16.DecodeRune`: the rune of a surrogate pair, U+FFFD when the
pair is not valid. -/
def DecodeRune (r1 r2 : Nat) : Nat :=
  if 0xD800 ≤ r1 ∧ r1 < 0xDC00 ∧ 0xDC00 ≤ r2 ∧ r2 < 0xE000 then
    (r1 - 0xD800) * 1024 + (r2 - 0xDC00) + 0x10000
  else 0xFFFD

end utf16

namespace json

/-- A JSON text after the syntax check of the scanner: the values of RFC 8259. A
number keeps its text, a string is the unquoted content, an object keeps its
members in their order, duplicates included. -/
inductive Value where
  | null
  | bool (b : Bool)
  | number (text : GoString)
  | string (s : GoString)
  | array (elems : List Value)
  | object (members : List (GoString × Value))

/-- The function `isSpace` of the scanner: space, tab, carriage return, newline. -/
def isSpace (c : Byte) : Bool :=
  c.val = 0x20 || c.val = 0x09 || c.val = 0x0D || c.val = 0x0A

/-- The white space that the scanner skips before a token. -/
def skipSpace : GoString → GoString
  | [] => []
  | c :: s => if isSpace c then skipSpace s else c :: s

/-- The value of a hexadecimal digit in `getu4`, `none` for another byte. -/
def hexValue (c : Byte) : Option Nat :=
  if 0x30 ≤ c.val ∧ c.val ≤ 0x39 then some (c.val - 0x30)
  else if 0x61 ≤ c.val ∧ c.val ≤ 0x66 then some (c.val - 0x61 + 10)
  else if 0x41 ≤ c.val ∧ c.val ≤ 0x46 then some (c.val - 0x41 + 10)
  else none

/-- The function `getu4`: the rune of a leading escape `\uXXXX`, `none` for Go's
`-1`. -/
def getu4 : GoString → Option Nat
  | b0 :: b1 :: h1 :: h2 :: h3 :: h4 :: _ =>
    if b0 = byte 0x5C ∧ b1 = byte 0x75 then
      match hexValue h1, hexValue h2, hexValue h3, hexValue h4 with
      | some a, some b, some c, some d => some (((a * 16 + b) * 16 + c) * 16 + d)
      | _, _, _, _ => none
    else none
  | _ => none

/-- The result of a parser with more bytes written before the parsed string. -/
def prepend (b : GoString) (r : Option (GoString × GoString)) : Option (GoString × GoString) :=
  r.map (fun p => (b ++ p.1, p.2))

/-- A string literal after its opening quote: the states `stateInString` and
`stateInStringEsc` of the scanner together with the function `unquoteBytes` of
the decoder. The result is the unquoted content and the input after the closing
quote. A control byte, a bad escape and a missing closing quote are errors; an
escape `\uXXXX` gives the UTF-8 encoding of its rune (of the rune of a surrogate
pair, or of U+FFFD for a lone surrogate); a byte that does not start a valid
UTF-8 sequence gives U+FFFD. -/
def parseStringBody : Nat → GoString → Option (GoString × GoString)
  | 0, _ => none
  | _ + 1, [] => none
  | fuel + 1, c :: s =>
    if c = byte 0x22 then some ([], s)
    else if c = byte 0x5C then
      match s with
      | [] => none
      | e :: s1 =>
        if e = byte 0x22 ∨ e = byte 0x5C ∨ e = byte 0x2F then prepend [e] (parseStringBody fuel s1)
        else if e = byte 0x62 then prepend [byte 0x08] (parseStringBody fuel s1)
        else if e = byte 0x66 then prepend [byte 0x0C] (parseStringBody fuel s1)
        else if e = byte 0x6E then prepend [byte 0x0A] (parseStringBody fuel s1)
        else if e = byte 0x72 then prepend [byte 0x0D] (parseStringBody fuel s1)
        else if e = byte 0x74 then prepend [byte 0x09] (parseStringBody fuel s1)
        else if e = byte 0x75 then
          match getu4 (c :: s) with
          | none => none
          | some rr =>
            let s2 := s1.drop 4
            if utf16.IsSurrogate rr then
              let dec := match getu4 s2 with
                | some rr1 => utf16.DecodeRune rr rr1
                | none => 0xFFFD
              if dec ≠ 0xFFFD then
                -- A valid pair; consume.
                prepend (utf8.EncodeRune dec) (parseStringBody fuel (s2.drop 6))
              else
                -- Invalid surrogate; fall back to replacement rune.
                prepend (utf8.EncodeRune 0xFFFD) (parseStringBody fuel s2)
            else prepend (utf8.EncodeRune rr) (parseStringBody fuel s2)
        else none
    else if c.val < 0x20 then none
    else if c.val < utf8.RuneSelf then prepend [c] (parseStringBody fuel s)
    else
      -- Coerce to well-formed UTF-8.
      let d := utf8.DecodeRuneInString (c :: s)
      prepend (utf8.EncodeRune d.1) (parseStringBody fuel ((c :: s).drop d.2))

/-- The leading decimal digits of a string and what follows them. -/
def spanDigits : GoString → GoString × GoString
  | [] => ([], [])
  | c :: s =>
    if 0x30 ≤ c.val ∧ c.val ≤ 0x39 then ((spanDigits s).1.cons c, (spanDigits s).2)
    else ([], c :: s)

/-- A number literal, the states `stateNeg` to `stateE0` of the scanner: an
optional minus sign, the integer part (a zero, or digits that start with a
non-zero digit), an optional fraction and an optional exponent. The result is the
text of the number and the input after it. -/
def parseNumber (s : GoString) : Option (GoString × GoString) :=
  let (sign, s1) := match s with
    | c :: t => if c = byte 0x2D then ([c], t) else ([], c :: t)
    | [] => ([], [])
  let intPart : Option (GoString × GoString) := match s1 with
    | c :: t =>
      if c = byte 0x30 then some ([c], t)
      else if 0x31 ≤ c.val ∧ c.val ≤ 0x39 then some ((spanDigits t).1.cons c, (spanDigits t).2)
      else none
    | [] => none
  match intPart with
  | none => none
  | some (ip, s2) =>
    let frac : Option (GoString × GoString) := match s2 with
      | c :: t =>
        if c = byte 0x2E then
          if (spanDigits t).1 = [] then none else some ((spanDigits t).1.cons c, (spanDigits t).2)
        else some ([], c :: t)
      | [] => some ([], [])
    match frac with
    | none => none
    | some (fp, s3) =>
      let exp : Option (GoString × GoString) := match s3 with
        | c :: t =>
          if c = byte 0x65 ∨ c = byte 0x45 then
            let (es, t1) := match t with
              | g :: u => if g = byte 0x2B ∨ g = byte 0x2D then ([g], u) else ([], g :: u)
              | [] => ([], [])
            if (spanDigits t1).1 = [] then none
            else some (c :: es ++ (spanDigits t1).1, (spanDigits t1).2)
          else some ([], c :: t)
        | [] => some ([], [])
      match exp with
      | none => none
      | some (ep, s4) => some (sign ++ ip ++ fp ++ ep, s4)

mutual

/-- A JSON value with the white space before it: the result is the value and the
input after it. The fuel bounds the depth of nesting and the number of elements
and members. -/
def parseValue : Nat → GoString → Option (Value × GoString)
  | 0, _ => none
  | fuel + 1, s =>
    match skipSpace s with
    | [] => none
    | c :: t =>
      if c = byte 0x22 then
        (parseStringBody t.length t).map (fun p => (Value.string p.1, p.2))
      else if c = byte 0x5B then
        match skipSpace t with
        | [] => none
        | c1 :: t1 =>
          if c1 = byte 0x5D then some (Value.array [], t1)
          else (parseElems fuel t).map (fun p => (Value.array p.1, p.2))
      else if c = byte 0x7B then
        match skipSpace t with
        | [] => none
        | c1 :: t1 =>
          if c1 = byte 0x7D then some (Value.object [], t1)
          else (parseMembers fuel t).map (fun p => (Value.object p.1, p.2))
      else if strings.startsWith (c :: t) (str "true") then some (Value.bool true, t.drop 3)
      else if strings.startsWith (c :: t) (str "false") then some (Value.bool false, t.drop 4)
      else if strings.startsWith (c :: t) (str "null") then some (Value.null, t.drop 3)
      else (parseNumber (c :: t)).map (fun p => (Value.number p.1, p.2))

/-- The elements of an array after its opening bracket, up to and including the
closing bracket. -/
def parseElems : Nat → GoString → Option (List Value × GoString)
  | 0, _ => none
  | fuel + 1, s =>
    match parseValue fuel s with
    | none => none
    | some (v, r) =>
      match skipSpace r with
      | [] => none
      | c :: t =>
        if c = byte 0x2C then (parseElems fuel t).map (fun p => (v :: p.1, p.2))
        else if c = byte 0x5D then some ([v], t)
        else none

/-- The members of an object after its opening brace, up to and including the
closing brace. -/
def parseMembers : Nat → GoString → Option (List (GoString × Value) × GoString)
  | 0, _ => none
  | fuel + 1, s =>
    match skipSpace s with
    | [] => none
    | q :: t =>
      if q = byte 0x22 then
        match parseStringBody t.length t with
        | none => none
        | some (key, r) =>
          match skipSpace r with
          | [] => none
          | c :: t1 =>
            if c = byte 0x3A then
              match parseValue fuel t1 with
              | none => none
              | some (v, r1) =>
                match skipSpace r1 with
                | [] => none
                | c2 :: t2 =>
                  if c2 = byte 0x2C then
                    (parseMembers fuel t2).map (fun p => ((key, v) :: p.1, p.2))
                  else if c2 = byte 0x7D then some ([(key, v)], t2)
                  else none
            else none
      else none

end

/-- The function `checkValid` together with the reading of the value: the whole
input is one JSON value with white space around it. -/
def parse (data : GoString) : Option Value :=
  match parseValue (data.length + 1) data with
  | some (v, r) => if skipSpace r = [] then some v else none
  | none => none

/-- The errors of `json.Unmarshal`: `*json.SyntaxError` and
`*json.UnmarshalTypeError`. -/
inductive UnmarshalError where
  | SyntaxError
  | UnmarshalTypeError
deriving DecidableEq

/-- The function `literalStore` and the other cases of `decodeState.value` for a
destination of kind string that holds `cur`: a JSON string is stored, `null`
leaves the destination as it is, any other value is a type error. -/
def decodeString (cur : GoString) : Value → Except UnmarshalError GoString
  | .string s => .ok s
  | .null => .ok cur
  | _ => .error .UnmarshalTypeError

/-- The loop of `decodeState.array` for a slice of strings that holds `cur`: the
element `i` is decoded into the element `i` of the slice, a new element starts
empty. -/
def decodeElems : List GoString → List Value → Except UnmarshalError (List GoString)
  | _, [] => .ok []
  | cur, v :: vs =>
    match decodeString (cur.headD []) v with
    | .error e => .error e
    | .ok x =>
      match decodeElems cur.tail vs with
      | .error e => .error e
      | .ok xs => .ok (x :: xs)

/-- The cases of `decodeState.value` for a destination of type `[]string`: an
array gives a slice that is not `nil`, `null` gives the `nil` slice. -/
def decodeSlice (cur : Option (List GoString)) :
    Value → Except UnmarshalError (Option (List GoString))
  | .array vs =>
    match decodeElems (cur.getD []) vs with
    | .error e => .error e
    | .ok xs => .ok (some xs)
  | .null => .ok none
  | _ => .error .UnmarshalTypeError

/-- The loop of `decodeState.object` for a map from strings to strings: each
member is decoded into a new element and stored under its key, so that the last
of several members with one key stays. -/
def decodeMembers : StringMap → List (GoString × Value) → Except UnmarshalError StringMap
  | m, [] => .ok m
  | m, (k, v) :: rest =>
    match decodeString [] v with
    | .error e => .error e
    | .ok x => decodeMembers (m.insert k x) rest

/-- The cases of `decodeState.value` for a destination of type
`map[string]string`: an object is stored into the map (a new map if it is `nil`),
`null` gives the `nil` map. -/
def decodeMap (cur : Option StringMap) : Value → Except UnmarshalError (Option StringMap)
  | .object ms =>
    match decodeMembers (cur.getD ∅) ms with
    | .error e => .error e
    | .ok m => .ok (some m)
  | .null => .ok none
  | _ => .error .UnmarshalTypeError

/-- The loop of `appendFoldedName` over the bytes still to be read: an ASCII
letter is written in upper case; the non-ASCII runes U+017F and U+212A, the only
ones whose fold set has an ASCII letter, are written as `S` and `K`. The model
writes any other non-ASCII rune as it is, where Go writes the smallest rune of
its fold set, which is not ASCII either. -/
def foldNameLoop : Nat → GoString → GoString
  | 0, _ => []
  | _ + 1, [] => []
  | fuel + 1, c :: s =>
    if c.val < utf8.RuneSelf then
      (if 0x61 ≤ c.val ∧ c.val ≤ 0x7A then byte (c.val - 0x20) else c) :: foldNameLoop fuel s
    else
      let d := utf8.DecodeRuneInString (c :: s)
      let r := if d.1 = 0x17F then 0x53 else if d.1 = 0x212A then 0x4B else d.1
      utf8.EncodeRune r ++ foldNameLoop fuel ((c :: s).drop d.2)

/-- The function `foldName`. -/
def foldName (s : GoString) : GoString := foldNameLoop s.length s

end json

/-- The names of the JSON tags of `RequestInfo`, in the order of the fields. -/
def RequestInfo.jsonNames : List GoString :=
  [str "hostname", str "name", str "ip", str "remote_addr", str "host", str "url", str "method",
   str "real_ip", str "protocol", str "headers", str "environment", str "os",
   str "architecture", str "runtime", str "time", str "version"]

/-- The field of `RequestInfo` for a key of a JSON object, by its index: the field
whose name is the key, or else the first field whose folded name is the folded
key. -/
def RequestInfo.fieldIndex (key : GoString) : Option Nat :=
  match RequestInfo.jsonNames.indexOf? key with
  | some i => some i
  | none => (RequestInfo.jsonNames.map json.foldName).indexOf? (json.foldName key)

/-- The decoding of a JSON value into the field of `RequestInfo` with the given
index. -/
def RequestInfo.decodeField (info : RequestInfo) (i : Nat) (v : json.Value) :
    Except json.UnmarshalError RequestInfo :=
  match i with
  | 0 => (json.decodeString info.Hostname v).map (fun x => { info with Hostname := x })
  | 1 => (json.decodeString info.Name v).map (fun x => { info with Name := x })
  | 2 => (json.decodeSlice info.IP v).map (fun x => { info with IP := x })
  | 3 => (json.decodeString info.RemoteAddr v).map (fun x => { info with RemoteAddr := x })
  | 4 => (json.decodeString info.Host v).map (fun x => { info with Host := x })
  | 5 => (json.decodeString info.URL v).map (fun x => { info with URL := x })
  | 6 => (json.decodeString info.Method v).map (fun x => { info with Method := x })
  | 7 => (json.decodeString info.RealIP v).map (fun x => { info with RealIP := x })
  | 8 => (json.decodeString info.Protocol v).map (fun x => { info with Protocol := x })
  | 9 => (json.decodeMap info.Headers v).map (fun x => { info with Headers := x })
  | 10 => (json.decodeMap info.Environment v).map (fun x => { info with Environment := x })
  | 11 => (json.decodeString info.OS v).map (fun x => { info with OS := x })
  | 12 => (json.decodeString info.Architecture v).map (fun x => { info with Architecture := x })
  | 13 => (json.decodeString info.Runtime v).map (fun x => { info with Runtime := x })
  | 14 => (json.decodeString info.Time v).map (fun x => { info with Time := x })
  | 15 => (json.decodeString info.Version v).map (fun x => { info with Version := x })
  | _ => .ok info

/-- The loop of `decodeState.object` for the struct `RequestInfo`: each member is
decoded into the field of its key, a member with an unknown key is skipped. -/
def RequestInfo.decodeObject :
    RequestInfo → List (GoString × json.Value) → Except json.UnmarshalError RequestInfo
  | info, [] => .ok info
  | info, (key, v) :: rest =>
    match RequestInfo.fieldIndex key with
    | none => RequestInfo.decodeObject info rest
    | some i =>
      match RequestInfo.decodeField info i v with
      | .error e => .error e
      | .ok info1 => RequestInfo.decodeObject info1 rest

/-- The function `json.Unmarshal(data, &info)` for a variable `info` of type
`RequestInfo`: a syntax error when `data` is not one JSON value; an object is
decoded member by member, `null` leaves `info` as it is and any other value is a
type error. Where Go stores the members that do decode and returns the first type
error, the model returns the error alone. -/
def Unmarshal (data : GoString) (info : RequestInfo) : Except json.UnmarshalError RequestInfo :=
  match json.parse data with
  | none => .error .SyntaxError
  | some (.object ms) => RequestInfo.decodeObject info ms
  | some .null => .ok info
  | some _ => .error .UnmarshalTypeError

/-- The zero value of `RequestInfo`, the content of `var info RequestInfo`. -/
def RequestInfo.zero : RequestInfo :=
  { Hostname := [], Name := [], IP := none, RemoteAddr := [], Host := [], URL := [],
    Method := [], RealIP := [], Protocol := [], Headers := none, Environment := none,
    OS := [], Architecture := [], Runtime := [], Time := [], Version := [] }

/-! ## Specification vocabulary and concrete inputs -/

/-- The request of the counterexample to C2: `X-Real-IP` set to the empty string,
from the remote address `10.0.0.1:1234`. -/
def emptyRealIPRequest : http.Request :=
  { Method := str "GET", URL := ⟨str "/"⟩, Proto := str "HTTP/1.1",
    Header := http.Header.Set ∅ (str "X-Real-IP") [],
    Host := str "example.com", RemoteAddr := str "10.0.0.1:1234" }

/-- An ASCII decimal digit. -/
def isDigit (c : Byte) : Bool := 0x30 ≤ c.val && c.val ≤ 0x39

/-- The number that the decimal digits `ds` denote, continuing from `n`. -/
def decimalValue (n : Nat) (ds : GoString) : Nat :=
  ds.foldl (fun m c => m * 10 + (c.val - 0x30)) n

/-- The string `s` is the decimal notation of the integer `n`, and `n` is a value
of the 64-bit type `int`: an optional sign `+` or `-` followed by one or more
decimal digits. -/
def IsInt (s : GoString) (n : Int) : Prop :=
  ∃ ds : GoString, ds ≠ [] ∧ (∀ c ∈ ds, isDigit c = true) ∧
    ((s = ds ∧ n = decimalValue 0 ds) ∨ (s = byte 0x2B :: ds ∧ n = decimalValue 0 ds) ∨
      (s = byte 0x2D :: ds ∧ n = -(decimalValue 0 ds : Int))) ∧
    -(2 : Int) ^ 63 ≤ n ∧ n < (2 : Int) ^ 63

/-- The environment variable `key` is unset in `envs`. -/
def Unset (envs : List GoString) (key : GoString) : Prop :=
  ∀ s ∈ envs, (os.cutEntry s).map Prod.fst ≠ some key

/-- A decimal octet: one or more decimal digits that denote a number in [0,255]. -/
def IsOctet (o : GoString) : Prop :=
  o ≠ [] ∧ (∀ c ∈ o, isDigit c = true) ∧ decimalValue 0 o ≤ 255

/-- Four decimal octets separated by dots (byte 0x2E). -/
def IsDottedQuad (s : GoString) : Prop :=
  ∃ a b c d : GoString, IsOctet a ∧ IsOctet b ∧ IsOctet c ∧ IsOctet d ∧
    s = a ++ [byte 0x2E] ++ b ++ [byte 0x2E] ++ c ++ [byte 0x2E] ++ d

/-- The text of a list of lines: each line followed by the line terminator (byte
0x0A). -/
def unlines (ls : List GoString) : GoString := ls.flatMap (fun l => l ++ [byte 0x0A])

/-- The line `  key: value` of a map entry (without its terminator). -/
def entryLine (m : Option StringMap) (key : GoString) : GoString :=
  str "  " ++ key ++ str ": " ++ index m key

/-- The lines of the scalar fields of a report, in the order of `formatAsText`. -/
def scalarLines (info : RequestInfo) : List GoString :=
  [str "Hostname: " ++ info.Hostname] ++
  (if info.Name ≠ [] then [str "Name: " ++ info.Name] else []) ++
  [str "IP: " ++ strings.Join (info.IP.getD []) (str ", "),
   str "RemoteAddr: " ++ info.RemoteAddr,
   str "Host: " ++ info.Host,
   str "URL: " ++ info.URL,
   str "Method: " ++ info.Method,
   str "RealIP: " ++ info.RealIP,
   str "Protocol: " ++ info.Protocol,
   str "OS: " ++ info.OS,
   str "Architecture: " ++ info.Architecture,
   str "Runtime: " ++ info.Runtime,
   str "Time: " ++ info.Time,
   str "Version: " ++ info.Version]

/-- Two maps with the same entries: the same keys, up to the order of iteration,
with the same values. -/
def SameEntries (m1 m2 : Option StringMap) : Prop :=
  (rangeKeys m1).Perm (rangeKeys m2) ∧ ∀ k, index m1 k = index m2 k

/-- The report of the test `TestFormatAsText`. -/
def testInfo : RequestInfo :=
  { Hostname := str "test-host"
    Name := str "test-name"
    IP := some [str "192.168.1.1", str "10.0.0.1"]
    RemoteAddr := str "192.168.1.100:1234"
    Host := str "example.com"
    URL := str "/test?param=value"
    Method := str "GET"
    RealIP := str "192.168.1.100"
    Protocol := str "HTTP/1.1"
    Headers := some (((∅ : StringMap).insert (str "User-Agent") (str "test-agent")).insert
      (str "Accept") (str "text/html"))
    Environment := some (((∅ : StringMap).insert (str "PATH") (str "/usr/bin")).insert
      (str "HOME") (str "/home/user"))
    OS := str "linux"
    Architecture := str "amd64"
    Runtime := str "go1.21.0"
    Time := str "2023-01-01T12:00:00Z"
    Version := str "dev" }

/-- The request of the test `TestAPIHandler`: `POST /api?test=value` with the
headers `User-Agent: test-agent` and `X-Real-IP: 10.0.0.1`, from the remote
address that `httptest.NewRequest` sets. -/
def apiRequest : http.Request :=
  { Method := str "POST", URL := ⟨str "/api?test=value"⟩, Proto := str "HTTP/1.1",
    Header := ((∅ : http.Header).Set (str "User-Agent") (str "test-agent")).Set
      (str "X-Real-IP") (str "10.0.0.1"),
    Host := str "example.com", RemoteAddr := str "192.0.2.1:1234" }

/-- The configuration of the test `TestAPIHandler`. -/
def testConfig : Config := { Port := 8080, Name := str "test-server", Verbose := false }

/-- The loop of `utf8.ValidString`, stated with `DecodeRuneInString`: no position
that the loop reaches holds a byte that starts no valid UTF-8 sequence. -/
def validLoop : Nat → GoString → Bool
  | 0, s => s.isEmpty
  | _ + 1, [] => true
  | fuel + 1, b :: rest =>
    let d := utf8.DecodeRuneInString (b :: rest)
    if d.1 = utf8.RuneError ∧ d.2 = 1 then false else validLoop fuel ((b :: rest).drop d.2)

/-- The function `utf8.ValidString`: the string consists entirely of valid UTF-8
sequences. -/
def ValidString (s : GoString) : Bool := validLoop s.length s

/-- The string with every byte that starts no valid UTF-8 sequence replaced by
the encoding of U+FFFD, with the given fuel. -/
def coerceLoop : Nat → GoString → GoString
  | 0, _ => []
  | _ + 1, [] => []
  | fuel + 1, b :: rest =>
    let d := utf8.DecodeRuneInString (b :: rest)
    if d.1 = utf8.RuneError ∧ d.2 = 1 then
      [byte 0xEF, byte 0xBF, byte 0xBD] ++ coerceLoop fuel rest
    else (b :: rest).take d.2 ++ coerceLoop fuel ((b :: rest).drop d.2)

/-- The coercion of a string to valid UTF-8 that `encoding/json` documents: every
byte that starts no valid UTF-8 sequence is replaced by U+FFFD (the Go
conversion `string([]rune(s))`). -/
def coerce (s : GoString) : GoString := coerceLoop s.length s

/-- The JSON value that is read back from what the encoder writes for the value
of a field: strings are coerced to valid UTF-8, a `nil` slice and a `nil` map are
`null`, the members of a map are in the order of its sorted keys. -/
def jsonValue : json.FieldValue → json.Value
  | .string s => .string (coerce s)
  | .slice none => .null
  | .slice (some l) => .array (l.map (fun s => json.Value.string (coerce s)))
  | .map none => .null
  | .map (some m) =>
    .object ((sort.Strings m.keys).map
      (fun k => (coerce k, json.Value.string (coerce ((m.lookup k).getD [])))))

/-- The fields that the struct encoder writes: those without `omitempty` and
those that are not empty. -/
def activeFields (fields : List json.Field) : List json.Field :=
  fields.filter (fun f => !(f.omitEmpty && json.isEmptyValue f.value))

/-- The text that the struct encoder writes for a field: the quoted name, a colon
and the value. -/
def fieldText (f : json.Field) : GoString :=
  [byte 0x22] ++ f.name ++ [byte 0x22, byte 0x3A] ++ json.encodeValue f.value

/-- A map with its keys and values coerced to valid UTF-8, as the decoder builds
it from the members in the order of the sorted keys. -/
def coerceMap (m : StringMap) : StringMap :=
  (sort.Strings m.keys).foldl
    (fun acc k => acc.insert (coerce k) (coerce ((m.lookup k).getD []))) ∅

/-- A report with every string coerced to valid UTF-8. -/
def RequestInfo.coerced (info : RequestInfo) : RequestInfo :=
  { Hostname := coerce info.Hostname
    Name := coerce info.Name
    IP := info.IP.map (fun l => l.map coerce)
    RemoteAddr := coerce info.RemoteAddr
    Host := coerce info.Host
    URL := coerce info.URL
    Method := coerce info.Method
    RealIP := coerce info.RealIP
    Protocol := coerce info.Protocol
    Headers := info.Headers.map coerceMap
    Environment := info.Environment.map coerceMap
    OS := coerce info.OS
    Architecture := coerce info.Architecture
    Runtime := coerce info.Runtime
    Time := coerce info.Time
    Version := coerce info.Version }

/-- Every key and every value of the map is valid UTF-8. -/
def ValidMap (m : Option StringMap) : Prop :=
  ∀ k ∈ rangeKeys m, ValidString k = true ∧ ValidString (index m k) = true

/-- Every string of the report is valid UTF-8. -/
def RequestInfo.ValidUTF8 (info : RequestInfo) : Prop :=
  ValidString info.Hostname = true ∧ ValidString info.Name = true ∧
  (∀ s ∈ info.IP.getD [], ValidString s = true) ∧
  ValidString info.RemoteAddr = true ∧ ValidString info.Host = true ∧
  ValidString info.URL = true ∧ ValidString info.Method = true ∧
  ValidString info.RealIP = true ∧ ValidString info.Protocol = true ∧
  ValidMap info.Headers ∧ ValidMap info.Environment ∧
  ValidString info.OS = true ∧ ValidString info.Architecture = true ∧
  ValidString info.Runtime = true ∧ ValidString info.Time = true ∧
  ValidString info.Version = true

/-- Two maps are the same map: both `nil`, or both not `nil` with the same
entries up to the order of iteration. -/
def SameMap : Option StringMap → Option StringMap → Prop
  | none, none => True
  | some a, some b => a.entries.Perm b.entries
  | _, _ => False

/-- Two reports have the same value in every field. -/
def RequestInfo.Same (a b : RequestInfo) : Prop :=
  a.Hostname = b.Hostname ∧ a.Name = b.Name ∧ a.IP = b.IP ∧ a.RemoteAddr = b.RemoteAddr ∧
  a.Host = b.Host ∧ a.URL = b.URL ∧ a.Method = b.Method ∧ a.RealIP = b.RealIP ∧
  a.Protocol = b.Protocol ∧ SameMap a.Headers b.Headers ∧
  SameMap a.Environment b.Environment ∧ a.OS = b.OS ∧ a.Architecture = b.Architecture ∧
  a.Runtime = b.Runtime ∧ a.Time = b.Time ∧ a.Version = b.Version

/-- The keys of the members of a JSON object, in their order; the empty list for
a value that is not an object. -/
def json.Value.keys : json.Value → List GoString
  | .object members => members.map Prod.fst
  | _ => []

/-- A report whose header `X` has a value that is not valid UTF-8: the single
byte 0xFF. -/
def badUTF8Info : RequestInfo :=
  { RequestInfo.zero with
    Hostname := str "host"
    Headers := some ((∅ : StringMap).insert (str "X") [byte 0xFF])
    Environment := some ∅ }

/-- What `json.Unmarshal` stores for the JSON text of `badUTF8Info`: the value of
the header `X` is the encoding of U+FFFD. -/
def badUTF8Decoded : RequestInfo :=
  { RequestInfo.zero with
    Hostname := str "host"
    Headers := some ((∅ : StringMap).insert (str "X") [byte 0xEF, byte 0xBF, byte 0xBD])
    Environment := some ∅ }

/-- A request with the headers `X-Forwarded-For: 192.168.1.1, 10.0.0.1` and
`X-Real-IP: 172.16.0.9`. -/
def forwardedRequest : http.Request :=
  { Method := str "GET", URL := ⟨str "/"⟩, Proto := str "HTTP/1.1",
    Header := ((∅ : http.Header).Set (str "X-Forwarded-For") (str "192.168.1.1, 10.0.0.1")).Set
      (str "X-Real-IP") (str "172.16.0.9"),
    Host := str "example.com", RemoteAddr := str "10.0.0.1:1234" }

/-- A request with one header, `User-Agent`, from the remote address
`10.0.0.1:1234`. -/
def plainRequest : http.Request :=
  { Method := str "GET", URL := ⟨str "/"⟩, Proto := str "HTTP/1.1",
    Header := (∅ : http.Header).Set (str "User-Agent") (str "test-agent"),
    Host := str "example.com", RemoteAddr := str "10.0.0.1:1234" }

/-- An environment with the variable `TEST_INT` set to 8080. -/
def testEnviron : List GoString := [str "HOME=/home/user", str "TEST_INT=8080"]

/-- A host with a loopback interface, an interface that is up with an IPv4
address, an IPv6 address and an IPv4-in-IPv6 address, and an interface that is
down. -/
def testInterfaces : Except String (List net.Interface) :=
  .ok [⟨5, .ok [.IPNet (some [127, 0, 0, 1]) [255, 0, 0, 0]]⟩,
       ⟨3, .ok [.IPNet (some [192, 168, 1, 10]) [255, 255, 255, 0],
                .IPNet (some [0xfe, 0x80, 0, 0, 0, 0, 0, 0, 0, 0, 0, 0, 0, 0, 0, 1]) [],
                .IPAddr (some [0, 0, 0, 0, 0, 0, 0, 0, 0, 0, 255, 255, 10, 0, 0, 1]) []]⟩,
       ⟨2, .ok [.IPNet (some [172, 16, 0, 1]) [255, 255, 0, 0]]⟩]

/-- The state of a host for the tests. -/
def testHost : HostState :=
  { hostname := (str "test-host", none)
    environ := testEnviron
    interfaces := testInterfaces
    GOOS := str "linux"
    GOARCH := str "amd64"
    runtimeVersion := str "go1.21.0"
    now := str "2023-01-01T12:00:00Z"
    version := str "dev" }

/-- The headers of `testInfo` with the entries in the other order. -/
def swappedHeaders : Option StringMap :=
  some (((∅ : StringMap).insert (str "Accept") (str "text/html")).insert
    (str "User-Agent") (str "test-agent"))

/-- The UTF-8 encodings of the white space characters of Unicode (the property
`White_Space`): U+0009 to U+000D, U+0020, U+0085, U+00A0, U+1680, U+2000 to
U+200A, U+2028, U+2029, U+202F, U+205F and U+3000. -/
def spaceEncodings : List GoString :=
  [[0x09], [0x0A], [0x0B], [0x0C], [0x0D], [0x20], [0xC2, 0x85], [0xC2, 0xA0],
   [0xE1, 0x9A, 0x80], [0xE2, 0x80, 0x80], [0xE2, 0x80, 0x81], [0xE2, 0x80, 0x82],
   [0xE2, 0x80, 0x83], [0xE2, 0x80, 0x84], [0xE2, 0x80, 0x85], [0xE2, 0x80, 0x86],
   [0xE2, 0x80, 0x87], [0xE2, 0x80, 0x88], [0xE2, 0x80, 0x89], [0xE2, 0x80, 0x8A],
   [0xE2, 0x80, 0xA8], [0xE2, 0x80, 0xA9], [0xE2, 0x80, 0xAF], [0xE2, 0x81, 0x9F],
   [0xE3, 0x80, 0x80]]

/-- A run of white space: the encodings of zero or more white space characters,
one after the other. -/
def SpaceRun (p : GoString) : Prop :=
  ∃ es : List GoString, (∀ e ∈ es, e ∈ spaceEncodings) ∧ p = es.flatten

/-- The string starts with a white space character. -/
def SpaceStart (t : GoString) : Prop := ∃ e ∈ spaceEncodings, e <+: t

/-- The string ends with a white space character. -/
def SpaceEnd (t : GoString) : Prop := ∃ e ∈ spaceEncodings, e <:+ t

/-- The string `t` is `s` with the surrounding white space trimmed: `s` is a run
of white space, then `t`, then a run of white space, and `t` neither starts nor
ends with a white space character. -/
def Trimmed (s t : GoString) : Prop :=
  ∃ p q : GoString, s = p ++ t ++ q ∧ SpaceRun p ∧ SpaceRun q ∧ ¬ SpaceStart t ∧ ¬ SpaceEnd t

/-- The lines of a text: the text is cut after each line terminator (byte 0x0A);
a line is given without its terminator, and text that follows the last
terminator is a last line. -/
def splitLines : GoString → List GoString
  | [] => []
  | c :: s =>
    if c = byte 0x0A then [] :: splitLines s
    else
      match splitLines s with
      | [] => [[c]]
      | l :: ls => (c :: l) :: ls

/-- The entries of a map, in the order of iteration; a `nil` map has none. -/
def mapEntries (m : Option StringMap) : List (Σ _ : GoString, GoString) :=
  match m with
  | none => []
  | some m => m.entries

/-- No key and no value of the map contains the line terminator (byte 0x0A). -/
def SingleLine (m : Option StringMap) : Prop :=
  ∀ k ∈ rangeKeys m, byte 0x0A ∉ k ∧ byte 0x0A ∉ index m k

/-- A report whose environment has one entry, the variable `A`, with a value that
contains a line terminator. -/
def newlineInfo : RequestInfo :=
  { RequestInfo.zero with
    Hostname := str "host"
    Headers := some ∅
    Environment := some ((∅ : StringMap).insert (str "A") (str "1\n  B: 2")) }

/-- A host whose environment is the one variable `A`, with a value that contains
a line terminator. -/
def newlineHost : HostState :=
  { hostname := (str "host", none)
    environ := [str "A=1\n  B: 2"]
    interfaces := .ok []
    GOOS := str "linux"
    GOARCH := str "amd64"
    runtimeVersion := str "go1.21.0"
    now := str "2023-01-01T12:00:00Z"
    version := str "dev" }

/-- The report `newlineInfo` with two entries in the environment instead: the
variables `A` and `B`. -/
def twoEntryInfo : RequestInfo :=
  { RequestInfo.zero with
    Hostname := str "host"
    Headers := some ∅
    Environment := some (((∅ : StringMap).insert (str "A") (str "1")).insert
      (str "B") (str "2")) }

/-- A request whose `X-Forwarded-For` value has white space outside ASCII around
its first element: U+00A0, a space, `é`, a space and U+2003, then a comma. -/
def unicodeSpaceRequest : http.Request :=
  { Method := str "GET", URL := ⟨str "/"⟩, Proto := str "HTTP/1.1",
    Header := (∅ : http.Header).Set (str "X-Forwarded-For") (str "\u00a0 é \u2003,b"),
    Host := str "example.com", RemoteAddr := str "10.0.0.1:1234" }
end Whoami

/-! # Theorems -/

namespace Whoami

set_option maxRecDepth 100000


/-! ## Client address resolution -/

theorem startsWith_single (a c : Byte) (s : GoString) :
    strings.startsWith (a :: s) [c] = decide (a = c) := by
  simp [strings.startsWith]

theorem Index_single_none (c : Byte) (s : GoString) :
    strings.Index s [c] = none ↔ c ∉ s := by
  induction s with
  | nil => simp [strings.Index]
  | cons a s ih =>
    by_cases h : a = c
    · simp [strings.Index, startsWith_single, h]
    · have h2 : ¬ c = a := fun e => h e.symm
      simp [strings.Index, startsWith_single, h, h2, ih]

theorem Index_single_take (c : Byte) (s : GoString) (m : Nat)
    (h : strings.Index s [c] = some m) : s.take m = s.takeWhile (fun b => b != c) := by
  induction s generalizing m with
  | nil => simp
  | cons a s ih =>
    by_cases hac : a = c
    · simp [strings.Index, startsWith_single, hac] at h
      subst h
      simp [hac]
    · cases hi : strings.Index s [c] with
      | none => simp [strings.Index, startsWith_single, hac, hi] at h
      | some k =>
        simp only [strings.Index, startsWith_single, hac, decide_False, Bool.false_eq_true,
          if_false, hi, Option.map_some', Option.some.injEq] at h
        subst h
        simp [List.takeWhile_cons, hac, ih k hi]

theorem genSplitLoop_head (c : Byte) (s : GoString) (k : Nat)
    (hk : k = 0 → c ∉ s) :
    (strings.genSplitLoop k s [c]).getD 0 [] = s.takeWhile (fun b => b != c) := by
  cases k with
  | zero =>
    have hc := hk rfl
    have : s.takeWhile (fun b => b != c) = s := by
      rw [List.takeWhile_eq_self_iff]
      intro b hb
      simp only [bne_iff_ne, ne_eq]
      intro e
      exact hc (e ▸ hb)
    simp [strings.genSplitLoop, this]
  | succ k =>
    cases hi : strings.Index s [c] with
    | none =>
      have hc := (Index_single_none c s).1 hi
      have : s.takeWhile (fun b => b != c) = s := by
        rw [List.takeWhile_eq_self_iff]
        intro b hb
        simp only [bne_iff_ne, ne_eq]
        intro e
        exact hc (e ▸ hb)
      simp [strings.genSplitLoop, hi, this]
    | some m =>
      simp [strings.genSplitLoop, hi, Index_single_take c s m hi]

theorem countFrom_zero (c : Byte) (s : GoString) (fuel : Nat) (hf : 0 < fuel)
    (h : strings.countFrom fuel s [c] = 0) : c ∉ s := by
  cases fuel with
  | zero => omega
  | succ f =>
    cases hi : strings.Index s [c] with
    | none => exact (Index_single_none c s).1 hi
    | some m => simp [strings.countFrom, hi] at h

theorem Split_comma (x : GoString) (hne : x ≠ []) :
    ∃ ips, strings.Split x (str ",") = some ips ∧ 0 < ips.length ∧
      ips.getD 0 [] = x.takeWhile (fun b => b != byte 0x2C) := by
  have hsep : str "," = [byte 0x2C] := by decide
  have hlen : 0 < x.length := List.length_pos.2 hne
  refine ⟨strings.genSplitLoop
    ((if x.length + 1 < strings.Count x [byte 0x2C] + 1 then x.length + 1
      else strings.Count x [byte 0x2C] + 1) - 1) x [byte 0x2C], ?_, ?_, ?_⟩
  · simp [strings.Split, strings.genSplit, hsep]
  · generalize ((if x.length + 1 < strings.Count x [byte 0x2C] + 1 then x.length + 1
      else strings.Count x [byte 0x2C] + 1) - 1) = k
    cases k with
    | zero => simp [strings.genSplitLoop]
    | succ k =>
      cases hi : strings.Index x [byte 0x2C] <;> simp [strings.genSplitLoop, hi]
  · apply genSplitLoop_head
    intro hk
    have hc : strings.Count x [byte 0x2C] = 0 := by
      split at hk <;> omega
    simp only [strings.Count, List.cons_ne_nil, if_false] at hc
    exact countFrom_zero _ x x.length hlen hc

theorem getRealIP_of_forwarded (r : http.Request) (hne : r.Header.Get (str "X-Forwarded-For") ≠ []) :
    getRealIP r = strings.TrimSpace
      ((r.Header.Get (str "X-Forwarded-For")).takeWhile (fun b => b != byte 0x2C)) := by
  obtain ⟨ips, h1, h2, h3⟩ := Split_comma _ hne
  simp only [getRealIP, h1, Option.getD_some, h3]
  rw [if_pos ⟨hne, h2⟩]

theorem trimSpaceStop_ascii (t : GoString) (h : ∀ b ∈ t, b.val < 0x80) :
    strings.trimSpaceStop t = (t.dropWhile strings.asciiSpace).reverse := by
  induction t with
  | nil => rfl
  | cons c r ih =>
    have hc : ¬ c.val ≥ utf8.RuneSelf := by
      have := h c (by simp)
      simp only [utf8.RuneSelf]; omega
    by_cases hs : strings.asciiSpace c = true
    · simp only [strings.trimSpaceStop, hc, if_false, hs, if_true, List.dropWhile_cons]
      exact ih (fun b hb => h b (by simp [hb]))
    · simp only [strings.trimSpaceStop, hc, if_false, hs, List.dropWhile_cons]
      simp

/-- On a string of ASCII bytes `strings.TrimSpace` drops the ASCII white space
(tab, line feed, vertical tab, form feed, carriage return, space) at both ends. -/
theorem TrimSpace_ascii (s : GoString) (h : ∀ b ∈ s, b.val < 0x80) :
    strings.TrimSpace s =
      (((s.dropWhile strings.asciiSpace).reverse).dropWhile strings.asciiSpace).reverse := by
  induction s with
  | nil => rfl
  | cons c r ih =>
    have hc : ¬ c.val ≥ utf8.RuneSelf := by
      have := h c (by simp)
      simp only [utf8.RuneSelf]; omega
    by_cases hs : strings.asciiSpace c = true
    · simp only [strings.TrimSpace, hc, if_false, hs, if_true, List.dropWhile_cons]
      exact ih (fun b hb => h b (by simp [hb]))
    · simp only [strings.TrimSpace, hc, if_false, hs, List.dropWhile_cons]
      rw [trimSpaceStop_ascii]
      · simp
      · intro b hb
        exact h b (List.mem_reverse.1 hb)

theorem IndexByteString_none (c : Byte) (s : GoString) :
    net.IndexByteString s c = none ↔ c ∉ s := by
  induction s with
  | nil => simp [net.IndexByteString]
  | cons a s ih =>
    by_cases h : a = c
    · simp [net.IndexByteString, h]
    · have h2 : ¬ c = a := fun e => h e.symm
      simp [net.IndexByteString, h, h2, ih]

theorem IndexByteString_isSome (c : Byte) (s : GoString) :
    (net.IndexByteString s c).isSome = true ↔ c ∈ s := by
  rw [← not_iff_not, ← IndexByteString_none]
  cases net.IndexByteString s c <;> simp

theorem LastIndexByteString_none (c : Byte) (s : GoString) :
    net.LastIndexByteString s c = none ↔ c ∉ s := by
  induction s with
  | nil => simp [net.LastIndexByteString]
  | cons a s ih =>
    cases hl : net.LastIndexByteString s c with
    | none =>
      have hc := ih.1 hl
      by_cases h : a = c
      · simp [net.LastIndexByteString, hl, h]
      · have h2 : ¬ c = a := fun e => h e.symm
        simp [net.LastIndexByteString, hl, h, h2, hc]
    | some j =>
      have hc : c ∈ s := by
        by_contra hn
        rw [ih.2 hn] at hl
        cases hl
      simp [net.LastIndexByteString, hl, hc]

theorem LastIndexByteString_append (c : Byte) (host port : GoString) (h : c ∉ port) :
    net.LastIndexByteString (host ++ c :: port) c = some host.length := by
  induction host with
  | nil => simp [net.LastIndexByteString, (LastIndexByteString_none c port).2 h]
  | cons a host ih => simp [net.LastIndexByteString, ih]

/-- A remote address without a colon does not parse. -/
theorem SplitHostPort_no_colon (s : GoString) (h : byte 0x3A ∉ s) :
    net.SplitHostPort s = .error ⟨"missing port in address", s⟩ := by
  simp [net.SplitHostPort, (LastIndexByteString_none _ s).2 h]

/-- A remote address `host:port` whose host and port have no colon and no bracket
parses into that host and port. -/
theorem SplitHostPort_host_port (host port : GoString)
    (h : ∀ b ∈ host ++ port, b ≠ byte 0x3A ∧ b ≠ byte 0x5B ∧ b ≠ byte 0x5D) :
    net.SplitHostPort (host ++ byte 0x3A :: port) = .ok (host, port) := by
  have hp : byte 0x3A ∉ port := fun hm => (h _ (List.mem_append_right _ hm)).1 rfl
  have hh : byte 0x3A ∉ host := fun hm => (h _ (List.mem_append_left _ hm)).1 rfl
  have h0 : (host ++ byte 0x3A :: port).getD 0 0 ≠ byte 0x5B := by
    cases host with
    | nil => simp; decide
    | cons a t =>
      simp only [List.cons_append, List.getD_cons_zero]
      exact (h a (by simp)).2.1
  have hb1 : (net.IndexByteString (host ++ byte 0x3A :: port) (byte 0x5B)).isSome = false := by
    rw [← Bool.not_eq_true, IndexByteString_isSome]
    intro hm
    rcases List.mem_append.1 hm with hm | hm
    · exact (h _ (List.mem_append_left _ hm)).2.1 rfl
    · rcases List.mem_cons.1 hm with hm | hm
      · exact absurd hm (by decide)
      · exact (h _ (List.mem_append_right _ hm)).2.1 rfl
  have hb2 : (net.IndexByteString (host ++ byte 0x3A :: port) (byte 0x5D)).isSome = false := by
    rw [← Bool.not_eq_true, IndexByteString_isSome]
    intro hm
    rcases List.mem_append.1 hm with hm | hm
    · exact (h _ (List.mem_append_left _ hm)).2.2 rfl
    · rcases List.mem_cons.1 hm with hm | hm
      · exact absurd hm (by decide)
      · exact (h _ (List.mem_append_right _ hm)).2.2 rfl
  have hc : (net.IndexByteString host (byte 0x3A)).isSome = false := by
    rw [← Bool.not_eq_true, IndexByteString_isSome]
    exact hh
  simp only [net.SplitHostPort, LastIndexByteString_append _ host port hp, h0, if_false,
    List.take_left', hc, Bool.false_eq_true, List.drop_zero, hb1, hb2]
  simp

theorem Header_Get_absent (h : http.Header) (key : GoString)
    (ha : h.lookup (textproto.CanonicalMIMEHeaderKey key) = none) : h.Get key = [] := by
  simp [http.Header.Get, ha]

theorem getRealIP_of_real_ip (r : http.Request) (v : GoString)
    (hf : r.Header.lookup (textproto.CanonicalMIMEHeaderKey (str "X-Forwarded-For")) = none)
    (hr : r.Header.lookup (textproto.CanonicalMIMEHeaderKey (str "X-Real-IP")) = some [v])
    (hv : v ≠ []) : getRealIP r = v := by
  have h1 : r.Header.Get (str "X-Forwarded-For") = [] := Header_Get_absent _ _ hf
  have h2 : r.Header.Get (str "X-Real-IP") = v := by simp [http.Header.Get, hr]
  simp [getRealIP, h1, h2, hv]

theorem getRealIP_of_remote (r : http.Request)
    (hf : r.Header.lookup (textproto.CanonicalMIMEHeaderKey (str "X-Forwarded-For")) = none)
    (hr : r.Header.lookup (textproto.CanonicalMIMEHeaderKey (str "X-Real-IP")) = none) :
    getRealIP r =
      match net.SplitHostPort r.RemoteAddr with
      | .error _ => r.RemoteAddr
      | .ok (ip, _) => ip := by
  have h1 : r.Header.Get (str "X-Forwarded-For") = [] := Header_Get_absent _ _ hf
  have h2 : r.Header.Get (str "X-Real-IP") = [] := Header_Get_absent _ _ hr
  simp [getRealIP, h1, h2]

/-- C2 as stated fails: with only `X-Real-IP` set, to the empty value `v`, and no
`X-Forwarded-For`, `getRealIP` returns the host of the remote address, "10.0.0.1",
and not `v`. -/
theorem getRealIP_real_ip_empty_counterexample :
    emptyRealIPRequest.Header.lookup (textproto.CanonicalMIMEHeaderKey (str "X-Forwarded-For"))
        = none ∧
      emptyRealIPRequest.Header.entries = [⟨str "X-Real-Ip", [[]]⟩] ∧
      getRealIP emptyRealIPRequest = str "10.0.0.1" ∧
      getRealIP emptyRealIPRequest ≠ [] := by
  decide

/-- C2, amended: when `X-Forwarded-For` is not set and `X-Real-IP` is set to a
non-empty value `v`, then for every remote address (and whatever else the request
holds) `getRealIP` returns exactly `v`, untrimmed. -/
theorem getRealIP_real_ip (r : http.Request) (v : GoString)
    (hf : r.Header.lookup (textproto.CanonicalMIMEHeaderKey (str "X-Forwarded-For")) = none)
    (hr : r.Header.lookup (textproto.CanonicalMIMEHeaderKey (str "X-Real-IP")) = some [v])
    (hv : v ≠ []) : getRealIP r = v :=
  getRealIP_of_real_ip r v hf hr hv

/-- C3: with neither `X-Forwarded-For` nor `X-Real-IP` set, `getRealIP` (a total
function) returns the host that `net.SplitHostPort` finds in the remote address
and, when `net.SplitHostPort` reports an error, the remote address itself. An
address without a colon is returned verbatim, an address `host:port` whose host
and port have no colon or bracket gives `host`; "10.0.0.1:1234" gives "10.0.0.1"
and "invalid-addr" gives "invalid-addr". -/
theorem getRealIP_remote_addr (r : http.Request)
    (hf : r.Header.lookup (textproto.CanonicalMIMEHeaderKey (str "X-Forwarded-For")) = none)
    (hr : r.Header.lookup (textproto.CanonicalMIMEHeaderKey (str "X-Real-IP")) = none) :
    (∀ host port, net.SplitHostPort r.RemoteAddr = .ok (host, port) → getRealIP r = host) ∧
    (∀ e, net.SplitHostPort r.RemoteAddr = .error e → getRealIP r = r.RemoteAddr) ∧
    (byte 0x3A ∉ r.RemoteAddr → getRealIP r = r.RemoteAddr) ∧
    (∀ host port, r.RemoteAddr = host ++ byte 0x3A :: port →
      (∀ b ∈ host ++ port, b ≠ byte 0x3A ∧ b ≠ byte 0x5B ∧ b ≠ byte 0x5D) →
      getRealIP r = host) ∧
    (r.RemoteAddr = str "10.0.0.1:1234" → getRealIP r = str "10.0.0.1") ∧
    (r.RemoteAddr = str "invalid-addr" → getRealIP r = str "invalid-addr") := by
  have hg := getRealIP_of_remote r hf hr
  refine ⟨?_, ?_, ?_, ?_, ?_, ?_⟩
  · intro host port h
    rw [hg, h]
  · intro e h
    rw [hg, h]
  · intro h
    rw [hg, SplitHostPort_no_colon _ h]
  · intro host port h hb
    rw [hg, h, SplitHostPort_host_port host port hb]
  · intro h
    rw [hg, h]
    decide
  · intro h
    rw [hg, h]
    decide

/-! ## Integer parsing and `getEnvAsInt` -/

theorem byte_val (n : Nat) : (byte n).val = n % 256 := rfl

theorem decimalValue_cons (n : Nat) (c : Byte) (ds : GoString) :
    decimalValue n (c :: ds) = decimalValue (n * 10 + (c.val - 0x30)) ds := rfl

theorem decimalValue_ge (ds : GoString) (n : Nat) : n ≤ decimalValue n ds := by
  induction ds generalizing n with
  | nil => simp [decimalValue]
  | cons c ds ih =>
    rw [decimalValue_cons]
    have := ih (n * 10 + (c.val - 0x30))
    omega

theorem decimalValue_lt (ds : GoString) (n : Nat) (h : ∀ c ∈ ds, isDigit c = true) :
    decimalValue n ds < (n + 1) * 10 ^ ds.length := by
  induction ds generalizing n with
  | nil => simp [decimalValue]
  | cons c ds ih =>
    rw [decimalValue_cons]
    have hc : isDigit c = true := h c (by simp)
    simp only [isDigit, Bool.and_eq_true, decide_eq_true_eq] at hc
    have h1 := ih (n * 10 + (c.val - 0x30)) (fun x hx => h x (by simp [hx]))
    have h2 : (n * 10 + (c.val - 0x30) + 1) * 10 ^ ds.length ≤ ((n + 1) * 10) * 10 ^ ds.length :=
      Nat.mul_le_mul_right _ (by omega)
    have h3 : (n + 1) * 10 ^ (c :: ds).length = ((n + 1) * 10) * 10 ^ ds.length := by
      simp [pow_succ]; ring
    omega

theorem atoiLoop_some (ds : GoString) (n v : Nat) :
    strconv.atoiLoop n ds = some v ↔ (∀ c ∈ ds, isDigit c = true) ∧ v = decimalValue n ds := by
  induction ds generalizing n with
  | nil =>
    simp only [strconv.atoiLoop, Option.some.injEq, decimalValue, List.foldl_nil]
    constructor
    · intro h; exact ⟨by simp, h.symm⟩
    · intro h; exact h.2.symm
  | cons c ds ih =>
    have hlt := c.isLt
    by_cases hd : isDigit c = true
    · have hd2 := hd
      simp only [isDigit, Bool.and_eq_true, decide_eq_true_eq] at hd2
      have hv : (byte (c.val + 256 - 0x30)).val = c.val - 0x30 := by
        rw [byte_val]; omega
      have h9 : ¬ (c.val - 0x30 > 9) := by omega
      simp only [strconv.atoiLoop, hv, h9, if_false, ih, decimalValue_cons]
      constructor
      · rintro ⟨h1, h2⟩
        exact ⟨fun x hx => by
          rcases List.mem_cons.1 hx with e | e
          · exact e ▸ hd
          · exact h1 x e, h2⟩
      · rintro ⟨h1, h2⟩
        exact ⟨fun x hx => h1 x (by simp [hx]), h2⟩
    · have hd2 := hd
      simp only [isDigit, Bool.and_eq_true, decide_eq_true_eq, not_and_or] at hd2
      have h9 : (byte (c.val + 256 - 0x30)).val > 9 := by rw [byte_val]; omega
      simp only [strconv.atoiLoop, h9, if_true]
      constructor
      · intro h; cases h
      · rintro ⟨h1, _⟩
        exact absurd (h1 c (by simp)) hd

/-- On digits the loop of `ParseUint` computes their value, or reports a range
error with the maximal value when that value exceeds `2^64 - 1`. -/
theorem parseUintLoop_digits (ds : GoString) (n : Nat) (hn : n < 2 ^ 64)
    (h : ∀ c ∈ ds, isDigit c = true) :
    strconv.parseUintLoop ((2 ^ 64 - 1) / 10 + 1) (2 ^ 64 - 1) n ds =
      if decimalValue n ds ≤ 2 ^ 64 - 1 then (decimalValue n ds, none)
      else (2 ^ 64 - 1, some .ErrRange) := by
  induction ds generalizing n with
  | nil =>
    have : n ≤ 2 ^ 64 - 1 := by omega
    simp only [strconv.parseUintLoop, decimalValue, List.foldl_nil]
    rw [if_pos this]
  | cons c ds ih =>
    have hlt := c.isLt
    have hd : isDigit c = true := h c (by simp)
    simp only [isDigit, Bool.and_eq_true, decide_eq_true_eq] at hd
    have hv : (byte (c.val + 256 - 0x30)).val = c.val - 0x30 := by
      rw [byte_val]; omega
    have hge := decimalValue_ge ds (n * 10 + (c.val - 0x30))
    rw [decimalValue_cons]
    simp only [strconv.parseUintLoop, hd, and_self, if_true, hv]
    have h10 : ¬ (c.val - 0x30 ≥ 10) := by omega
    rw [if_neg h10]
    by_cases hc : n ≥ (2 ^ 64 - 1) / 10 + 1
    · rw [if_pos hc]
      have : ¬ decimalValue (n * 10 + (c.val - 0x30)) ds ≤ 2 ^ 64 - 1 := by
        norm_num at hc ⊢
        omega
      rw [if_neg this]
    · rw [if_neg hc]
      have hm : n * 10 % 2 ^ 64 = n * 10 := by
        apply Nat.mod_eq_of_lt
        norm_num at hc ⊢
        omega
      simp only [hm]
      by_cases ho : n * 10 + (c.val - 0x30) < 2 ^ 64
      · have hm2 : (n * 10 + (c.val - 0x30)) % 2 ^ 64 = n * 10 + (c.val - 0x30) :=
          Nat.mod_eq_of_lt ho
        have hno : ¬ (n * 10 + (c.val - 0x30) < n * 10 ∨ n * 10 + (c.val - 0x30) > 2 ^ 64 - 1) := by
          omega
        rw [hm2, if_neg hno]
        exact ih _ ho (fun x hx => h x (by simp [hx]))
      · have hw : (n * 10 + (c.val - 0x30)) % 2 ^ 64 < n * 10 := by
          norm_num at hc ho ⊢
          omega
        rw [if_pos (Or.inl hw)]
        have : ¬ decimalValue (n * 10 + (c.val - 0x30)) ds ≤ 2 ^ 64 - 1 := by omega
        rw [if_neg this]

/-- The loop of `ParseUint` reports an error when some byte is not a digit, and a
range error comes with the maximal value. -/
theorem parseUintLoop_nondigit (ds : GoString) (n : Nat)
    (h : ¬ ∀ c ∈ ds, isDigit c = true) :
    (strconv.parseUintLoop ((2 ^ 64 - 1) / 10 + 1) (2 ^ 64 - 1) n ds).2 ≠ none ∧
    ((strconv.parseUintLoop ((2 ^ 64 - 1) / 10 + 1) (2 ^ 64 - 1) n ds).2 = some .ErrRange →
      (strconv.parseUintLoop ((2 ^ 64 - 1) / 10 + 1) (2 ^ 64 - 1) n ds).1 = 2 ^ 64 - 1) := by
  induction ds generalizing n with
  | nil => simp at h
  | cons c ds ih =>
    have hlt := c.isLt
    by_cases hd : isDigit c = true
    · have hrest : ¬ ∀ x ∈ ds, isDigit x = true := by
        intro hall
        apply h
        intro x hx
        rcases List.mem_cons.1 hx with e | e
        · exact e ▸ hd
        · exact hall x e
      simp only [isDigit, Bool.and_eq_true, decide_eq_true_eq] at hd
      have hv : (byte (c.val + 256 - 0x30)).val = c.val - 0x30 := by
        rw [byte_val]; omega
      have h10 : ¬ (c.val - 0x30 ≥ 10) := by omega
      simp only [strconv.parseUintLoop, hd, and_self, if_true, hv]
      rw [if_neg h10]
      split
      · simp
      · split
        · simp
        · exact ih _ hrest
    · simp only [isDigit, Bool.and_eq_true, decide_eq_true_eq] at hd
      have hlow : ∀ x : Nat, 0x61 ≤ x ∧ x ≤ 0x7A → (byte (x + 256 - 0x61 + 10)).val ≥ 10 := by
        intro x hx
        rw [byte_val]; omega
      simp only [strconv.parseUintLoop, hd, if_false]
      by_cases hl : 0x61 ≤ (strconv.lower c).val ∧ (strconv.lower c).val ≤ 0x7A
      · have := hlow _ hl
        simp only [hl, and_self, if_true, this]
        simp
      · simp only [hl, if_false]
        simp


theorem ParseUint_digits (ds : GoString) (hne : ds ≠ []) (h : ∀ c ∈ ds, isDigit c = true) :
    strconv.ParseUint ds =
      if decimalValue 0 ds ≤ 2 ^ 64 - 1 then (decimalValue 0 ds, none)
      else (2 ^ 64 - 1, some .ErrRange) := by
  simp only [strconv.ParseUint, hne, if_false, strconv.IntSize]
  exact parseUintLoop_digits ds 0 (by norm_num) h

theorem ParseUint_bad (ds : GoString) (h : ¬ (ds ≠ [] ∧ ∀ c ∈ ds, isDigit c = true)) :
    (strconv.ParseUint ds).2 ≠ none ∧
    ((strconv.ParseUint ds).2 = some .ErrRange → (strconv.ParseUint ds).1 = 2 ^ 64 - 1) := by
  by_cases hne : ds = []
  · simp [strconv.ParseUint, hne]
  · have hnd : ¬ ∀ c ∈ ds, isDigit c = true := fun hall => h ⟨hne, hall⟩
    simp only [strconv.ParseUint, hne, if_false, strconv.IntSize]
    exact parseUintLoop_nondigit ds 0 hnd

/-- The function `ParseInt` on a non-empty string, as a function of the sign and
of the result of `ParseUint` on the rest. -/
theorem ParseInt_cons (s0 : Byte) (tl : GoString) :
    strconv.ParseInt (s0 :: tl) =
      (let neg := decide (s0 = byte 0x2D)
       let s1 := if s0 = byte 0x2B then tl else if s0 = byte 0x2D then tl else s0 :: tl
       if (strconv.ParseUint s1).2 = some .ErrSyntax then .error .ErrSyntax
       else if neg = false ∧ (strconv.ParseUint s1).1 ≥ 2 ^ 63 then .error .ErrRange
       else if neg = true ∧ (strconv.ParseUint s1).1 > 2 ^ 63 then .error .ErrRange
       else if neg = true then .ok (-((strconv.ParseUint s1).1 : Int))
       else .ok ((strconv.ParseUint s1).1 : Int)) := by
  simp only [strconv.ParseInt, strconv.IntSize]
  simp

theorem ParseInt_tail_iff (neg : Bool) (s1 : GoString) (n : Int) :
    (if (strconv.ParseUint s1).2 = some .ErrSyntax then
        (.error .ErrSyntax : Except strconv.NumError Int)
      else if neg = false ∧ (strconv.ParseUint s1).1 ≥ 2 ^ 63 then .error .ErrRange
      else if neg = true ∧ (strconv.ParseUint s1).1 > 2 ^ 63 then .error .ErrRange
      else if neg = true then .ok (-((strconv.ParseUint s1).1 : Int))
      else .ok ((strconv.ParseUint s1).1 : Int)) = .ok n ↔
    (s1 ≠ [] ∧ (∀ c ∈ s1, isDigit c = true) ∧
      n = (if neg = true then -(decimalValue 0 s1 : Int) else (decimalValue 0 s1 : Int)) ∧
      -(2 : Int) ^ 63 ≤ n ∧ n < (2 : Int) ^ 63) := by
  by_cases hshape : s1 ≠ [] ∧ ∀ c ∈ s1, isDigit c = true
  · rw [ParseUint_digits s1 hshape.1 hshape.2]
    generalize decimalValue 0 s1 = V
    by_cases hV : V ≤ 2 ^ 64 - 1
    · rw [if_pos hV]
      cases neg
      · simp only [Bool.false_eq_true, false_and, if_false, true_and, reduceCtorEq]
        by_cases h63 : V ≥ 2 ^ 63
        · simp only [h63, if_true, reduceCtorEq, false_iff]
          rintro ⟨_, _, rfl, _, h4⟩
          norm_num at h63 h4
          omega
        · simp only [h63, if_false, Except.ok.injEq]
          constructor
          · rintro rfl
            refine ⟨hshape.1, hshape.2, rfl, ?_, ?_⟩
            · norm_num; omega
            · norm_num at h63 ⊢; omega
          · rintro ⟨_, _, rfl, _, _⟩; rfl
      · simp only [Bool.true_eq_false, false_and, if_false, true_and, reduceCtorEq, if_true]
        by_cases h63 : V > 2 ^ 63
        · simp only [h63, if_true, reduceCtorEq, false_iff]
          rintro ⟨_, _, rfl, h3, _⟩
          norm_num at h63 h3
          omega
        · simp only [h63, if_false, Except.ok.injEq]
          constructor
          · rintro rfl
            refine ⟨hshape.1, hshape.2, rfl, ?_, ?_⟩
            · norm_num at h63 ⊢; omega
            · norm_num; omega
          · rintro ⟨_, _, rfl, _, _⟩; rfl
    · rw [if_neg hV]
      have hbig : (2 : Nat) ^ 64 - 1 > 2 ^ 63 := by norm_num
      have hbig2 : (2 : Nat) ^ 64 - 1 ≥ 2 ^ 63 := by norm_num
      cases neg
      · simp only [reduceCtorEq, if_false, hbig2, and_self, if_true]
        constructor
        · intro h; split at h <;> cases h
        · rintro ⟨_, _, rfl, _, h4⟩
          norm_num at hV h4
          omega
      · simp only [reduceCtorEq, if_false, Bool.true_eq_false, false_and, hbig, and_self, if_true]
        constructor
        · intro h; split at h <;> cases h
        · rintro ⟨_, _, rfl, h3, _⟩
          norm_num at hV h3
          omega
  · have hb := ParseUint_bad s1 hshape
    have hrhs : ¬ (s1 ≠ [] ∧ (∀ c ∈ s1, isDigit c = true) ∧
      n = (if neg = true then -(decimalValue 0 s1 : Int) else (decimalValue 0 s1 : Int)) ∧
      -(2 : Int) ^ 63 ≤ n ∧ n < (2 : Int) ^ 63) := fun h => hshape ⟨h.1, h.2.1⟩
    simp only [hrhs, iff_false]
    cases he : (strconv.ParseUint s1).2 with
    | none => exact absurd he hb.1
    | some e =>
      cases e with
      | ErrSyntax => simp
      | ErrRange =>
        have h1 := hb.2 he
        rw [h1]
        cases neg <;> simp

theorem isDigit_not_sign (c : Byte) (h : isDigit c = true) :
    c ≠ byte 0x2B ∧ c ≠ byte 0x2D := by
  constructor <;> intro e <;> subst e <;> exact absurd h (by decide)

theorem IsInt_nil (n : Int) : ¬ IsInt [] n := by
  rintro ⟨ds, hne, _, h | h | h, _⟩
  · exact hne h.1.symm
  · cases h.1
  · cases h.1

theorem IsInt_plus (tl : GoString) (n : Int) :
    IsInt (byte 0x2B :: tl) n ↔
      (tl ≠ [] ∧ (∀ c ∈ tl, isDigit c = true) ∧ n = (decimalValue 0 tl : Int) ∧
        -(2 : Int) ^ 63 ≤ n ∧ n < (2 : Int) ^ 63) := by
  constructor
  · rintro ⟨ds, hne, hd, h | h | h, hr⟩
    · have := (isDigit_not_sign _ (hd (byte 0x2B) (by rw [← h.1]; simp))).1
      exact absurd rfl this
    · obtain ⟨h1, h2⟩ := h
      simp only [List.cons.injEq, true_and] at h1
      subst h1
      exact ⟨hne, hd, h2, hr⟩
    · have := h.1
      simp only [List.cons.injEq] at this
      exact absurd this.1 (by decide)
  · rintro ⟨hne, hd, hn, hr⟩
    exact ⟨tl, hne, hd, Or.inr (Or.inl ⟨rfl, hn⟩), hr⟩

theorem IsInt_minus (tl : GoString) (n : Int) :
    IsInt (byte 0x2D :: tl) n ↔
      (tl ≠ [] ∧ (∀ c ∈ tl, isDigit c = true) ∧ n = -(decimalValue 0 tl : Int) ∧
        -(2 : Int) ^ 63 ≤ n ∧ n < (2 : Int) ^ 63) := by
  constructor
  · rintro ⟨ds, hne, hd, h | h | h, hr⟩
    · have := (isDigit_not_sign _ (hd (byte 0x2D) (by rw [← h.1]; simp))).2
      exact absurd rfl this
    · have := h.1
      simp only [List.cons.injEq] at this
      exact absurd this.1 (by decide)
    · obtain ⟨h1, h2⟩ := h
      simp only [List.cons.injEq, true_and] at h1
      subst h1
      exact ⟨hne, hd, h2, hr⟩
  · rintro ⟨hne, hd, hn, hr⟩
    exact ⟨tl, hne, hd, Or.inr (Or.inr ⟨rfl, hn⟩), hr⟩

theorem IsInt_unsigned (s0 : Byte) (tl : GoString) (n : Int)
    (h1 : s0 ≠ byte 0x2B) (h2 : s0 ≠ byte 0x2D) :
    IsInt (s0 :: tl) n ↔
      ((∀ c ∈ s0 :: tl, isDigit c = true) ∧ n = (decimalValue 0 (s0 :: tl) : Int) ∧
        -(2 : Int) ^ 63 ≤ n ∧ n < (2 : Int) ^ 63) := by
  constructor
  · rintro ⟨ds, hne, hd, h | h | h, hr⟩
    · obtain ⟨ha, hb⟩ := h
      subst ha
      exact ⟨hd, hb, hr⟩
    · have := h.1
      simp only [List.cons.injEq] at this
      exact absurd this.1 h1
    · have := h.1
      simp only [List.cons.injEq] at this
      exact absurd this.1 h2
  · rintro ⟨hd, hn, hr⟩
    exact ⟨s0 :: tl, by simp, hd, Or.inl ⟨rfl, hn⟩, hr⟩

/-- The function `strconv.ParseInt(s, 10, 0)` succeeds with `n` exactly when `s` is
the decimal notation of the `int` value `n`. -/
theorem ParseInt_iff (s : GoString) (n : Int) : strconv.ParseInt s = .ok n ↔ IsInt s n := by
  cases s with
  | nil =>
    simp only [strconv.ParseInt, reduceCtorEq, false_iff]
    exact IsInt_nil n
  | cons s0 tl =>
    rw [ParseInt_cons]
    simp only []
    rw [ParseInt_tail_iff]
    by_cases hp : s0 = byte 0x2B
    · subst hp
      rw [IsInt_plus]
      have : ¬ (byte 0x2B = byte 0x2D) := by decide
      simp [this]
    · by_cases hm : s0 = byte 0x2D
      · subst hm
        rw [IsInt_minus]
        simp
      · rw [IsInt_unsigned s0 tl n hp hm]
        simp [hp, hm]

/-- The function `strconv.Atoi` succeeds with `n` exactly when `s` is the decimal
notation of the `int` value `n`. -/
theorem Atoi_iff (s : GoString) (n : Int) : strconv.Atoi s = .ok n ↔ IsInt s n := by
  by_cases hlen : 0 < s.length ∧ s.length < 19
  · cases s with
    | nil => simp at hlen
    | cons s0 tl =>
      have hl : tl.length < 18 := by
        have := hlen.2
        simp only [List.length_cons] at this
        omega
      have hpow : ∀ ds : GoString, ds.length ≤ 18 → (∀ c ∈ ds, isDigit c = true) →
          (decimalValue 0 ds : Int) < 2 ^ 63 ∧ -(2 : Int) ^ 63 ≤ -(decimalValue 0 ds : Int) ∧
          -(2 : Int) ^ 63 ≤ (decimalValue 0 ds : Int) := by
        intro ds hk hd
        have h1 := decimalValue_lt ds 0 hd
        have h2 : 10 ^ ds.length ≤ 10 ^ 18 := Nat.pow_le_pow_right (by norm_num) hk
        have h3 : decimalValue 0 ds < 10 ^ 18 := by omega
        norm_num at h3 ⊢
        omega
      simp only [strconv.Atoi, hlen, and_self, if_true, List.getD_cons_zero, List.drop_succ_cons,
        List.drop_zero]
      by_cases hp : s0 = byte 0x2B
      · subst hp
        rw [IsInt_plus]
        have hne : ¬ (byte 0x2B = byte 0x2D) := by decide
        simp only [hne, or_true, false_or, if_true, true_and, if_false]
        by_cases he : tl.length < 1
        · have : tl = [] := List.length_eq_zero.1 (by omega)
          simp [he, this]
        · have hne2 : tl ≠ [] := fun e => he (by simp [e])
          simp only [he, if_false]
          cases ha : strconv.atoiLoop 0 tl with
          | none =>
            simp only [reduceCtorEq, false_iff]
            rintro ⟨_, hd, _, _⟩
            have := (atoiLoop_some tl 0 (decimalValue 0 tl)).2 ⟨hd, rfl⟩
            rw [ha] at this
            cases this
          | some v =>
            obtain ⟨hd, hv⟩ := (atoiLoop_some tl 0 v).1 ha
            have hr := hpow tl (by omega) hd
            simp only [Except.ok.injEq]
            constructor
            · rintro rfl
              exact ⟨hne2, hd, by rw [hv], by rw [hv]; exact hr.2.2, by rw [hv]; exact hr.1⟩
            · rintro ⟨_, _, hn, _⟩
              rw [hn, hv]
      · by_cases hm : s0 = byte 0x2D
        · subst hm
          rw [IsInt_minus]
          simp only [true_or, if_true, true_and]
          by_cases he : tl.length < 1
          · have : tl = [] := List.length_eq_zero.1 (by omega)
            simp [he, this]
          · have hne2 : tl ≠ [] := fun e => he (by simp [e])
            simp only [he, if_false]
            cases ha : strconv.atoiLoop 0 tl with
            | none =>
              simp only [reduceCtorEq, false_iff]
              rintro ⟨_, hd, _, _⟩
              have := (atoiLoop_some tl 0 (decimalValue 0 tl)).2 ⟨hd, rfl⟩
              rw [ha] at this
              cases this
            | some v =>
              obtain ⟨hd, hv⟩ := (atoiLoop_some tl 0 v).1 ha
              have hr := hpow tl (by omega) hd
              simp only [Except.ok.injEq]
              constructor
              · rintro rfl
                refine ⟨hne2, hd, by rw [hv], by rw [hv]; exact hr.2.1, ?_⟩
                rw [hv]
                have := hr.1
                omega
              · rintro ⟨_, _, hn, _⟩
                rw [hn, hv]
        · rw [IsInt_unsigned s0 tl n hp hm]
          simp only [hp, hm, or_self, if_false, false_and]
          cases ha : strconv.atoiLoop 0 (s0 :: tl) with
          | none =>
            simp only [reduceCtorEq, false_iff]
            rintro ⟨hd, _, _⟩
            have := (atoiLoop_some (s0 :: tl) 0 (decimalValue 0 (s0 :: tl))).2 ⟨hd, rfl⟩
            rw [ha] at this
            cases this
          | some v =>
            obtain ⟨hd, hv⟩ := (atoiLoop_some (s0 :: tl) 0 v).1 ha
            have hr := hpow (s0 :: tl) (by simp only [List.length_cons]; omega) hd
            simp only [Except.ok.injEq]
            constructor
            · rintro rfl
              exact ⟨hd, by rw [hv], by rw [hv]; exact hr.2.2, by rw [hv]; exact hr.1⟩
            · rintro ⟨_, hn, _⟩
              rw [hn, hv]
  · simp only [strconv.Atoi, hlen, if_false]
    exact ParseInt_iff s n

theorem Getenv_unset (envs : List GoString) (key : GoString) (h : Unset envs key) :
    os.Getenv envs key = [] := by
  unfold os.Getenv
  split
  · rfl
  · have : envs.find? (fun s => decide ((os.cutEntry s).map Prod.fst = some key)) = none := by
      rw [List.find?_eq_none]
      intro s hs
      simpa using h s hs
    rw [this]

theorem not_IsInt_of_text (s : GoString) (c : Byte) (hc : c ∈ s) (hd : isDigit c = false)
    (h1 : c ≠ byte 0x2B) (h2 : c ≠ byte 0x2D) (n : Int) : ¬ IsInt s n := by
  rintro ⟨ds, _, hall, h | h | h, _⟩
  · rw [h.1] at hc
    rw [hall c hc] at hd
    cases hd
  · rw [h.1] at hc
    rcases List.mem_cons.1 hc with e | e
    · exact h1 e
    · rw [hall c e] at hd
      cases hd
  · rw [h.1] at hc
    rcases List.mem_cons.1 hc with e | e
    · exact h2 e
    · rw [hall c e] at hd
      cases hd

/-- C10: `getEnvAsInt` is a total function of the environment, the key and the
default `d`. When the value of the variable is the decimal notation of an `int`
value `n` (optional sign, one or more digits, within the 64-bit range) it returns
`n`, so "8080" gives 8080; when the value is not such a notation it returns `d`,
so "invalid" gives `d`, and so do the empty value and an unset variable. -/
theorem getEnvAsInt_parsed_or_default (envs : List GoString) (key : GoString) (d : Int) :
    (∀ n, IsInt (os.Getenv envs key) n → getEnvAsInt envs key d = n) ∧
    ((¬ ∃ n, IsInt (os.Getenv envs key) n) → getEnvAsInt envs key d = d) ∧
    (os.Getenv envs key = str "8080" → getEnvAsInt envs key d = 8080) ∧
    (os.Getenv envs key = str "invalid" → getEnvAsInt envs key d = d) ∧
    (os.Getenv envs key = [] → getEnvAsInt envs key d = d) ∧
    (Unset envs key → getEnvAsInt envs key d = d) := by
  have hpos : ∀ n, IsInt (os.Getenv envs key) n → getEnvAsInt envs key d = n := by
    intro n hn
    have hne : os.Getenv envs key ≠ [] := fun e => IsInt_nil n (e ▸ hn)
    simp [getEnvAsInt, hne, (Atoi_iff _ n).2 hn]
  have hneg : (¬ ∃ n, IsInt (os.Getenv envs key) n) → getEnvAsInt envs key d = d := by
    intro h
    unfold getEnvAsInt
    simp only []
    split
    · cases ha : strconv.Atoi (os.Getenv envs key) with
      | ok n => exact absurd ⟨n, (Atoi_iff _ n).1 ha⟩ h
      | error e => rfl
    · rfl
  have hempty : os.Getenv envs key = [] → getEnvAsInt envs key d = d := by
    intro h
    simp [getEnvAsInt, h]
  refine ⟨hpos, hneg, ?_, ?_, hempty, fun h => hempty (Getenv_unset envs key h)⟩
  · intro h
    apply hpos
    rw [h]
    have hs : str "8080" = [byte 0x38, byte 0x30, byte 0x38, byte 0x30] := by decide
    have hv : decimalValue 0 (str "8080") = 8080 := by decide
    have hd : ∀ c ∈ str "8080", isDigit c = true := by
      rw [hs]
      intro c hc
      simp only [List.mem_cons, List.mem_singleton, List.not_mem_nil, or_false] at hc
      rcases hc with e | e | e | e <;> subst e <;> decide
    exact ⟨str "8080", by rw [hs]; simp, hd, Or.inl ⟨rfl, by rw [hv]; rfl⟩, by norm_num,
      by norm_num⟩
  · intro h
    apply hneg
    rintro ⟨n, hn⟩
    rw [h] at hn
    exact not_IsInt_of_text (str "invalid") (byte 0x69) (by decide) (by decide) (by decide)
      (by decide) n hn
/-! ## Local addresses -/

theorem digit_val (x : Nat) : (net.digit x).val = 0x30 + x % 10 := by
  simp only [net.digit, byte_val]
  omega

theorem isDigit_digit (x : Nat) : isDigit (net.digit x) = true := by
  simp only [isDigit, digit_val, Bool.and_eq_true, decide_eq_true_eq]
  omega

/-- The decimal digits that `appendDecimal` writes for a byte denote that byte. -/
theorem appendDecimal_octet (x : Byte) : IsOctet (net.appendDecimal x) := by
  have hx := x.isLt
  refine ⟨?_, ?_, ?_⟩
  · simp [net.appendDecimal]
  · intro c hc
    simp only [net.appendDecimal, List.mem_append, List.mem_singleton] at hc
    rcases hc with (hc | hc) | hc
    · split at hc
      · simp only [List.mem_singleton] at hc
        rw [hc]; exact isDigit_digit _
      · simp at hc
    · split at hc
      · simp only [List.mem_singleton] at hc
        rw [hc]; exact isDigit_digit _
      · simp at hc
    · rw [hc]; exact isDigit_digit _
  · simp only [net.appendDecimal]
    by_cases h100 : x.val ≥ 100
    · have h10 : x.val ≥ 10 := by omega
      simp only [h100, h10, if_true, List.singleton_append, List.cons_append, List.nil_append,
        decimalValue, List.foldl_cons, List.foldl_nil, digit_val]
      omega
    · by_cases h10 : x.val ≥ 10
      · simp only [h100, h10, if_true, if_false, List.nil_append, List.singleton_append,
          List.cons_append, decimalValue, List.foldl_cons, List.foldl_nil, digit_val]
        omega
      · simp only [h100, h10, if_false, List.nil_append, decimalValue, List.foldl_cons,
          List.foldl_nil, digit_val]
        omega

theorem string4_dotted (a b c d : Byte) : IsDottedQuad (net.string4 a b c d) :=
  ⟨net.appendDecimal a, net.appendDecimal b, net.appendDecimal c, net.appendDecimal d,
    appendDecimal_octet a, appendDecimal_octet b, appendDecimal_octet c, appendDecimal_octet d,
    rfl⟩

theorem To4_length (ip : net.IP) (b : List Byte) (h : ip.To4 = some b) : b.length = 4 := by
  unfold net.IP.To4 at h
  simp only [net.IPv4len, net.IPv6len] at h
  split at h
  · rename_i h4
    rw [h] at h4
    simpa using h4
  · split at h
    · rename_i h16
      simp only [Option.some.injEq] at h
      rw [← h]
      simp only [List.length_take, List.length_drop]
      omega
    · cases h

theorem To4_of_four (b : List Byte) (h : b.length = 4) : net.IP.To4 (some b) = some b := by
  simp [net.IP.To4, net.IPv4len, h]

theorem String_of_four (b : List Byte) (h : b.length = 4) :
    IsDottedQuad (net.IP.String (some b)) := by
  match b, h with
  | [a, b, c, d], _ =>
    have h4 := To4_of_four [a, b, c, d] rfl
    simp only [net.IP.String, Option.getD_some, List.length_cons, List.length_nil, net.IPv4len,
      net.IPv6len, h4]
    simp only [Nat.reduceAdd, OfNat.ofNat_ne_zero, if_false, ne_eq, not_true_eq_false, false_and]
    exact string4_dotted a b c d

theorem foldl_append_inv {β : Type} (P : GoString → Prop) (l : List β)
    (f : Option (List GoString) → β → Option (List GoString)) (init : Option (List GoString))
    (hinit : ∀ s ∈ init.getD [], P s)
    (hstep : ∀ acc x, x ∈ l → (∀ s ∈ acc.getD [], P s) → ∀ s ∈ (f acc x).getD [], P s) :
    ∀ s ∈ (l.foldl f init).getD [], P s := by
  induction l generalizing init with
  | nil => simpa using hinit
  | cons x l ih =>
    simp only [List.foldl_cons]
    apply ih
    · exact hstep init x (by simp) hinit
    · intro acc y hy
      exact hstep acc y (by simp [hy])

/-- Every string of the result of `getLocalIPs` is the text `IP.String` of the
4-byte form `To4` of an address of one of the interfaces. -/
theorem getLocalIPs_origin (ifaces : List net.Interface) :
    ∀ s ∈ (getLocalIPs (.ok ifaces)).getD [],
      ∃ iface addrs addr ip4, iface ∈ ifaces ∧ iface.Addrs = .ok addrs ∧ addr ∈ addrs ∧
        (addrIP addr).To4 = some ip4 ∧ s = net.IP.String (some ip4) := by
  unfold getLocalIPs
  simp only []
  apply foldl_append_inv
  · simp
  · intro acc iface hif hacc
    split
    · exact hacc
    · split
      · exact hacc
      · split
        · exact hacc
        · rename_i addrs hadd
          apply foldl_append_inv
          · exact hacc
          · intro acc2 addr haddr hacc2
            split
            · exact hacc2
            · split
              · exact hacc2
              · rename_i ip4 h4
                intro s hs
                simp only [append, Option.getD_some, List.mem_append, List.mem_singleton] at hs
                rcases hs with hs | hs
                · exact hacc2 s hs
                · exact ⟨iface, addrs, addr, ip4, hif, hadd, haddr, h4, hs⟩

/-- C8: for every state of the host interfaces, every string in the result of
`getLocalIPs` consists of four decimal octets, each denoting a number in
[0,255], separated by dots. Each such string is the dotted form of the 4-byte
form `To4` of an address of one of the interfaces, so an address without IPv4
form contributes nothing; an enumeration error gives the `nil` result. -/
theorem getLocalIPs_dotted_quads (interfaces : Except String (List net.Interface)) :
    (∀ s ∈ (getLocalIPs interfaces).getD [], IsDottedQuad s) ∧
    (∀ s ∈ (getLocalIPs interfaces).getD [],
      ∃ ifaces iface addrs addr ip4, interfaces = .ok ifaces ∧ iface ∈ ifaces ∧
        iface.Addrs = .ok addrs ∧ addr ∈ addrs ∧ (addrIP addr).To4 = some ip4 ∧
        s = net.IP.String (some ip4)) ∧
    (∀ e, interfaces = .error e → getLocalIPs interfaces = none) := by
  cases interfaces with
  | error e =>
    refine ⟨?_, ?_, ?_⟩
    · simp [getLocalIPs]
    · simp [getLocalIPs]
    · intro _ _; rfl
  | ok ifaces =>
    refine ⟨?_, ?_, ?_⟩
    · intro s hs
      obtain ⟨iface, addrs, addr, ip4, _, _, _, h4, rfl⟩ := getLocalIPs_origin ifaces s hs
      exact String_of_four ip4 (To4_length _ _ h4)
    · intro s hs
      obtain ⟨iface, addrs, addr, ip4, h⟩ := getLocalIPs_origin ifaces s hs
      exact ⟨ifaces, iface, addrs, addr, ip4, rfl, h⟩
    · intro e h
      cases h
/-! ## The text rendering -/

theorem less_irrefl (a : GoString) : less a a = false := by
  induction a with
  | nil => rfl
  | cons x a ih => simp [less, ih]

theorem less_trichotomy (a b : GoString) (h1 : less a b = false) (h2 : less b a = false) :
    a = b := by
  induction a generalizing b with
  | nil =>
    cases b with
    | nil => rfl
    | cons y b => simp [less] at h1
  | cons x a ih =>
    cases b with
    | nil => simp [less] at h2
    | cons y b =>
      simp only [less, Bool.or_eq_false_iff, decide_eq_false_iff_not, Bool.and_eq_false_iff,
        not_lt] at h1 h2
      have hxy : x = y := Fin.ext (by omega)
      subst hxy
      have h1' : less a b = false := by simpa using h1.2
      have h2' : less b a = false := by simpa using h2.2
      rw [ih b h1' h2']

theorem less_trans (a b c : GoString) (h1 : less a b = true) (h2 : less b c = true) :
    less a c = true := by
  induction a generalizing b c with
  | nil =>
    cases b with
    | nil => simp [less] at h1
    | cons y b =>
      cases c with
      | nil => simp [less] at h2
      | cons z c => rfl
  | cons x a ih =>
    cases b with
    | nil => simp [less] at h1
    | cons y b =>
      cases c with
      | nil => simp [less] at h2
      | cons z c =>
        simp only [less, Bool.or_eq_true, decide_eq_true_eq, Bool.and_eq_true] at h1 h2 ⊢
        rcases h1 with h1 | ⟨e1, h1⟩
        · rcases h2 with h2 | ⟨e2, h2⟩
          · left; omega
          · left; rw [← e2]; exact h1
        · rcases h2 with h2 | ⟨e2, h2⟩
          · left; rw [e1]; exact h2
          · right; exact ⟨e1.trans e2, ih b c h1 h2⟩

theorem less_asymm (a b : GoString) (h : less a b = true) : less b a = false := by
  cases hba : less b a with
  | false => rfl
  | true =>
    have := less_trans a b a h hba
    rw [less_irrefl] at this
    cases this

theorem lessTotal : IsTotal GoString (fun a b => less b a = false) :=
  ⟨fun a b => by
    cases h : less b a with
    | false => exact Or.inl rfl
    | true => exact Or.inr (less_asymm b a h)⟩

theorem lessTrans : IsTrans GoString (fun a b => less b a = false) :=
  ⟨fun a b c hab hbc => by
    cases hca : less c a with
    | false => rfl
    | true =>
      cases hab2 : less a b with
      | false =>
        have e := less_trichotomy a b hab2 hab
        subst e
        rw [hca] at hbc
        cases hbc
      | true =>
        have := less_trans c a b hca hab2
        rw [this] at hbc
        cases hbc⟩

theorem lessAntisymm : IsAntisymm GoString (fun a b => less b a = false) :=
  ⟨fun a b hab hba => less_trichotomy a b hba hab⟩

theorem Strings_perm (l : List GoString) : (sort.Strings l).Perm l :=
  List.perm_insertionSort _ l

theorem Strings_sorted (l : List GoString) :
    (sort.Strings l).Sorted (fun a b => less b a = false) :=
  haveI := lessTotal
  haveI := lessTrans
  List.sorted_insertionSort _ l

/-- Sorting strings that are pairwise distinct gives a strictly ascending list. -/
theorem Strings_strict (l : List GoString) (hn : l.Nodup) :
    (sort.Strings l).Sorted (fun a b => less a b = true) := by
  have hs := Strings_sorted l
  have hnd : (sort.Strings l).Nodup := (Strings_perm l).nodup_iff.2 hn
  unfold List.Sorted at hs ⊢
  have := List.Pairwise.and hs hnd
  refine this.imp ?_
  intro a b hab
  cases h : less a b with
  | true => rfl
  | false => exact absurd (less_trichotomy a b h hab.1) hab.2

/-- The result of sorting does not depend on the order of the input. -/
theorem Strings_of_perm (l1 l2 : List GoString) (h : l1.Perm l2) :
    sort.Strings l1 = sort.Strings l2 :=
  haveI := lessAntisymm
  List.eq_of_perm_of_sorted ((Strings_perm l1).trans (h.trans (Strings_perm l2).symm))
    (Strings_sorted l1) (Strings_sorted l2)

theorem foldl_append_lines (f : GoString → GoString) (keys : List GoString) (sb : GoString) :
    keys.foldl (fun sb key => sb ++ f key) sb = sb ++ keys.flatMap f := by
  induction keys generalizing sb with
  | nil => simp
  | cons k keys ih => simp [ih, List.append_assoc]

theorem Sprintf_entry (x y : GoString) :
    fmt.Sprintf (str "  %s: %s\n") [x, y] = str "  " ++ (x ++ (str ": " ++ (y ++ [byte 0x0A]))) :=
  rfl

theorem unlines_append (a b : List GoString) : unlines (a ++ b) = unlines a ++ unlines b := by
  simp [unlines]

theorem unlines_cons (a : GoString) (b : List GoString) :
    unlines (a :: b) = a ++ byte 0x0A :: unlines b := by
  simp [unlines]

theorem unlines_nil : unlines [] = [] := rfl

theorem section_lines (m : Option StringMap) (keys : List GoString) :
    keys.flatMap (fun key => fmt.Sprintf (str "  %s: %s\n") [key, index m key]) =
      unlines (keys.map (entryLine m)) := by
  induction keys with
  | nil => rfl
  | cons k keys ih =>
    rw [List.flatMap_cons, ih]
    simp only [List.map_cons, unlines_cons, Sprintf_entry, entryLine, List.append_assoc,
      List.singleton_append]

/-- The output of `formatAsText` as a list of lines. -/
theorem formatAsText_lines (info : RequestInfo) :
    formatAsText info =
      unlines (scalarLines info ++ [[], str "Headers:"] ++
        (sort.Strings (rangeKeys info.Headers)).map (entryLine info.Headers) ++
        [[], str "Environment:"] ++
        (sort.Strings (rangeKeys info.Environment)).map (entryLine info.Environment)) := by
  have h1 : ∀ x, fmt.Sprintf (str "Hostname: %s\n") [x] = str "Hostname: " ++ (x ++ [byte 0x0A]) :=
    fun _ => rfl
  have h2 : ∀ x, fmt.Sprintf (str "Name: %s\n") [x] = str "Name: " ++ (x ++ [byte 0x0A]) :=
    fun _ => rfl
  have h3 : ∀ x, fmt.Sprintf (str "IP: %s\n") [x] = str "IP: " ++ (x ++ [byte 0x0A]) :=
    fun _ => rfl
  have h4 : ∀ x, fmt.Sprintf (str "RemoteAddr: %s\n") [x] =
      str "RemoteAddr: " ++ (x ++ [byte 0x0A]) := fun _ => rfl
  have h5 : ∀ x, fmt.Sprintf (str "Host: %s\n") [x] = str "Host: " ++ (x ++ [byte 0x0A]) :=
    fun _ => rfl
  have h6 : ∀ x, fmt.Sprintf (str "URL: %s\n") [x] = str "URL: " ++ (x ++ [byte 0x0A]) :=
    fun _ => rfl
  have h7 : ∀ x, fmt.Sprintf (str "Method: %s\n") [x] = str "Method: " ++ (x ++ [byte 0x0A]) :=
    fun _ => rfl
  have h8 : ∀ x, fmt.Sprintf (str "RealIP: %s\n") [x] = str "RealIP: " ++ (x ++ [byte 0x0A]) :=
    fun _ => rfl
  have h9 : ∀ x, fmt.Sprintf (str "Protocol: %s\n") [x] =
      str "Protocol: " ++ (x ++ [byte 0x0A]) := fun _ => rfl
  have h10 : ∀ x, fmt.Sprintf (str "OS: %s\n") [x] = str "OS: " ++ (x ++ [byte 0x0A]) :=
    fun _ => rfl
  have h11 : ∀ x, fmt.Sprintf (str "Architecture: %s\n") [x] =
      str "Architecture: " ++ (x ++ [byte 0x0A]) := fun _ => rfl
  have h12 : ∀ x, fmt.Sprintf (str "Runtime: %s\n") [x] = str "Runtime: " ++ (x ++ [byte 0x0A]) :=
    fun _ => rfl
  have h13 : ∀ x, fmt.Sprintf (str "Time: %s\n") [x] = str "Time: " ++ (x ++ [byte 0x0A]) :=
    fun _ => rfl
  have h14 : ∀ x, fmt.Sprintf (str "Version: %s\n") [x] = str "Version: " ++ (x ++ [byte 0x0A]) :=
    fun _ => rfl
  have hh : str "\nHeaders:\n" = byte 0x0A :: (str "Headers:" ++ [byte 0x0A]) := by decide
  have he : str "\nEnvironment:\n" = byte 0x0A :: (str "Environment:" ++ [byte 0x0A]) := by decide
  simp only [formatAsText, foldl_append_lines, section_lines, h1, h2, h3, h4, h5, h6, h7, h8, h9,
    h10, h11, h12, h13, h14, hh, he, scalarLines]
  by_cases hn : info.Name = []
  · simp [hn, unlines_append, unlines_cons, unlines_nil, List.append_assoc]
  · simp [hn, unlines_append, unlines_cons, unlines_nil, List.append_assoc]

theorem Join_intercalate (l : List GoString) (sep : GoString) :
    strings.Join l sep = List.intercalate sep l := by
  induction l with
  | nil => rfl
  | cons a l ih =>
    cases l with
    | nil => simp [strings.Join, List.intercalate]
    | cons b l =>
      simp only [strings.Join, ih]
      simp [List.intercalate, List.intersperse, List.append_assoc]

theorem rangeKeys_nodup (m : Option StringMap) : (rangeKeys m).Nodup := by
  cases m with
  | none => exact List.nodup_nil
  | some m => exact m.keys_nodup

/-- C5: for every report, the output of `formatAsText` is the following lines,
each ended by the line terminator (byte 0x0A): `Hostname: `, then `Name: ` if and
only if the name is not empty, then `IP: ` with the addresses joined with ", " in
their order, `RemoteAddr: `, `Host: `, `URL: `, `Method: `, `RealIP: `,
`Protocol: `, `OS: `, `Architecture: `, `Runtime: `, `Time: `, `Version: `, each
followed by the value of the field; then an empty line, `Headers:`, the lines of
the headers, an empty line, `Environment:` and the lines of the environment. -/
theorem formatAsText_field_order (info : RequestInfo) :
    formatAsText info = unlines (
      [str "Hostname: " ++ info.Hostname] ++
      (if info.Name ≠ [] then [str "Name: " ++ info.Name] else []) ++
      [str "IP: " ++ List.intercalate (str ", ") (info.IP.getD []),
       str "RemoteAddr: " ++ info.RemoteAddr,
       str "Host: " ++ info.Host,
       str "URL: " ++ info.URL,
       str "Method: " ++ info.Method,
       str "RealIP: " ++ info.RealIP,
       str "Protocol: " ++ info.Protocol,
       str "OS: " ++ info.OS,
       str "Architecture: " ++ info.Architecture,
       str "Runtime: " ++ info.Runtime,
       str "Time: " ++ info.Time,
       str "Version: " ++ info.Version,
       [],
       str "Headers:"] ++
      (sort.Strings (rangeKeys info.Headers)).map
        (fun key => str "  " ++ key ++ str ": " ++ index info.Headers key) ++
      [[], str "Environment:"] ++
      (sort.Strings (rangeKeys info.Environment)).map
        (fun key => str "  " ++ key ++ str ": " ++ index info.Environment key)) := by
  have e1 : (fun key => str "  " ++ key ++ str ": " ++ index info.Headers key) =
      entryLine info.Headers := rfl
  have e2 : (fun key => str "  " ++ key ++ str ": " ++ index info.Environment key) =
      entryLine info.Environment := rfl
  rw [formatAsText_lines, e1, e2]
  simp only [scalarLines, Join_intercalate, List.append_assoc, List.cons_append, List.nil_append]

/-- Cutting the text of a list of lines, none of which contains the line
terminator, gives the lines back. -/
theorem splitLines_unlines (ls : List GoString) (h : ∀ l ∈ ls, byte 0x0A ∉ l) :
    splitLines (unlines ls) = ls := by
  induction ls with
  | nil => rfl
  | cons l ls ih =>
    have ih2 := ih (fun x hx => h x (by simp [hx]))
    have hl := h l (by simp)
    rw [unlines_cons]
    clear h ih
    induction l with
    | nil => simp [splitLines, ih2]
    | cons c l ihl =>
      have hc : c ≠ byte 0x0A := fun e => hl (by simp [e])
      have hl2 : byte 0x0A ∉ l := fun hm => hl (by simp [hm])
      have e : splitLines (c :: (l ++ byte 0x0A :: unlines ls)) =
          match splitLines (l ++ byte 0x0A :: unlines ls) with
          | [] => [[c]]
          | x :: xs => (c :: x) :: xs := by
        simp only [splitLines, hc, if_false]
      rw [List.cons_append, e, ihl hl2]

theorem entryLine_single (m : Option StringMap) (k : GoString) (hk : byte 0x0A ∉ k)
    (hv : byte 0x0A ∉ index m k) : byte 0x0A ∉ entryLine m k := by
  have h1 : byte 0x0A ∉ str "  " := by decide
  have h2 : byte 0x0A ∉ str ": " := by decide
  simp only [entryLine, List.mem_append, not_or]
  exact ⟨⟨⟨h1, hk⟩, h2⟩, hv⟩

theorem entryLines_single (m : Option StringMap) (keys : List GoString) (hm : SingleLine m)
    (hk : keys.Perm (rangeKeys m)) : ∀ l ∈ keys.map (entryLine m), byte 0x0A ∉ l := by
  intro l hl
  obtain ⟨k, hk1, rfl⟩ := List.mem_map.1 hl
  have := hm k (hk.subset hk1)
  exact entryLine_single m k this.1 this.2

/-- The keys of a map in any order, each with the value that the map holds for
it, are the entries of the map. -/
theorem entries_of_keys (m : Option StringMap) (keys : List GoString)
    (hk : keys.Perm (rangeKeys m)) :
    (keys.map (fun k => (⟨k, index m k⟩ : Σ _ : GoString, GoString))).Perm (mapEntries m) := by
  cases m with
  | none =>
    have : keys = [] := List.Perm.eq_nil hk
    subst this
    exact List.Perm.refl _
  | some m =>
    refine (hk.map _).trans (List.Perm.of_eq ?_)
    show (m.entries.map Sigma.fst).map _ = m.entries
    rw [List.map_map]
    conv_rhs => rw [← List.map_id m.entries]
    apply List.map_congr_left
    intro e he
    have hl : m.lookup e.1 = some e.2 := by
      have : e.2 ∈ m.lookup e.1 := AList.mem_lookup_iff.2 he
      exact this
    simp only [Function.comp, index, hl, Option.getD_some, id]

/-- C4 as stated fails for a value that holds a line terminator: the environment
of `newlineInfo`, which is the one that `getRequestInfo` builds on the host
`newlineHost`, has one entry, the variable `A`, and the section under
`Environment:` has two lines, `  A: 1` and `  B: 2`, so that its lines are not
the lines of the entries; the text is the text of `twoEntryInfo`, whose
environment has two entries. -/
theorem formatAsText_newline_counterexample :
    (getRequestInfo newlineHost testConfig plainRequest).Environment =
      newlineInfo.Environment ∧
    rangeKeys newlineInfo.Environment = [str "A"] ∧
    splitLines (formatAsText newlineInfo) =
      [str "Hostname: host", str "IP: ", str "RemoteAddr: ", str "Host: ", str "URL: ",
       str "Method: ", str "RealIP: ", str "Protocol: ", str "OS: ", str "Architecture: ",
       str "Runtime: ", str "Time: ", str "Version: ", [], str "Headers:", [],
       str "Environment:", str "  A: 1", str "  B: 2"] ∧
    (¬ ∃ ek : List GoString, ek.Perm (rangeKeys newlineInfo.Environment) ∧
      (splitLines (formatAsText newlineInfo)).drop 17 =
        ek.map (entryLine newlineInfo.Environment)) ∧
    rangeKeys twoEntryInfo.Environment = [str "B", str "A"] ∧
    formatAsText newlineInfo = formatAsText twoEntryInfo := by
  refine ⟨by decide, by decide, by decide, ?_, by decide, by decide⟩
  rintro ⟨ek, hp, he⟩
  have h1 : ek.length = 1 := by
    rw [hp.length_eq]
    decide
  have h2 := congrArg List.length he
  rw [List.length_map, h1] at h2
  exact absurd h2 (by decide)

/-- C4, amended: for every report the output of `formatAsText` is the lines of
the scalar fields, an empty line, `Headers:`, the section of the headers, an
empty line, `Environment:` and the section of the environment, where the section
of a map is written from the keys of the map in strictly ascending lexicographic
order, each with the value of its entry. When no key and no value of the map
holds a line terminator (byte 0x0A), the section, cut at the line terminators,
is exactly one line `  key: value` for each entry of the map, in that order; when
this holds of both maps and the scalar lines hold no line terminator either, the
whole output cut at the line terminators is this list of lines. For every report the output does not depend
on the iteration order of the maps: replacing the maps by maps with the same
entries leaves it unchanged. For the report of the test, `  Accept: text/html`
comes before `  User-Agent: test-agent`. -/
theorem formatAsText_sorted_sections :
    (∀ info : RequestInfo, ∃ hk ek : List GoString,
      hk.Perm (rangeKeys info.Headers) ∧ hk.Sorted (fun a b => less a b = true) ∧
      ek.Perm (rangeKeys info.Environment) ∧ ek.Sorted (fun a b => less a b = true) ∧
      (hk.map (fun k => (⟨k, index info.Headers k⟩ : Σ _ : GoString, GoString))).Perm
        (mapEntries info.Headers) ∧
      (ek.map (fun k => (⟨k, index info.Environment k⟩ : Σ _ : GoString, GoString))).Perm
        (mapEntries info.Environment) ∧
      formatAsText info =
        unlines (scalarLines info) ++ unlines [[], str "Headers:"] ++
          unlines (hk.map (entryLine info.Headers)) ++ unlines [[], str "Environment:"] ++
          unlines (ek.map (entryLine info.Environment)) ∧
      (SingleLine info.Headers →
        splitLines (unlines (hk.map (entryLine info.Headers))) =
          hk.map (entryLine info.Headers) ∧
        (splitLines (unlines (hk.map (entryLine info.Headers)))).length =
          (rangeKeys info.Headers).length) ∧
      (SingleLine info.Environment →
        splitLines (unlines (ek.map (entryLine info.Environment))) =
          ek.map (entryLine info.Environment) ∧
        (splitLines (unlines (ek.map (entryLine info.Environment)))).length =
          (rangeKeys info.Environment).length) ∧
      (SingleLine info.Headers → SingleLine info.Environment →
        (∀ l ∈ scalarLines info, byte 0x0A ∉ l) →
        splitLines (formatAsText info) =
          scalarLines info ++ [[], str "Headers:"] ++ hk.map (entryLine info.Headers) ++
            [[], str "Environment:"] ++ ek.map (entryLine info.Environment))) ∧
    (∀ (info : RequestInfo) (headers environment : Option StringMap),
      SameEntries info.Headers headers → SameEntries info.Environment environment →
      formatAsText { info with Headers := headers, Environment := environment } =
        formatAsText info) ∧
    splitLines (formatAsText testInfo) =
      [str "Hostname: test-host", str "Name: test-name", str "IP: 192.168.1.1, 10.0.0.1",
       str "RemoteAddr: 192.168.1.100:1234", str "Host: example.com",
       str "URL: /test?param=value", str "Method: GET", str "RealIP: 192.168.1.100",
       str "Protocol: HTTP/1.1", str "OS: linux", str "Architecture: amd64",
       str "Runtime: go1.21.0", str "Time: 2023-01-01T12:00:00Z", str "Version: dev",
       [], str "Headers:", str "  Accept: text/html", str "  User-Agent: test-agent",
       [], str "Environment:", str "  HOME: /home/user", str "  PATH: /usr/bin"] := by
  refine ⟨?_, ?_, ?_⟩
  · intro info
    have ph := Strings_perm (rangeKeys info.Headers)
    have pe := Strings_perm (rangeKeys info.Environment)
    refine ⟨sort.Strings (rangeKeys info.Headers), sort.Strings (rangeKeys info.Environment),
      ph, Strings_strict _ (rangeKeys_nodup _), pe, Strings_strict _ (rangeKeys_nodup _),
      entries_of_keys _ _ ph, entries_of_keys _ _ pe, ?_, ?_, ?_, ?_⟩
    · rw [formatAsText_lines]
      simp only [unlines_append, List.append_assoc]
    · intro hh
      have lh := entryLines_single info.Headers _ hh ph
      rw [splitLines_unlines _ lh, List.length_map, ph.length_eq]
      exact ⟨rfl, rfl⟩
    · intro he
      have le := entryLines_single info.Environment _ he pe
      rw [splitLines_unlines _ le, List.length_map, pe.length_eq]
      exact ⟨rfl, rfl⟩
    · intro hh he hs
      have lh := entryLines_single info.Headers _ hh ph
      have le := entryLines_single info.Environment _ he pe
      rw [formatAsText_lines]
      apply splitLines_unlines
      intro l hl
      simp only [List.mem_append, List.mem_cons, List.mem_singleton, List.not_mem_nil,
        or_false] at hl
      rcases hl with (((h | h) | h) | h) | h
      · exact hs l h
      · rcases h with rfl | rfl <;> decide
      · exact lh l h
      · rcases h with rfl | rfl <;> decide
      · exact le l h
  · intro info headers environment hh he
    rw [formatAsText_lines, formatAsText_lines]
    have h1 : scalarLines { info with Headers := headers, Environment := environment } =
        scalarLines info := rfl
    have h2 : entryLine headers = entryLine info.Headers := by
      funext k
      simp only [entryLine, hh.2 k]
    have h3 : entryLine environment = entryLine info.Environment := by
      funext k
      simp only [entryLine, he.2 k]
    simp only [h1, h2, h3, Strings_of_perm _ _ hh.1.symm, Strings_of_perm _ _ he.1.symm]
  · decide
/-! ## The report builder -/

theorem foldl_insert_lookup {β : Type} (f : β → GoString) (l : List (Σ _ : GoString, β))
    (hnd : l.NodupKeys) (init : StringMap) (k : GoString) :
    (l.foldl (fun m e => m.insert e.1 (f e.2)) init).lookup k =
      match l.dlookup k with
      | some v => some (f v)
      | none => init.lookup k := by
  induction l generalizing init with
  | nil => simp
  | cons e l ih =>
    obtain ⟨hk, hl⟩ := List.nodupKeys_cons.1 hnd
    rw [List.foldl_cons, ih hl]
    by_cases he : k = e.1
    · subst he
      have : l.dlookup e.1 = none := List.dlookup_eq_none.2 hk
      rw [this, List.dlookup_cons_eq]
      simp [AList.lookup_insert]
    · rw [List.dlookup_cons_ne _ _ he]
      cases l.dlookup k with
      | some v => rfl
      | none => simp [AList.lookup_insert_ne he]

/-- C9: for every request, configuration and host state, the report of
`getRequestInfo` has the method, the URL text (`URL.String()`, the target with
its query string), the protocol, the remote address and the host of the request,
the configured name, the result of `getRealIP` as real IP, and a headers map
whose keys are exactly the header names of the request, each with the values of
that header joined with ", " in their order. For `POST /api?test=value` with
`X-Real-IP: 10.0.0.1` and the configured name "test-server" the report has that
name, URL and method and the real IP "10.0.0.1". -/
theorem getRequestInfo_fields :
    (∀ (host : HostState) (config : Config) (r : http.Request),
      (getRequestInfo host config r).Method = r.Method ∧
      (getRequestInfo host config r).URL = r.URL.String ∧
      (getRequestInfo host config r).Protocol = r.Proto ∧
      (getRequestInfo host config r).RemoteAddr = r.RemoteAddr ∧
      (getRequestInfo host config r).Host = r.Host ∧
      (getRequestInfo host config r).Name = config.Name ∧
      (getRequestInfo host config r).RealIP = getRealIP r ∧
      ∃ headers : StringMap, (getRequestInfo host config r).Headers = some headers ∧
        (∀ name, name ∈ headers.keys ↔ name ∈ r.Header.keys) ∧
        (∀ name values, r.Header.lookup name = some values →
          headers.lookup name = some (List.intercalate (str ", ") values))) ∧
    (∀ host : HostState,
      (getRequestInfo host testConfig apiRequest).Name = str "test-server" ∧
      (getRequestInfo host testConfig apiRequest).URL = str "/api?test=value" ∧
      (getRequestInfo host testConfig apiRequest).Method = str "POST" ∧
      (getRequestInfo host testConfig apiRequest).RealIP = str "10.0.0.1") := by
  constructor
  · intro host config r
    refine ⟨rfl, rfl, rfl, rfl, rfl, rfl, rfl, _, rfl, ?_, ?_⟩
    · intro name
      rw [← AList.mem_keys, ← AList.mem_keys, ← AList.lookup_isSome, ← AList.lookup_isSome,
        foldl_insert_lookup (fun vs => strings.Join vs (str ", ")) _ r.Header.nodupKeys]
      have hl : List.dlookup name r.Header.entries = r.Header.lookup name := rfl
      rw [hl]
      cases r.Header.lookup name <;> simp
    · intro name values h
      rw [foldl_insert_lookup (fun vs => strings.Join vs (str ", ")) _ r.Header.nodupKeys]
      have hl : List.dlookup name r.Header.entries = r.Header.lookup name := rfl
      rw [hl, h]
      simp only [Join_intercalate]
  · intro host
    refine ⟨rfl, rfl, rfl, ?_⟩
    show getRealIP apiRequest = str "10.0.0.1"
    decide

/-! ## UTF-8 -/

/-- A well-formed two-byte sequence decodes to its rune, whatever follows. -/
theorem decode_two (b0 b1 : Byte) (t : GoString) (h0 : 0xC2 ≤ b0.val ∧ b0.val ≤ 0xDF)
    (h1 : 0x80 ≤ b1.val ∧ b1.val ≤ 0xBF) :
    utf8.DecodeRuneInString (b0 :: b1 :: t) = ((b0.val % 32) * 64 + b1.val % 64, 2) := by
  have hf : utf8.first b0 = some (2, 0x80, 0xBF) := by
    unfold utf8.first
    rw [if_neg (by omega), if_pos (by omega)]
  have hs : ¬ b0.val < utf8.RuneSelf := by simp only [utf8.RuneSelf]; omega
  have hl : ¬ (b1 :: t).length + 1 < 2 := by simp
  have hr : ¬ (b1.val < 0x80 ∨ 0xBF < b1.val) := by omega
  simp only [utf8.DecodeRuneInString, hs, if_false, hf, hl, hr]
  simp

/-- A well-formed three-byte sequence decodes to its rune, whatever follows. -/
theorem decode_three (b0 b1 b2 : Byte) (t : GoString) (h0 : 0xE0 ≤ b0.val ∧ b0.val ≤ 0xEF)
    (h1 : 0x80 ≤ b1.val ∧ b1.val ≤ 0xBF ∧ (b0.val = 0xE0 → 0xA0 ≤ b1.val) ∧
      (b0.val = 0xED → b1.val ≤ 0x9F))
    (h2 : 0x80 ≤ b2.val ∧ b2.val ≤ 0xBF) :
    utf8.DecodeRuneInString (b0 :: b1 :: b2 :: t) =
      ((b0.val % 16) * 4096 + (b1.val % 64) * 64 + b2.val % 64, 3) := by
  have hs : ¬ b0.val < utf8.RuneSelf := by simp only [utf8.RuneSelf]; omega
  have hc2 : utf8.isCont b2 = true := by
    simp only [utf8.isCont, Bool.and_eq_true, decide_eq_true_eq]; omega
  obtain ⟨lo, hi, hf, hlo, hhi⟩ : ∃ lo hi, utf8.first b0 = some (3, lo, hi) ∧
      ¬ b1.val < lo ∧ ¬ hi < b1.val := by
    unfold utf8.first
    by_cases e0 : b0.val = 0xE0
    · exact ⟨0xA0, 0xBF, by rw [if_neg (by omega), if_neg (by omega), if_pos e0], by omega,
        by omega⟩
    · by_cases ed : b0.val = 0xED
      · exact ⟨0x80, 0x9F, by
          rw [if_neg (by omega), if_neg (by omega), if_neg e0, if_neg (by omega), if_pos ed],
          by omega, by omega⟩
      · by_cases ec : b0.val ≤ 0xEC
        · exact ⟨0x80, 0xBF, by rw [if_neg (by omega), if_neg (by omega), if_neg e0, if_pos ec],
            by omega, by omega⟩
        · exact ⟨0x80, 0xBF, by
            rw [if_neg (by omega), if_neg (by omega), if_neg e0, if_neg ec, if_neg ed,
              if_pos (by omega)], by omega, by omega⟩
  have hl : ¬ (b1 :: b2 :: t).length + 1 < 3 := by simp
  have hr : ¬ (b1.val < lo ∨ hi < b1.val) := by omega
  simp only [utf8.DecodeRuneInString, hs, if_false, hf, hl, hr, hc2]
  simp

/-- A well-formed four-byte sequence decodes to its rune, whatever follows. -/
theorem decode_four (b0 b1 b2 b3 : Byte) (t : GoString) (h0 : 0xF0 ≤ b0.val ∧ b0.val ≤ 0xF4)
    (h1 : 0x80 ≤ b1.val ∧ b1.val ≤ 0xBF ∧ (b0.val = 0xF0 → 0x90 ≤ b1.val) ∧
      (b0.val = 0xF4 → b1.val ≤ 0x8F))
    (h2 : 0x80 ≤ b2.val ∧ b2.val ≤ 0xBF) (h3 : 0x80 ≤ b3.val ∧ b3.val ≤ 0xBF) :
    utf8.DecodeRuneInString (b0 :: b1 :: b2 :: b3 :: t) =
      ((b0.val % 8) * 262144 + (b1.val % 64) * 4096 + (b2.val % 64) * 64 + b3.val % 64, 4) := by
  have hs : ¬ b0.val < utf8.RuneSelf := by simp only [utf8.RuneSelf]; omega
  have hc2 : utf8.isCont b2 = true := by
    simp only [utf8.isCont, Bool.and_eq_true, decide_eq_true_eq]; omega
  have hc3 : utf8.isCont b3 = true := by
    simp only [utf8.isCont, Bool.and_eq_true, decide_eq_true_eq]; omega
  obtain ⟨lo, hi, hf, hlo, hhi⟩ : ∃ lo hi, utf8.first b0 = some (4, lo, hi) ∧
      ¬ b1.val < lo ∧ ¬ hi < b1.val := by
    unfold utf8.first
    by_cases e0 : b0.val = 0xF0
    · exact ⟨0x90, 0xBF, by
        rw [if_neg (by omega), if_neg (by omega), if_neg (by omega), if_neg (by omega),
          if_neg (by omega), if_neg (by omega), if_pos e0], by omega, by omega⟩
    · by_cases e4 : b0.val = 0xF4
      · exact ⟨0x80, 0x8F, by
          rw [if_neg (by omega), if_neg (by omega), if_neg (by omega), if_neg (by omega),
            if_neg (by omega), if_neg (by omega), if_neg e0, if_neg (by omega), if_pos e4],
          by omega, by omega⟩
      · exact ⟨0x80, 0xBF, by
          rw [if_neg (by omega), if_neg (by omega), if_neg (by omega), if_neg (by omega),
            if_neg (by omega), if_neg (by omega), if_neg e0, if_pos (by omega)],
          by omega, by omega⟩
  have hl : ¬ (b1 :: b2 :: b3 :: t).length + 1 < 4 := by simp
  have hr : ¬ (b1.val < lo ∨ hi < b1.val) := by omega
  simp only [utf8.DecodeRuneInString, hs, if_false, hf, hl, hr, hc2, hc3]
  simp

theorem first_spec (b : Byte) (sz lo hi : Nat) (h : utf8.first b = some (sz, lo, hi)) :
    (sz = 2 ∧ 0xC2 ≤ b.val ∧ b.val ≤ 0xDF ∧ lo = 0x80 ∧ hi = 0xBF) ∨
    (sz = 3 ∧ 0xE0 ≤ b.val ∧ b.val ≤ 0xEF ∧ 0x80 ≤ lo ∧ hi ≤ 0xBF ∧
      (b.val = 0xE0 → lo = 0xA0) ∧ (b.val = 0xED → hi = 0x9F)) ∨
    (sz = 4 ∧ 0xF0 ≤ b.val ∧ b.val ≤ 0xF4 ∧ 0x80 ≤ lo ∧ hi ≤ 0xBF ∧
      (b.val = 0xF0 → lo = 0x90) ∧ (b.val = 0xF4 → hi = 0x8F)) := by
  unfold utf8.first at h
  repeat' split at h
  all_goals first
    | (cases h; done)
    | (cases h; omega)

/-- The first rune of a string that starts with a non-ASCII byte: either the byte
starts no valid sequence, or the string starts with a well-formed sequence of
two, three or four bytes. -/
theorem decode_cases (b0 : Byte) (rest : GoString) (hb : 0x80 ≤ b0.val) :
    utf8.DecodeRuneInString (b0 :: rest) = (utf8.RuneError, 1) ∨
    (∃ b1 t, rest = b1 :: t ∧ (0xC2 ≤ b0.val ∧ b0.val ≤ 0xDF) ∧
      (0x80 ≤ b1.val ∧ b1.val ≤ 0xBF)) ∨
    (∃ b1 b2 t, rest = b1 :: b2 :: t ∧ (0xE0 ≤ b0.val ∧ b0.val ≤ 0xEF) ∧
      (0x80 ≤ b1.val ∧ b1.val ≤ 0xBF ∧ (b0.val = 0xE0 → 0xA0 ≤ b1.val) ∧
        (b0.val = 0xED → b1.val ≤ 0x9F)) ∧ (0x80 ≤ b2.val ∧ b2.val ≤ 0xBF)) ∨
    (∃ b1 b2 b3 t, rest = b1 :: b2 :: b3 :: t ∧ (0xF0 ≤ b0.val ∧ b0.val ≤ 0xF4) ∧
      (0x80 ≤ b1.val ∧ b1.val ≤ 0xBF ∧ (b0.val = 0xF0 → 0x90 ≤ b1.val) ∧
        (b0.val = 0xF4 → b1.val ≤ 0x8F)) ∧ (0x80 ≤ b2.val ∧ b2.val ≤ 0xBF) ∧
      (0x80 ≤ b3.val ∧ b3.val ≤ 0xBF)) := by
  have hs : ¬ b0.val < utf8.RuneSelf := by simp only [utf8.RuneSelf]; omega
  cases hf : utf8.first b0 with
  | none => left; simp [utf8.DecodeRuneInString, hs, hf]
  | some x =>
    obtain ⟨sz, lo, hi⟩ := x
    have hsp := first_spec b0 sz lo hi hf
    cases rest with
    | nil => left; simp [utf8.DecodeRuneInString, hs, hf]
    | cons b1 t1 =>
      by_cases hr : b1.val < lo ∨ hi < b1.val
      · left
        simp only [utf8.DecodeRuneInString, hs, if_false, hf, hr, if_true]
        split <;> rfl
      · rcases hsp with ⟨rfl, h0⟩ | ⟨rfl, h0⟩ | ⟨rfl, h0⟩
        · right; left
          exact ⟨b1, t1, rfl, by omega, by omega⟩
        · cases t1 with
          | nil => left; simp [utf8.DecodeRuneInString, hs, hf]
          | cons b2 t2 =>
            by_cases hc : utf8.isCont b2 = true
            · right; right; left
              simp only [utf8.isCont, Bool.and_eq_true, decide_eq_true_eq] at hc
              exact ⟨b1, b2, t2, rfl, by omega, by omega, by omega⟩
            · left
              simp [utf8.DecodeRuneInString, hs, hf, hr, hc]
        · cases t1 with
          | nil => left; simp [utf8.DecodeRuneInString, hs, hf]
          | cons b2 t2 =>
            by_cases hc : utf8.isCont b2 = true
            · cases t2 with
              | nil => left; simp [utf8.DecodeRuneInString, hs, hf]
              | cons b3 t3 =>
                by_cases hc3 : utf8.isCont b3 = true
                · right; right; right
                  simp only [utf8.isCont, Bool.and_eq_true, decide_eq_true_eq] at hc hc3
                  exact ⟨b1, b2, b3, t3, rfl, by omega, by omega, by omega, by omega⟩
                · left
                  simp [utf8.DecodeRuneInString, hs, hf, hr, hc, hc3]
            · left
              simp [utf8.DecodeRuneInString, hs, hf, hr, hc]

theorem byte_eq (n : Nat) (b : Byte) (h : n % 256 = b.val) : byte n = b :=
  Fin.ext h

theorem encode_two (b0 b1 : Byte) (h0 : 0xC2 ≤ b0.val ∧ b0.val ≤ 0xDF)
    (h1 : 0x80 ≤ b1.val ∧ b1.val ≤ 0xBF) :
    utf8.EncodeRune ((b0.val % 32) * 64 + b1.val % 64) = [b0, b1] := by
  unfold utf8.EncodeRune
  rw [if_neg (by omega), if_pos (by omega)]
  rw [byte_eq _ b0 (by omega), byte_eq _ b1 (by omega)]

theorem encode_three (b0 b1 b2 : Byte) (h0 : 0xE0 ≤ b0.val ∧ b0.val ≤ 0xEF)
    (h1 : 0x80 ≤ b1.val ∧ b1.val ≤ 0xBF ∧ (b0.val = 0xE0 → 0xA0 ≤ b1.val) ∧
      (b0.val = 0xED → b1.val ≤ 0x9F))
    (h2 : 0x80 ≤ b2.val ∧ b2.val ≤ 0xBF) :
    utf8.EncodeRune ((b0.val % 16) * 4096 + (b1.val % 64) * 64 + b2.val % 64) = [b0, b1, b2] := by
  unfold utf8.EncodeRune
  rw [if_neg (by omega), if_neg (by omega), if_neg (by omega), if_pos (by omega)]
  rw [byte_eq _ b0 (by omega), byte_eq _ b1 (by omega), byte_eq _ b2 (by omega)]

theorem encode_four (b0 b1 b2 b3 : Byte) (h0 : 0xF0 ≤ b0.val ∧ b0.val ≤ 0xF4)
    (h1 : 0x80 ≤ b1.val ∧ b1.val ≤ 0xBF ∧ (b0.val = 0xF0 → 0x90 ≤ b1.val) ∧
      (b0.val = 0xF4 → b1.val ≤ 0x8F))
    (h2 : 0x80 ≤ b2.val ∧ b2.val ≤ 0xBF) (h3 : 0x80 ≤ b3.val ∧ b3.val ≤ 0xBF) :
    utf8.EncodeRune
      ((b0.val % 8) * 262144 + (b1.val % 64) * 4096 + (b2.val % 64) * 64 + b3.val % 64) =
      [b0, b1, b2, b3] := by
  unfold utf8.EncodeRune
  rw [if_neg (by omega), if_neg (by omega), if_neg (by omega), if_neg (by omega)]
  rw [byte_eq _ b0 (by omega), byte_eq _ b1 (by omega), byte_eq _ b2 (by omega),
    byte_eq _ b3 (by omega)]

/-- The first rune of a string depends on its first four bytes only. -/
theorem decode_take (s : GoString) :
    utf8.DecodeRuneInString (s.take utf8.UTFMax) = utf8.DecodeRuneInString s := by
  match s with
  | [] => rfl
  | [_] => rfl
  | [_, _] => rfl
  | [_, _, _] => rfl
  | b0 :: b1 :: b2 :: b3 :: t =>
    show utf8.DecodeRuneInString [b0, b1, b2, b3] = _
    by_cases hb : b0.val < 0x80
    · simp [utf8.DecodeRuneInString, utf8.RuneSelf, hb]
    · rcases decode_cases b0 (b1 :: b2 :: b3 :: t) (by omega) with h | h | h | h
      · rcases decode_cases b0 [b1, b2, b3] (by omega) with h' | h' | h' | h'
        · rw [h, h']
        · obtain ⟨c1, u, e, k0, k1⟩ := h'
          simp only [List.cons.injEq] at e
          obtain ⟨rfl, rfl⟩ := e
          rw [decode_two b0 b1 _ k0 k1] at h
          simp [utf8.RuneError] at h
        · obtain ⟨c1, c2, u, e, k0, k1, k2⟩ := h'
          simp only [List.cons.injEq] at e
          obtain ⟨rfl, rfl, rfl⟩ := e
          rw [decode_three b0 b1 b2 _ k0 k1 k2] at h
          simp [utf8.RuneError] at h
        · obtain ⟨c1, c2, c3, u, e, k0, k1, k2, k3⟩ := h'
          simp only [List.cons.injEq] at e
          obtain ⟨rfl, rfl, rfl, rfl⟩ := e
          rw [decode_four b0 b1 b2 b3 _ k0 k1 k2 k3] at h
          simp [utf8.RuneError] at h
      · obtain ⟨c1, u, e, k0, k1⟩ := h
        simp only [List.cons.injEq] at e
        obtain ⟨rfl, rfl⟩ := e
        rw [decode_two b0 b1 _ k0 k1, decode_two b0 b1 _ k0 k1]
      · obtain ⟨c1, c2, u, e, k0, k1, k2⟩ := h
        simp only [List.cons.injEq] at e
        obtain ⟨rfl, rfl, rfl⟩ := e
        rw [decode_three b0 b1 b2 _ k0 k1 k2, decode_three b0 b1 b2 _ k0 k1 k2]
      · obtain ⟨c1, c2, c3, u, e, k0, k1, k2, k3⟩ := h
        simp only [List.cons.injEq] at e
        obtain ⟨rfl, rfl, rfl, rfl⟩ := e
        rw [decode_four b0 b1 b2 b3 _ k0 k1 k2 k3, decode_four b0 b1 b2 b3 _ k0 k1 k2 k3]

/-! ## White space trimming -/

theorem spaceEncodings_prefix_free :
    ∀ e ∈ spaceEncodings, ∀ f ∈ spaceEncodings, e <+: f → e = f := by decide

theorem spaceEncodings_suffix_free :
    ∀ e ∈ spaceEncodings, ∀ f ∈ spaceEncodings, e <:+ f → e = f := by decide

theorem spaceEncodings_ne_nil : ∀ e ∈ spaceEncodings, e ≠ [] := by decide

theorem IsSpace_iff (r : Nat) :
    unicode.IsSpace r = true ↔
      (r = 0x09 ∨ r = 0x0A ∨ r = 0x0B ∨ r = 0x0C ∨ r = 0x0D ∨ r = 0x20 ∨ r = 0x85 ∨ r = 0xA0 ∨
        r = 0x1680 ∨ (0x2000 ≤ r ∧ r ≤ 0x200A) ∨ r = 0x2028 ∨ r = 0x2029 ∨ r = 0x202F ∨
        r = 0x205F ∨ r = 0x3000) := by
  unfold unicode.IsSpace
  split
  · simp only [Bool.or_eq_true, decide_eq_true_eq]
    omega
  · simp only [Bool.or_eq_true, decide_eq_true_eq, Bool.and_eq_true]
    omega

/-- The encoding of a white space rune is one of the listed encodings. -/
theorem encode_space (r : Nat) (h : unicode.IsSpace r = true) :
    utf8.EncodeRune r ∈ spaceEncodings := by
  rw [IsSpace_iff] at h
  rcases h with e | e | e | e | e | e | e | e | e | e | e | e | e | e | e
  iterate 9 (subst e; decide)
  · have h11 : r = 0x2000 ∨ r = 0x2001 ∨ r = 0x2002 ∨ r = 0x2003 ∨ r = 0x2004 ∨ r = 0x2005 ∨
        r = 0x2006 ∨ r = 0x2007 ∨ r = 0x2008 ∨ r = 0x2009 ∨ r = 0x200A := by omega
    rcases h11 with e | e | e | e | e | e | e | e | e | e | e <;> (subst e; decide)
  all_goals (subst e; decide)

/-- The first rune of a string is white space only if the string starts with the
encoding of a white space character, which is what the rune spans. -/
theorem decode_space (s : GoString) (h : unicode.IsSpace (utf8.DecodeRuneInString s).1 = true) :
    ∃ e ∈ spaceEncodings, e <+: s ∧ (utf8.DecodeRuneInString s).2 = e.length := by
  cases s with
  | nil => exact absurd h (by decide)
  | cons b0 rest =>
    by_cases hb : b0.val < 0x80
    · have hd : utf8.DecodeRuneInString (b0 :: rest) = (b0.val, 1) := by
        simp [utf8.DecodeRuneInString, utf8.RuneSelf, hb]
      rw [hd] at h ⊢
      have hm := encode_space _ h
      have he : utf8.EncodeRune b0.val = [b0] := by
        unfold utf8.EncodeRune
        rw [if_pos hb, byte_eq _ b0 (by omega)]
      rw [he] at hm
      exact ⟨[b0], hm, ⟨rest, rfl⟩, rfl⟩
    · rcases decode_cases b0 rest (by omega) with hd | hd | hd | hd
      · rw [hd] at h
        exact absurd h (by decide)
      · obtain ⟨b1, t, rfl, k0, k1⟩ := hd
        rw [decode_two b0 b1 t k0 k1] at h ⊢
        have hm := encode_space _ h
        rw [encode_two b0 b1 k0 k1] at hm
        exact ⟨_, hm, ⟨t, rfl⟩, rfl⟩
      · obtain ⟨b1, b2, t, rfl, k0, k1, k2⟩ := hd
        rw [decode_three b0 b1 b2 t k0 k1 k2] at h ⊢
        have hm := encode_space _ h
        rw [encode_three b0 b1 b2 k0 k1 k2] at hm
        exact ⟨_, hm, ⟨t, rfl⟩, rfl⟩
      · obtain ⟨b1, b2, b3, t, rfl, k0, k1, k2, k3⟩ := hd
        rw [decode_four b0 b1 b2 b3 t k0 k1 k2 k3] at h ⊢
        have hm := encode_space _ h
        rw [encode_four b0 b1 b2 b3 k0 k1 k2 k3] at hm
        exact ⟨_, hm, ⟨t, rfl⟩, rfl⟩

/-- A string that starts with the encoding of a white space character has that
character as its first rune. -/
theorem decode_of_space (e : GoString) (he : e ∈ spaceEncodings) (rest : GoString) :
    unicode.IsSpace (utf8.DecodeRuneInString (e ++ rest)).1 = true ∧
      (utf8.DecodeRuneInString (e ++ rest)).2 = e.length := by
  simp only [spaceEncodings, List.mem_cons, List.mem_singleton, List.not_mem_nil, or_false] at he
  rcases he with rfl | rfl | rfl | rfl | rfl | rfl | rfl | rfl | rfl | rfl | rfl | rfl | rfl |
    rfl | rfl | rfl | rfl | rfl | rfl | rfl | rfl | rfl | rfl | rfl | rfl
  iterate 6 exact ⟨rfl, rfl⟩
  iterate 2
    rw [show ∀ a b : Byte, [a, b] ++ rest = a :: b :: rest from fun _ _ => rfl,
      decode_two _ _ _ (by decide) (by decide)]
    exact ⟨by decide, rfl⟩
  all_goals
    rw [show ∀ a b c : Byte, [a, b, c] ++ rest = a :: b :: c :: rest from fun _ _ _ => rfl,
      decode_three _ _ _ _ (by decide) (by decide) (by decide)]
    exact ⟨by decide, rfl⟩

theorem lastRuneStart_le (s : GoString) (lim fuel start r : Nat)
    (h : utf8.lastRuneStart s lim fuel start = some r) : r ≤ start := by
  induction fuel generalizing start with
  | zero =>
    simp only [utf8.lastRuneStart, Option.some.injEq] at h
    omega
  | succ fuel ih =>
    simp only [utf8.lastRuneStart] at h
    split at h
    · cases h
    · split at h
      · simp only [Option.some.injEq] at h; omega
      · split at h
        · simp only [Option.some.injEq] at h; omega
        · have := ih _ h
          omega

theorem getD_length_sub_one (s : GoString) (c : Byte) :
    (s ++ [c]).getD ((s ++ [c]).length - 1) 0 = c := by
  simp [List.getD_eq_getElem?_getD]

/-- The shape of the result of `DecodeLastRuneInString` on a non-empty string:
the last byte if it is ASCII; otherwise a rune decoded from a position before the
end that spans the rest of the string, or the error rune of width 1. -/
theorem decodeLast_cases (u : GoString) (c : Byte) :
    (c.val < 0x80 ∧ utf8.DecodeLastRuneInString (u ++ [c]) = (c.val, 1)) ∨
    (0x80 ≤ c.val ∧ utf8.DecodeLastRuneInString (u ++ [c]) = (utf8.RuneError, 1)) ∨
    (0x80 ≤ c.val ∧ ∃ start, start ≤ u.length ∧
      utf8.DecodeLastRuneInString (u ++ [c]) = utf8.DecodeRuneInString ((u ++ [c]).drop start) ∧
      start + (utf8.DecodeRuneInString ((u ++ [c]).drop start)).2 = u.length + 1) := by
  have hl : (u ++ [c]).length = u.length + 1 := by simp
  have hg := getD_length_sub_one u c
  by_cases hc : c.val < 0x80
  · left
    refine ⟨hc, ?_⟩
    simp only [utf8.DecodeLastRuneInString, hg, utf8.RuneSelf, hc, if_true]
    rw [if_neg (by omega)]
  · right
    simp only [utf8.DecodeLastRuneInString, hg, utf8.RuneSelf, hc, if_false]
    rw [if_neg (by omega)]
    split
    · left; exact ⟨by omega, rfl⟩
    · right
      rename_i hne
      refine ⟨by omega, _, ?_, rfl, by simpa using hne⟩
      cases hs : utf8.lastRuneStart (u ++ [c]) ((u ++ [c]).length - utf8.UTFMax) utf8.UTFMax
          ((u ++ [c]).length - 1) with
      | none => simp
      | some r =>
        have := lastRuneStart_le _ _ _ _ _ hs
        simp only [Option.getD_some]
        omega


theorem lastRuneStart_step (s : GoString) (lim fuel k : Nat) :
    utf8.lastRuneStart s lim (fuel + 1) (k + 1) =
      if k < lim then some k
      else if utf8.RuneStart (s.getD k 0) then some k
      else utf8.lastRuneStart s lim fuel k := by
  simp [utf8.lastRuneStart]

theorem decodeLast_two (pre : GoString) (a b : Byte) (ha : 0xC2 ≤ a.val ∧ a.val ≤ 0xDF)
    (hb : 0x80 ≤ b.val ∧ b.val ≤ 0xBF) :
    utf8.DecodeLastRuneInString (pre ++ [a, b]) = utf8.DecodeRuneInString [a, b] := by
  have hl : (pre ++ [a, b]).length = pre.length + 2 := by simp
  have h1 : (pre ++ [a, b]).getD (pre.length + 1) 0 = b := by
    rw [List.getD_append_right _ _ _ _ (by omega), Nat.add_sub_cancel_left]; rfl
  have h0 : (pre ++ [a, b]).getD pre.length 0 = a := by
    rw [List.getD_append_right _ _ _ _ (by omega), Nat.sub_self]; rfl
  have hr : utf8.RuneStart a = true := by
    simp only [utf8.RuneStart, bne_iff_ne, ne_eq]; omega
  have hs : utf8.lastRuneStart (pre ++ [a, b]) (pre.length + 2 - utf8.UTFMax) utf8.UTFMax
      (pre.length + 1) = some pre.length := by
    show utf8.lastRuneStart _ _ (3 + 1) _ = _
    rw [lastRuneStart_step, h0, hr]
    simp only [utf8.UTFMax, if_true]
    rw [if_neg (by omega)]
  simp only [utf8.DecodeLastRuneInString, hl, Nat.add_sub_cancel, show pre.length + 2 - 1 =
    pre.length + 1 from rfl, h1, hs, Option.getD_some, List.drop_left, utf8.RuneSelf]
  rw [if_neg (by omega), if_neg (by omega), decode_two a b [] ha hb]
  simp

theorem decodeLast_three (pre : GoString) (a b c : Byte) (ha : 0xE0 ≤ a.val ∧ a.val ≤ 0xEF)
    (hb : 0x80 ≤ b.val ∧ b.val ≤ 0xBF ∧ (a.val = 0xE0 → 0xA0 ≤ b.val) ∧
      (a.val = 0xED → b.val ≤ 0x9F))
    (hc : 0x80 ≤ c.val ∧ c.val ≤ 0xBF) :
    utf8.DecodeLastRuneInString (pre ++ [a, b, c]) = utf8.DecodeRuneInString [a, b, c] := by
  have hl : (pre ++ [a, b, c]).length = pre.length + 3 := by simp
  have h2 : (pre ++ [a, b, c]).getD (pre.length + 2) 0 = c := by
    rw [List.getD_append_right _ _ _ _ (by omega), Nat.add_sub_cancel_left]; rfl
  have h1 : (pre ++ [a, b, c]).getD (pre.length + 1) 0 = b := by
    rw [List.getD_append_right _ _ _ _ (by omega), Nat.add_sub_cancel_left]; rfl
  have h0 : (pre ++ [a, b, c]).getD pre.length 0 = a := by
    rw [List.getD_append_right _ _ _ _ (by omega), Nat.sub_self]; rfl
  have hr : utf8.RuneStart a = true := by
    simp only [utf8.RuneStart, bne_iff_ne, ne_eq]; omega
  have hrb : utf8.RuneStart b = false := by
    simp only [utf8.RuneStart, bne_eq_false_iff_eq]; omega
  have hs : utf8.lastRuneStart (pre ++ [a, b, c]) (pre.length + 3 - utf8.UTFMax) utf8.UTFMax
      (pre.length + 2) = some pre.length := by
    show utf8.lastRuneStart _ _ (3 + 1) _ = _
    rw [lastRuneStart_step, h1, hrb]
    simp only [utf8.UTFMax, Bool.false_eq_true, if_false]
    rw [if_neg (by omega)]
    show utf8.lastRuneStart _ _ (2 + 1) _ = _
    rw [lastRuneStart_step, h0, hr]
    simp only [if_true]
    rw [if_neg (by omega)]
  simp only [utf8.DecodeLastRuneInString, hl, show pre.length + 3 - 1 =
    pre.length + 2 from rfl, h2, hs, Option.getD_some, List.drop_left, utf8.RuneSelf]
  rw [if_neg (by omega), if_neg (by omega), decode_three a b c [] ha hb hc]
  simp

/-- A string that ends with the encoding of a white space character has that
character as its last rune. -/
theorem decodeLast_of_space (e : GoString) (he : e ∈ spaceEncodings) (pre : GoString) :
    unicode.IsSpace (utf8.DecodeLastRuneInString (pre ++ e)).1 = true ∧
      (utf8.DecodeLastRuneInString (pre ++ e)).2 = e.length := by
  simp only [spaceEncodings, List.mem_cons, List.mem_singleton, List.not_mem_nil, or_false] at he
  rcases he with rfl | rfl | rfl | rfl | rfl | rfl | rfl | rfl | rfl | rfl | rfl | rfl | rfl |
    rfl | rfl | rfl | rfl | rfl | rfl | rfl | rfl | rfl | rfl | rfl | rfl
  iterate 6
    rcases decodeLast_cases pre _ with h | h | h
    · rw [h.2]; exact ⟨by decide, rfl⟩
    · exact absurd h.1 (by decide)
    · exact absurd h.1 (by decide)
  iterate 2
    rw [decodeLast_two _ _ _ (by decide) (by decide)]
    exact ⟨by decide, by decide⟩
  all_goals
    rw [decodeLast_three _ _ _ _ (by decide) (by decide) (by decide)]
    exact ⟨by decide, by decide⟩

/-- The last rune of a string is white space only if the string ends with the
encoding of a white space character, which is what the rune spans. -/
theorem decodeLast_space (s : GoString)
    (h : unicode.IsSpace (utf8.DecodeLastRuneInString s).1 = true) :
    ∃ e ∈ spaceEncodings, e <:+ s ∧ (utf8.DecodeLastRuneInString s).2 = e.length := by
  rcases List.eq_nil_or_concat s with rfl | ⟨u, c, rfl⟩
  · exact absurd h (by decide)
  · simp only [List.concat_eq_append] at h ⊢
    rcases decodeLast_cases u c with hd | hd | hd
    · rw [hd.2] at h ⊢
      obtain ⟨e, he, hp, hw⟩ := decode_space [c] (by
        have : utf8.DecodeRuneInString [c] = (c.val, 1) := by
          simp [utf8.DecodeRuneInString, utf8.RuneSelf, hd.1]
        rw [this]; exact h)
      have hlen : e.length = 1 := by
        rw [← hw]
        simp [utf8.DecodeRuneInString, utf8.RuneSelf, hd.1]
      have : e = [c] := hp.eq_of_length (by simpa using hlen)
      subst this
      exact ⟨[c], he, List.suffix_append _ _, rfl⟩
    · rw [hd.2] at h
      exact absurd h (by decide)
    · obtain ⟨hc, start, hs, hd, hw⟩ := hd
      rw [hd] at h ⊢
      obtain ⟨e, he, hp, hw2⟩ := decode_space _ h
      have : e = (u ++ [c]).drop start := hp.eq_of_length (by
        simp only [List.length_drop, List.length_append, List.length_singleton]
        omega)
      refine ⟨e, he, ?_, hw2⟩
      rw [this]
      exact List.drop_suffix _ _

theorem SpaceRun_nil : SpaceRun [] := ⟨[], by simp, rfl⟩

theorem SpaceRun_append (p q : GoString) (hp : SpaceRun p) (hq : SpaceRun q) :
    SpaceRun (p ++ q) := by
  obtain ⟨es, h1, rfl⟩ := hp
  obtain ⟨fs, h2, rfl⟩ := hq
  refine ⟨es ++ fs, ?_, by simp⟩
  intro e he
  rcases List.mem_append.1 he with h | h
  · exact h1 e h
  · exact h2 e h

theorem SpaceRun_one (e : GoString) (he : e ∈ spaceEncodings) : SpaceRun e :=
  ⟨[e], by simpa using he, by simp⟩

theorem not_SpaceStart_nil : ¬ SpaceStart [] := by
  rintro ⟨e, he, hp⟩
  exact spaceEncodings_ne_nil e he (List.prefix_nil.1 hp)

theorem not_SpaceEnd_nil : ¬ SpaceEnd [] := by
  rintro ⟨e, he, hp⟩
  exact spaceEncodings_ne_nil e he (List.suffix_nil.1 hp)

/-- A run of white space is empty or starts with a white space character. -/
theorem SpaceRun_start (q : GoString) (hq : SpaceRun q) : q = [] ∨ SpaceStart q := by
  obtain ⟨es, h1, rfl⟩ := hq
  induction es with
  | nil => left; rfl
  | cons e es ih =>
    right
    exact ⟨e, h1 e (by simp), by simp⟩

theorem spaceEncodings_head : ∀ e ∈ spaceEncodings,
    (e.head?.map (fun b => decide (b.val < 0x80 ∨ 0xBF < b.val))) = some true := by decide

/-- No white space character starts with a continuation byte. -/
theorem SpaceStart_head (b : Byte) (t : GoString) (h : SpaceStart (b :: t)) :
    b.val < 0x80 ∨ 0xBF < b.val := by
  obtain ⟨e, he, hp⟩ := h
  have hh := spaceEncodings_head e he
  cases e with
  | nil => simp at hh
  | cons a e =>
    have : a = b := by
      obtain ⟨r, hr⟩ := hp
      simp only [List.cons_append, List.cons.injEq] at hr
      exact hr.1
    subst this
    simpa using hh

/-- A byte that is not ASCII and is followed by no continuation byte is a rune of
width 1. -/
theorem decode_width_one (c : Byte) (rest : GoString) (hc : 0x80 ≤ c.val)
    (hr : rest = [] ∨ SpaceStart rest) : (utf8.DecodeRuneInString (c :: rest)).2 = 1 := by
  have hh : ∀ b t, rest = b :: t → b.val < 0x80 ∨ 0xBF < b.val := by
    intro b t e
    subst e
    rcases hr with h | h
    · cases h
    · exact SpaceStart_head b t h
  rcases decode_cases c rest hc with hd | hd | hd | hd
  · rw [hd]
  · obtain ⟨b1, t, e, _, k1⟩ := hd
    have := hh b1 t e
    omega
  · obtain ⟨b1, b2, t, e, _, k1, _⟩ := hd
    have := hh b1 _ e
    omega
  · obtain ⟨b1, b2, b3, t, e, _, k1, _⟩ := hd
    have := hh b1 _ e
    omega

/-- A rune that spans the whole of `v` is the first rune of `v` followed by a run
of white space, with the same width. -/
theorem decode_append_width (v q : GoString) (hv : v ≠ [])
    (hw : (utf8.DecodeRuneInString v).2 = v.length) (hq : q = [] ∨ SpaceStart q) :
    (utf8.DecodeRuneInString (v ++ q)).2 = v.length := by
  cases v with
  | nil => exact absurd rfl hv
  | cons b0 rest =>
    by_cases hb : b0.val < 0x80
    · have h1 : ∀ r, utf8.DecodeRuneInString (b0 :: r) = (b0.val, 1) := by
        intro r
        simp [utf8.DecodeRuneInString, utf8.RuneSelf, hb]
      rw [h1] at hw
      rw [List.cons_append, h1, ← hw]
    · rcases decode_cases b0 rest (by omega) with hd | hd | hd | hd
      · rw [hd] at hw
        have : rest = [] := by
          simp only [List.length_cons] at hw
          exact List.length_eq_zero.1 (by omega)
        subst this
        rw [List.cons_append, List.nil_append]
        exact decode_width_one b0 q (by omega) hq
      · obtain ⟨b1, t, rfl, k0, k1⟩ := hd
        rw [decode_two b0 b1 t k0 k1] at hw
        rw [List.cons_append, List.cons_append, decode_two b0 b1 _ k0 k1]
        exact hw
      · obtain ⟨b1, b2, t, rfl, k0, k1, k2⟩ := hd
        rw [decode_three b0 b1 b2 t k0 k1 k2] at hw
        rw [List.cons_append, List.cons_append, List.cons_append,
          decode_three b0 b1 b2 _ k0 k1 k2]
        exact hw
      · obtain ⟨b1, b2, b3, t, rfl, k0, k1, k2, k3⟩ := hd
        rw [decode_four b0 b1 b2 b3 t k0 k1 k2 k3] at hw
        rw [List.cons_append, List.cons_append, List.cons_append, List.cons_append,
          decode_four b0 b1 b2 b3 _ k0 k1 k2 k3]
        exact hw

/-- The loop of `TrimLeftFunc` with `unicode.IsSpace` removes a run of white
space from the front and stops at a string that starts with no white space. -/
theorem trimLeftLoop_spec (fuel : Nat) (s : GoString) (hf : s.length ≤ fuel) :
    ∃ p, s = p ++ strings.trimLeftLoop unicode.IsSpace fuel s ∧ SpaceRun p ∧
      ¬ SpaceStart (strings.trimLeftLoop unicode.IsSpace fuel s) := by
  induction fuel generalizing s with
  | zero =>
    have : s = [] := List.length_eq_zero.1 (by omega)
    subst this
    exact ⟨[], rfl, SpaceRun_nil, not_SpaceStart_nil⟩
  | succ fuel ih =>
    cases s with
    | nil => exact ⟨[], rfl, SpaceRun_nil, not_SpaceStart_nil⟩
    | cons b rest =>
      by_cases hs : unicode.IsSpace (utf8.DecodeRuneInString (b :: rest)).1 = true
      · obtain ⟨e, he, ⟨r, hr⟩, hw⟩ := decode_space _ hs
        have hne := spaceEncodings_ne_nil e he
        have hlen : r.length ≤ fuel := by
          have := congrArg List.length hr
          have h0 : 0 < e.length := List.length_pos.2 hne
          simp only [List.length_append, List.length_cons] at this hf
          omega
        obtain ⟨p, hp1, hp2, hp3⟩ := ih r hlen
        have hd : (b :: rest).drop (utf8.DecodeRuneInString (b :: rest)).2 = r := by
          rw [hw, ← hr, List.drop_left]
        have hu : strings.trimLeftLoop unicode.IsSpace (fuel + 1) (b :: rest) =
            strings.trimLeftLoop unicode.IsSpace fuel r := by
          simp only [strings.trimLeftLoop, hs, if_true, hd]
        rw [hu]
        refine ⟨e ++ p, ?_, SpaceRun_append _ _ (SpaceRun_one e he) hp2, hp3⟩
        rw [← hr, List.append_assoc, ← hp1]
      · have hu : strings.trimLeftLoop unicode.IsSpace (fuel + 1) (b :: rest) = b :: rest := by
          simp only [strings.trimLeftLoop, hs, if_false]
          simp
        rw [hu]
        refine ⟨[], rfl, SpaceRun_nil, ?_⟩
        rintro ⟨e, he, ⟨r, hr⟩⟩
        apply hs
        rw [← hr]
        exact (decode_of_space e he r).1

/-- The loop of `lastIndexFunc` with `unicode.IsSpace` moves down over a run of
white space: it ends below zero when the whole string is white space, and
otherwise at the last rune of a prefix that ends with no white space. -/
theorem lastIndexFunc_spec (s : GoString) (fuel i : Nat) (hi : i ≤ s.length) (hf : i ≤ fuel)
    (hq : SpaceRun (s.drop i)) :
    (strings.lastIndexFunc s unicode.IsSpace fuel i = none ∧ SpaceRun s) ∨
    (∃ k, 0 < k ∧ k ≤ s.length ∧ SpaceRun (s.drop k) ∧
      ¬ unicode.IsSpace (utf8.DecodeLastRuneInString (s.take k)).1 = true ∧
      strings.lastIndexFunc s unicode.IsSpace fuel i =
        some (k - (utf8.DecodeLastRuneInString (s.take k)).2)) := by
  induction fuel generalizing i with
  | zero =>
    have : i = 0 := by omega
    subst this
    left
    exact ⟨rfl, by simpa using hq⟩
  | succ fuel ih =>
    by_cases h0 : i = 0
    · subst h0
      left
      exact ⟨by simp [strings.lastIndexFunc], by simpa using hq⟩
    · by_cases hs : unicode.IsSpace (utf8.DecodeLastRuneInString (s.take i)).1 = true
      · obtain ⟨e, he, ⟨pre, hpre⟩, hw⟩ := decodeLast_space _ hs
        have hne : 0 < e.length := List.length_pos.2 (spaceEncodings_ne_nil e he)
        have hlen : pre.length + e.length = i := by
          have := congrArg List.length hpre
          simp only [List.length_append, List.length_take] at this
          omega
        have hdrop : s.drop (i - e.length) = e ++ s.drop i := by
          have hs2 : s = pre ++ (e ++ s.drop i) := by
            rw [← List.append_assoc, hpre, List.take_append_drop]
          have hk : i - e.length = pre.length := by omega
          rw [hk]
          conv_lhs => rw [hs2]
          rw [List.drop_left]
        have hu : strings.lastIndexFunc s unicode.IsSpace (fuel + 1) i =
            strings.lastIndexFunc s unicode.IsSpace fuel (i - e.length) := by
          simp only [strings.lastIndexFunc, h0, if_false, hs, if_true, hw]
        rw [hu]
        exact ih (i - e.length) (by omega) (by omega)
          (by rw [hdrop]; exact SpaceRun_append _ _ (SpaceRun_one e he) hq)
      · right
        refine ⟨i, by omega, hi, hq, hs, ?_⟩
        simp only [strings.lastIndexFunc, h0, if_false, hs]
        simp

/-- The slice that `TrimRightFunc` returns for the index of the last rune of the
prefix `u ++ [c]` is that prefix, when a run of white space follows. -/
theorem trimRight_slice (u : GoString) (c : Byte) (q : GoString) (hq : SpaceRun q) :
    (if ((u ++ [c] ++ q).getD
        (u.length + 1 - (utf8.DecodeLastRuneInString (u ++ [c])).2) 0).val ≥ utf8.RuneSelf then
      (u ++ [c] ++ q).take (u.length + 1 - (utf8.DecodeLastRuneInString (u ++ [c])).2 +
        (utf8.DecodeRuneInString ((u ++ [c] ++ q).drop
          (u.length + 1 - (utf8.DecodeLastRuneInString (u ++ [c])).2))).2)
    else (u ++ [c] ++ q).take (u.length + 1 - (utf8.DecodeLastRuneInString (u ++ [c])).2 + 1)) =
      u ++ [c] := by
  have hqs := SpaceRun_start q hq
  have htake : (u ++ [c] ++ q).take (u.length + 1) = u ++ [c] := by
    rw [List.take_left' (by simp)]
  have hget : (u ++ [c] ++ q).getD u.length 0 = c := by
    rw [List.append_assoc, List.getD_append_right _ _ _ _ (by omega), Nat.sub_self]; rfl
  have hdrop : (u ++ [c] ++ q).drop u.length = c :: q := by
    rw [List.append_assoc, List.drop_left]; rfl
  rcases decodeLast_cases u c with ⟨hc, hd⟩ | ⟨hc, hd⟩ | ⟨hc, start, hs, hd, hw⟩
  · rw [hd]
    simp only [Nat.add_sub_cancel, hget, utf8.RuneSelf]
    rw [if_neg (by omega), htake]
  · rw [hd]
    simp only [Nat.add_sub_cancel, hget, utf8.RuneSelf, hdrop]
    rw [if_pos (by omega), decode_width_one c q hc hqs, htake]
  · rw [hd]
    have hj : u.length + 1 - (utf8.DecodeRuneInString ((u ++ [c]).drop start)).2 = start := by
      omega
    rw [hj]
    have hvlen : ((u ++ [c]).drop start).length =
        (utf8.DecodeRuneInString ((u ++ [c]).drop start)).2 := by
      simp only [List.length_drop, List.length_append, List.length_singleton]
      omega
    have hvne : (u ++ [c]).drop start ≠ [] := by
      apply List.ne_nil_of_length_pos
      simp only [List.length_drop, List.length_append, List.length_singleton]
      omega
    have hsd : (u ++ [c] ++ q).drop start = (u ++ [c]).drop start ++ q := by
      rw [List.drop_append_of_le_length (by simp; omega)]
    have hwq := decode_append_width _ q hvne hvlen.symm hqs
    split
    · rw [hsd, hwq, hvlen, hw, htake]
    · rename_i hlt
      obtain ⟨b, t, hbt⟩ := List.exists_cons_of_ne_nil hvne
      have hgs : (u ++ [c] ++ q).getD start 0 = b := by
        rw [List.getD_eq_getElem?_getD, ← List.head?_drop, hsd, hbt]
        rfl
      rw [hgs] at hlt
      have hb : b.val < 0x80 := by
        simp only [utf8.RuneSelf] at hlt
        omega
      have h1 : utf8.DecodeRuneInString (b :: t) = (b.val, 1) := by
        simp [utf8.DecodeRuneInString, utf8.RuneSelf, hb]
      rw [hbt, h1] at hw
      rw [hw, htake]

/-- The function `TrimRightFunc` with `unicode.IsSpace` removes a run of white
space from the end and leaves a string that ends with no white space. -/
theorem TrimRightFunc_spec (s : GoString) :
    ∃ q, s = strings.TrimRightFunc s unicode.IsSpace ++ q ∧ SpaceRun q ∧
      ¬ SpaceEnd (strings.TrimRightFunc s unicode.IsSpace) := by
  rcases lastIndexFunc_spec s s.length s.length (le_refl _) (le_refl _)
    (by rw [List.drop_length]; exact SpaceRun_nil) with ⟨hn, hr⟩ | ⟨k, hk0, hk, hq, hs, hl⟩
  · have hu : strings.TrimRightFunc s unicode.IsSpace = [] := by
      simp only [strings.TrimRightFunc, hn, List.take_zero]
    rw [hu]
    exact ⟨s, rfl, hr, not_SpaceEnd_nil⟩
  · have hne : s.take k ≠ [] := by
      apply List.ne_nil_of_length_pos
      simp only [List.length_take]
      omega
    rcases List.eq_nil_or_concat (s.take k) with h | ⟨u, c, huc⟩
    · exact absurd h hne
    · rw [List.concat_eq_append] at huc
      have hs2 : s = u ++ [c] ++ s.drop k := by
        rw [← huc, List.take_append_drop]
      have hlen : k = u.length + 1 := by
        have := congrArg List.length huc
        simp only [List.length_take, List.length_append, List.length_singleton] at this
        omega
      have hu : strings.TrimRightFunc s unicode.IsSpace = u ++ [c] := by
        have := trimRight_slice u c (s.drop k) hq
        rw [← hs2] at this
        subst hlen
        simp only [strings.TrimRightFunc, hl, huc]
        exact this
      rw [hu]
      refine ⟨s.drop k, hs2, hq, ?_⟩
      rintro ⟨e, he, ⟨pre, hpre⟩⟩
      apply hs
      rw [huc, ← hpre]
      exact (decodeLast_of_space e he pre).1

theorem not_SpaceStart_of_append (t q : GoString) (h : ¬ SpaceStart (t ++ q)) :
    ¬ SpaceStart t := by
  rintro ⟨e, he, hp⟩
  exact h ⟨e, he, hp.trans (List.prefix_append _ _)⟩

/-- The function `TrimFunc` with `unicode.IsSpace` trims the surrounding white
space. -/
theorem TrimFunc_spec (s : GoString) : Trimmed s (strings.TrimFunc s unicode.IsSpace) := by
  obtain ⟨p, hp1, hp2, hp3⟩ := trimLeftLoop_spec s.length s (le_refl _)
  obtain ⟨q, hq1, hq2, hq3⟩ := TrimRightFunc_spec (strings.TrimLeftFunc s unicode.IsSpace)
  refine ⟨p, q, ?_, hp2, hq2, ?_, hq3⟩
  · rw [List.append_assoc]
    show s = p ++ (strings.TrimRightFunc (strings.TrimLeftFunc s unicode.IsSpace) unicode.IsSpace
      ++ q)
    rw [← hq1]
    exact hp1
  · apply not_SpaceStart_of_append _ q
    show ¬ SpaceStart
      (strings.TrimRightFunc (strings.TrimLeftFunc s unicode.IsSpace) unicode.IsSpace ++ q)
    rw [← hq1]
    exact hp3

theorem byte_of_val (b : Byte) (n : Nat) (h : b.val = n) : b = byte n :=
  Fin.ext (by
    have := b.isLt
    simp only [byte]
    omega)

theorem asciiSpace_mem (c : Byte) (h : strings.asciiSpace c = true) : [c] ∈ spaceEncodings := by
  simp only [strings.asciiSpace, Bool.or_eq_true, decide_eq_true_eq] at h
  rcases h with ((((h | h) | h) | h) | h) | h <;>
  · rw [byte_of_val c _ h]
    decide

theorem asciiSpace_of_IsSpace (c : Byte) (hc : c.val < 0x80)
    (h : unicode.IsSpace c.val = true) : strings.asciiSpace c = true := by
  rw [IsSpace_iff] at h
  simp only [strings.asciiSpace, Bool.or_eq_true, decide_eq_true_eq]
  omega

theorem decode_ascii_byte (c : Byte) (rest : GoString) (hc : c.val < 0x80) :
    utf8.DecodeRuneInString (c :: rest) = (c.val, 1) := by
  simp [utf8.DecodeRuneInString, utf8.RuneSelf, hc]

/-- The second loop of `TrimSpace` removes a run of white space from the end and
leaves a string that ends with no white space. -/
theorem trimSpaceStop_spec (r : GoString) :
    ∃ q, r.reverse = strings.trimSpaceStop r ++ q ∧ SpaceRun q ∧
      ¬ SpaceEnd (strings.trimSpaceStop r) := by
  induction r with
  | nil => exact ⟨[], rfl, SpaceRun_nil, not_SpaceEnd_nil⟩
  | cons c r ih =>
    by_cases hc : c.val ≥ utf8.RuneSelf
    · have hu : strings.trimSpaceStop (c :: r) =
          strings.TrimRightFunc (c :: r).reverse unicode.IsSpace := by
        simp only [strings.trimSpaceStop, hc, if_true]
      rw [hu]
      exact TrimRightFunc_spec _
    · by_cases hs : strings.asciiSpace c = true
      · have hu : strings.trimSpaceStop (c :: r) = strings.trimSpaceStop r := by
          simp only [strings.trimSpaceStop, hc, if_false, hs, if_true]
        rw [hu]
        obtain ⟨q, h1, h2, h3⟩ := ih
        refine ⟨q ++ [c], ?_, SpaceRun_append _ _ h2 (SpaceRun_one _ (asciiSpace_mem c hs)), h3⟩
        rw [List.reverse_cons, h1, List.append_assoc]
      · have hu : strings.trimSpaceStop (c :: r) = (c :: r).reverse := by
          simp only [strings.trimSpaceStop, hc, if_false, hs]
          simp
        rw [hu]
        refine ⟨[], by simp, SpaceRun_nil, ?_⟩
        rintro ⟨e, he, ⟨pre, hpre⟩⟩
        apply hs
        simp only [utf8.RuneSelf] at hc
        have hd := (decodeLast_of_space e he pre).1
        rw [hpre, List.reverse_cons] at hd
        rcases decodeLast_cases r.reverse c with h | h | h
        · rw [h.2] at hd
          exact asciiSpace_of_IsSpace c h.1 hd
        · omega
        · omega

/-- The function `strings.TrimSpace` trims the surrounding white space. -/
theorem TrimSpace_spec (s : GoString) : Trimmed s (strings.TrimSpace s) := by
  induction s with
  | nil => exact ⟨[], [], rfl, SpaceRun_nil, SpaceRun_nil, not_SpaceStart_nil, not_SpaceEnd_nil⟩
  | cons c s ih =>
    by_cases hc : c.val ≥ utf8.RuneSelf
    · have hu : strings.TrimSpace (c :: s) = strings.TrimFunc (c :: s) unicode.IsSpace := by
        simp only [strings.TrimSpace, hc, if_true]
      rw [hu]
      exact TrimFunc_spec _
    · by_cases hs : strings.asciiSpace c = true
      · have hu : strings.TrimSpace (c :: s) = strings.TrimSpace s := by
          simp only [strings.TrimSpace, hc, if_false, hs, if_true]
        rw [hu]
        obtain ⟨p, q, h1, h2, h3, h4, h5⟩ := ih
        refine ⟨[c] ++ p, q, ?_, SpaceRun_append _ _ (SpaceRun_one _ (asciiSpace_mem c hs)) h2,
          h3, h4, h5⟩
        have e : [c] ++ p ++ strings.TrimSpace s ++ q = c :: (p ++ strings.TrimSpace s ++ q) := by
          simp
        rw [e, ← h1]
      · have hu : strings.TrimSpace (c :: s) = strings.trimSpaceStop (c :: s).reverse := by
          simp only [strings.TrimSpace, hc, if_false, hs]
          simp
        rw [hu]
        obtain ⟨q, h1, h2, h3⟩ := trimSpaceStop_spec (c :: s).reverse
        rw [List.reverse_reverse] at h1
        refine ⟨[], q, by simpa using h1, SpaceRun_nil, h2, ?_, h3⟩
        apply not_SpaceStart_of_append _ q
        rw [← h1]
        rintro ⟨e, he, ⟨rest, hrest⟩⟩
        apply hs
        simp only [utf8.RuneSelf] at hc
        have hd := (decode_of_space e he rest).1
        rw [hrest, decode_ascii_byte c s (by omega)] at hd
        exact asciiSpace_of_IsSpace c (by omega) hd

theorem spaceEncodings_tail : ∀ e ∈ spaceEncodings, ∀ b ∈ e.tail,
    0x80 ≤ b.val ∧ b.val ≤ 0xBF := by decide

/-- Two ways to cut a string into a run of white space and a rest that starts
with no white space have the same rest. -/
theorem SpaceRun_cancel_left (es fs : List GoString) (hes : ∀ e ∈ es, e ∈ spaceEncodings)
    (hfs : ∀ e ∈ fs, e ∈ spaceEncodings) (a b : GoString)
    (h : es.flatten ++ a = fs.flatten ++ b) (ha : ¬ SpaceStart a) (hb : ¬ SpaceStart b) :
    a = b := by
  induction es generalizing fs with
  | nil =>
    cases fs with
    | nil => simpa using h
    | cons f fs =>
      exfalso
      apply ha
      refine ⟨f, hfs f (by simp), ?_⟩
      simp only [List.flatten_nil, List.nil_append, List.flatten_cons, List.append_assoc] at h
      rw [h]
      exact List.prefix_append _ _
  | cons e es ih =>
    cases fs with
    | nil =>
      exfalso
      apply hb
      refine ⟨e, hes e (by simp), ?_⟩
      simp only [List.flatten_nil, List.nil_append, List.flatten_cons, List.append_assoc] at h
      rw [← h]
      exact List.prefix_append _ _
    | cons f fs =>
      simp only [List.flatten_cons, List.append_assoc] at h
      have he := hes e (by simp)
      have hf := hfs f (by simp)
      have hef : e = f := by
        have p1 : e <+: e ++ (es.flatten ++ a) := List.prefix_append _ _
        have p2 : f <+: e ++ (es.flatten ++ a) := by rw [h]; exact List.prefix_append _ _
        rcases List.prefix_or_prefix_of_prefix p1 p2 with p | p
        · exact spaceEncodings_prefix_free e he f hf p
        · exact (spaceEncodings_prefix_free f hf e he p).symm
      subst hef
      exact ih fs (fun x hx => hes x (by simp [hx])) (fun x hx => hfs x (by simp [hx]))
        (List.append_cancel_left h)

/-- Two ways to cut a string into a start that ends with no white space and a
run of white space have the same start. -/
theorem SpaceRun_cancel_right (es fs : List GoString) (hes : ∀ e ∈ es, e ∈ spaceEncodings)
    (hfs : ∀ e ∈ fs, e ∈ spaceEncodings) (a b : GoString)
    (h : a ++ es.flatten = b ++ fs.flatten) (ha : ¬ SpaceEnd a) (hb : ¬ SpaceEnd b) :
    a = b := by
  induction es using List.reverseRecOn generalizing fs with
  | nil =>
    rcases List.eq_nil_or_concat fs with rfl | ⟨fs, f, rfl⟩
    · simpa using h
    · exfalso
      apply ha
      refine ⟨f, hfs f (by simp), ?_⟩
      simp only [List.flatten_nil, List.append_nil, List.concat_eq_append, List.flatten_append,
        List.flatten_cons, ← List.append_assoc] at h
      rw [h]
      exact List.suffix_append _ _
  | append_singleton es e ih =>
    rcases List.eq_nil_or_concat fs with rfl | ⟨fs, f, rfl⟩
    · exfalso
      apply hb
      refine ⟨e, hes e (by simp), ?_⟩
      simp only [List.flatten_nil, List.append_nil, List.flatten_append, List.flatten_cons,
        ← List.append_assoc] at h
      rw [← h]
      exact List.suffix_append _ _
    · simp only [List.concat_eq_append, List.flatten_append, List.flatten_cons, List.flatten_nil,
        List.append_nil, ← List.append_assoc] at h
      have he := hes e (by simp)
      have hf := hfs f (by simp)
      have hef : e = f := by
        have p1 : e <:+ a ++ es.flatten ++ e := List.suffix_append _ _
        have p2 : f <:+ a ++ es.flatten ++ e := by rw [h]; exact List.suffix_append _ _
        rcases List.suffix_or_suffix_of_suffix p1 p2 with p | p
        · exact spaceEncodings_suffix_free e he f hf p
        · exact (spaceEncodings_suffix_free f hf e he p).symm
      subst hef
      exact ih fs (fun x hx => hes x (by simp [hx])) (fun x hx => hfs x (by simp [hx]))
        (List.append_cancel_right h)

/-- A non-empty string that starts with no white space still starts with none
when a run of white space follows it. -/
theorem not_SpaceStart_append (t q : GoString) (ht : t ≠ []) (hs : ¬ SpaceStart t)
    (hq : SpaceRun q) : ¬ SpaceStart (t ++ q) := by
  rintro ⟨e, he, hp⟩
  rcases List.prefix_or_prefix_of_prefix hp (List.prefix_append t q) with p | ⟨r, hr⟩
  · exact hs ⟨e, he, p⟩
  · subst hr
    have hrq : r <+: q := (List.prefix_append_right_inj t).1 hp
    cases r with
    | nil => exact hs ⟨t ++ [], he, by simp⟩
    | cons b r =>
      obtain ⟨q1, hq1⟩ := hrq
      have hqs : SpaceStart (b :: (r ++ q1)) := by
        rcases SpaceRun_start q hq with h | h
        · rw [h] at hq1; cases hq1
        · rw [← hq1] at h; exact h
      have h1 := SpaceStart_head b _ hqs
      cases t with
      | nil => exact ht rfl
      | cons t0 t1 =>
        have h2 := spaceEncodings_tail _ he b (by simp)
        omega

/-- The result of trimming the surrounding white space of a string is unique. -/
theorem Trimmed_unique (s t1 t2 : GoString) (h1 : Trimmed s t1) (h2 : Trimmed s t2) :
    t1 = t2 := by
  obtain ⟨p1, q1, e1, ⟨ps1, hps1, rfl⟩, ⟨qs1, hqs1, rfl⟩, a1, b1⟩ := h1
  obtain ⟨p2, q2, e2, ⟨ps2, hps2, rfl⟩, ⟨qs2, hqs2, rfl⟩, a2, b2⟩ := h2
  have hmem : ∀ (xs ys : List GoString), (∀ e ∈ xs, e ∈ spaceEncodings) →
      (∀ e ∈ ys, e ∈ spaceEncodings) → ∀ e ∈ xs ++ ys, e ∈ spaceEncodings := by
    intro xs ys hx hy e he
    rcases List.mem_append.1 he with h | h
    · exact hx e h
    · exact hy e h
  by_cases n1 : t1 = []
  · by_cases n2 : t2 = []
    · rw [n1, n2]
    · exfalso
      have hs2 := not_SpaceStart_append t2 qs2.flatten n2 a2 ⟨qs2, hqs2, rfl⟩
      have := SpaceRun_cancel_left (ps1 ++ qs1) ps2 (hmem _ _ hps1 hqs1) hps2 [] (t2 ++ qs2.flatten)
        (by rw [← List.append_assoc, ← e2, e1, n1]; simp) not_SpaceStart_nil hs2
      exact n2 (List.append_eq_nil.1 this.symm).1
  · by_cases n2 : t2 = []
    · exfalso
      have hs1 := not_SpaceStart_append t1 qs1.flatten n1 a1 ⟨qs1, hqs1, rfl⟩
      have := SpaceRun_cancel_left ps1 (ps2 ++ qs2) hps1 (hmem _ _ hps2 hqs2) (t1 ++ qs1.flatten) []
        (by rw [← List.append_assoc, ← e1, e2, n2]; simp) hs1 not_SpaceStart_nil
      exact n1 (List.append_eq_nil.1 this).1
    · have hs1 := not_SpaceStart_append t1 qs1.flatten n1 a1 ⟨qs1, hqs1, rfl⟩
      have hs2 := not_SpaceStart_append t2 qs2.flatten n2 a2 ⟨qs2, hqs2, rfl⟩
      have := SpaceRun_cancel_left ps1 ps2 hps1 hps2 (t1 ++ qs1.flatten) (t2 ++ qs2.flatten)
        (by rw [← List.append_assoc, ← e1, ← List.append_assoc, ← e2]) hs1 hs2
      exact SpaceRun_cancel_right qs1 qs2 hqs1 hqs2 t1 t2 this b1 b2

/-- C1: when the value `x` that `Header.Get("X-Forwarded-For")` returns is
non-empty, `getRealIP` returns the part of `x` before its first comma (byte 0x2C)
with the surrounding white space trimmed: that part is a run of white space
characters, then the result, then a run of white space characters, the result
neither starts nor ends with a white space character, and it is the only string
of which this holds. The result is `strings.TrimSpace` of that part, whatever the
other headers and the remote address are: two requests with the same non-empty
value get the same result. The value "a, b, c" gives "a", and a first element
`é` between U+00A0, spaces and U+2003 gives `é`. When `x` is ASCII the result is
that part with the ASCII white space dropped at both ends. -/
theorem getRealIP_forwarded_for :
    (∀ (r : http.Request) (x : GoString),
      r.Header.Get (str "X-Forwarded-For") = x → x ≠ [] →
      Trimmed (x.takeWhile (fun b => b != byte 0x2C)) (getRealIP r) ∧
      ∀ t, Trimmed (x.takeWhile (fun b => b != byte 0x2C)) t → t = getRealIP r) ∧
    (∀ (r : http.Request) (x : GoString),
      r.Header.Get (str "X-Forwarded-For") = x → x ≠ [] →
      getRealIP r = strings.TrimSpace (x.takeWhile (fun b => b != byte 0x2C))) ∧
    (∀ (r1 r2 : http.Request),
      r1.Header.Get (str "X-Forwarded-For") ≠ [] →
      r2.Header.Get (str "X-Forwarded-For") = r1.Header.Get (str "X-Forwarded-For") →
      getRealIP r1 = getRealIP r2) ∧
    (∀ (r : http.Request),
      r.Header.Get (str "X-Forwarded-For") = str "a, b, c" → getRealIP r = str "a") ∧
    (∀ (r : http.Request),
      r.Header.Get (str "X-Forwarded-For") = str "\u00a0 é \u2003,b" → getRealIP r = str "é") ∧
    (∀ (r : http.Request) (x : GoString),
      r.Header.Get (str "X-Forwarded-For") = x → x ≠ [] → (∀ b ∈ x, b.val < 0x80) →
      getRealIP r =
        ((((x.takeWhile (fun b => b != byte 0x2C)).dropWhile strings.asciiSpace).reverse).dropWhile
          strings.asciiSpace).reverse) := by
  refine ⟨?_, ?_, ?_, ?_, ?_, ?_⟩
  · intro r x hx hne
    subst hx
    rw [getRealIP_of_forwarded r hne]
    exact ⟨TrimSpace_spec _, fun t ht => Trimmed_unique _ _ _ ht (TrimSpace_spec _)⟩
  · intro r x hx hne
    subst hx
    exact getRealIP_of_forwarded r hne
  · intro r1 r2 h1 h2
    rw [getRealIP_of_forwarded r1 h1, getRealIP_of_forwarded r2 (h2 ▸ h1), h2]
  · intro r hx
    rw [getRealIP_of_forwarded r (by rw [hx]; decide), hx]
    decide
  · intro r hx
    rw [getRealIP_of_forwarded r (by rw [hx]; decide), hx]
    decide
  · intro r x hx hne hascii
    subst hx
    rw [getRealIP_of_forwarded r hne]
    exact TrimSpace_ascii _ (fun b hb => hascii b (List.takeWhile_subset _ hb))
/-! ## JSON strings -/

theorem hexValue_hex (x : Nat) (h : x < 16) : json.hexValue (json.hex x) = some x := by
  unfold json.hex json.hexValue
  by_cases h10 : x % 16 < 10
  · rw [if_pos h10, byte_val, if_pos (by omega)]
    congr 1
    omega
  · rw [if_neg h10, byte_val, if_neg (by omega), if_pos (by omega)]
    congr 1
    omega

theorem prepend_some (b t r : GoString) : json.prepend b (some (t, r)) = some (b ++ t, r) := rfl

/-- The parser on a two-byte escape of a quote or a backslash. -/
theorem parse_escape_same (k : Nat) (e : Byte) (x : GoString)
    (he : e = byte 0x22 ∨ e = byte 0x5C) :
    json.parseStringBody (k + 1) (byte 0x5C :: e :: x) =
      json.prepend [e] (json.parseStringBody k x) := by
  have h1 : ¬ (byte 0x5C = byte 0x22) := by decide
  have h2 : e = byte 0x22 ∨ e = byte 0x5C ∨ e = byte 0x2F := by
    rcases he with h | h
    · exact Or.inl h
    · exact Or.inr (Or.inl h)
  simp only [json.parseStringBody, h1, if_false, if_true, h2]

/-- The parser on a two-byte escape of a control character. -/
theorem parse_escape_short (k : Nat) (e c : Byte) (x : GoString)
    (h : (e = byte 0x62 ∧ c = byte 0x08) ∨ (e = byte 0x66 ∧ c = byte 0x0C) ∨
      (e = byte 0x6E ∧ c = byte 0x0A) ∨ (e = byte 0x72 ∧ c = byte 0x0D) ∨
      (e = byte 0x74 ∧ c = byte 0x09)) :
    json.parseStringBody (k + 1) (byte 0x5C :: e :: x) =
      json.prepend [c] (json.parseStringBody k x) := by
  have h1 : ¬ (byte 0x5C = byte 0x22) := by decide
  rcases h with ⟨rfl, rfl⟩ | ⟨rfl, rfl⟩ | ⟨rfl, rfl⟩ | ⟨rfl, rfl⟩ | ⟨rfl, rfl⟩ <;>
    (simp only [json.parseStringBody, h1, if_false, if_true]
     repeat rw [if_neg (by decide)])

/-- The parser on an escape `\uXXXX` of a rune that is not a surrogate. -/
theorem parse_escape_u (k : Nat) (h1 h2 h3 h4 : Byte) (x : GoString) (r : Nat)
    (hg : json.getu4 (byte 0x5C :: byte 0x75 :: h1 :: h2 :: h3 :: h4 :: x) = some r)
    (hs : utf16.IsSurrogate r = false) :
    json.parseStringBody (k + 1) (byte 0x5C :: byte 0x75 :: h1 :: h2 :: h3 :: h4 :: x) =
      json.prepend (utf8.EncodeRune r) (json.parseStringBody k x) := by
  have e1 : ¬ (byte 0x5C = byte 0x22) := by decide
  simp only [json.parseStringBody, e1, if_false, if_true, hg, hs]
  repeat rw [if_neg (by decide)]
  simp

/-- The parser on an ASCII byte that needs no escape. -/
theorem parse_plain (k : Nat) (b : Byte) (x : GoString) (h : json.htmlSafeSet b = true) :
    json.parseStringBody (k + 1) (b :: x) = json.prepend [b] (json.parseStringBody k x) := by
  simp only [json.htmlSafeSet, Bool.and_eq_true, decide_eq_true_eq, bne_iff_ne, ne_eq] at h
  have h1 : ¬ b = byte 0x22 := fun e => h.1.1.1.1.2 (by rw [e]; rfl)
  have h2 : ¬ b = byte 0x5C := fun e => h.2 (by rw [e]; rfl)
  have h3 : ¬ b.val < 0x20 := by omega
  have h4 : b.val < utf8.RuneSelf := by simp only [utf8.RuneSelf]; omega
  simp only [json.parseStringBody, h1, h2, h3, h4, if_false, if_true]

/-- The parser on a byte that is not ASCII: the first rune is decoded and written
in UTF-8. -/
theorem parse_raw (k : Nat) (b : Byte) (x : GoString) (h : 0x80 ≤ b.val) :
    json.parseStringBody (k + 1) (b :: x) =
      json.prepend (utf8.EncodeRune (utf8.DecodeRuneInString (b :: x)).1)
        (json.parseStringBody k ((b :: x).drop (utf8.DecodeRuneInString (b :: x)).2)) := by
  have h1 : ¬ b = byte 0x22 := fun e => by rw [e] at h; revert h; decide
  have h2 : ¬ b = byte 0x5C := fun e => by rw [e] at h; revert h; decide
  have h3 : ¬ b.val < 0x20 := by omega
  have h4 : ¬ b.val < utf8.RuneSelf := by simp only [utf8.RuneSelf]; omega
  simp only [json.parseStringBody, h1, h2, h3, h4, if_false]

/-- A string that starts with a valid sequence of more than one byte: the width
`n` of the first rune is 2, 3 or 4, the encoding of the rune is the first `n`
bytes, the rune is decoded from these bytes whatever follows them, and it is not
a surrogate. -/
theorem decode_valid (b : Byte) (r : GoString) (hb : 0x80 ≤ b.val)
    (hv : ¬ ((utf8.DecodeRuneInString (b :: r)).1 = utf8.RuneError ∧
      (utf8.DecodeRuneInString (b :: r)).2 = 1)) :
    ∃ (n : Nat) (p : GoString),
      (utf8.DecodeRuneInString (b :: r)).2 = n + 1 ∧ p.length = n ∧ 1 ≤ n ∧
      (b :: r).take (n + 1) = b :: p ∧ (b :: r).drop (n + 1) = r.drop n ∧ n ≤ r.length ∧
      utf8.EncodeRune (utf8.DecodeRuneInString (b :: r)).1 = b :: p ∧
      (∀ t, utf8.DecodeRuneInString (b :: (p ++ t)) = utf8.DecodeRuneInString (b :: r)) ∧
      utf16.IsSurrogate (utf8.DecodeRuneInString (b :: r)).1 = false ∧
      ((utf8.DecodeRuneInString (b :: r)).1 = 0x2028 ∨
        (utf8.DecodeRuneInString (b :: r)).1 = 0x2029 → n = 2) := by
  rcases decode_cases b r hb with h | h | h | h
  · rw [h] at hv
    exact absurd ⟨rfl, rfl⟩ hv
  · obtain ⟨b1, t, rfl, k0, k1⟩ := h
    refine ⟨1, [b1], ?_, rfl, le_refl _, rfl, rfl, by simp, ?_, ?_, ?_, ?_⟩
    · rw [decode_two b b1 t k0 k1]
    · rw [decode_two b b1 t k0 k1]
      exact encode_two b b1 k0 k1
    · intro u
      rw [decode_two b b1 t k0 k1]
      exact decode_two b b1 _ k0 k1
    · rw [decode_two b b1 t k0 k1]
      simp only [utf16.IsSurrogate, Bool.and_eq_false_iff, decide_eq_false_iff_not]
      omega
    · rw [decode_two b b1 t k0 k1]
      simp only
      omega
  · obtain ⟨b1, b2, t, rfl, k0, k1, k2⟩ := h
    refine ⟨2, [b1, b2], ?_, rfl, by omega, rfl, rfl, by simp, ?_, ?_, ?_, ?_⟩
    · rw [decode_three b b1 b2 t k0 k1 k2]
    · rw [decode_three b b1 b2 t k0 k1 k2]
      exact encode_three b b1 b2 k0 k1 k2
    · intro u
      rw [decode_three b b1 b2 t k0 k1 k2]
      exact decode_three b b1 b2 _ k0 k1 k2
    · rw [decode_three b b1 b2 t k0 k1 k2]
      simp only [utf16.IsSurrogate, Bool.and_eq_false_iff, decide_eq_false_iff_not]
      omega
    · intro _; rfl
  · obtain ⟨b1, b2, b3, t, rfl, k0, k1, k2, k3⟩ := h
    refine ⟨3, [b1, b2, b3], ?_, rfl, by omega, rfl, rfl, by simp, ?_, ?_, ?_, ?_⟩
    · rw [decode_four b b1 b2 b3 t k0 k1 k2 k3]
    · rw [decode_four b b1 b2 b3 t k0 k1 k2 k3]
      exact encode_four b b1 b2 b3 k0 k1 k2 k3
    · intro u
      rw [decode_four b b1 b2 b3 t k0 k1 k2 k3]
      exact decode_four b b1 b2 b3 _ k0 k1 k2 k3
    · rw [decode_four b b1 b2 b3 t k0 k1 k2 k3]
      simp only [utf16.IsSurrogate, Bool.and_eq_false_iff, decide_eq_false_iff_not]
      omega
    · rw [decode_four b b1 b2 b3 t k0 k1 k2 k3]
      simp only
      omega

theorem getu4_u00 (v : Nat) (hv : v < 256) (x : GoString) :
    json.getu4 (byte 0x5C :: byte 0x75 :: byte 0x30 :: byte 0x30 :: json.hex (v / 16) ::
      json.hex (v % 16) :: x) = some v := by
  have h0 : json.hexValue (byte 0x30) = some 0 := by decide
  simp only [json.getu4, true_and, if_true, h0, hexValue_hex (v / 16) (by omega),
    hexValue_hex (v % 16) (by omega)]
  congr 1
  omega

theorem decode_ascii (b : Byte) (r : GoString) (hb : b.val < 0x80) :
    utf8.DecodeRuneInString (b :: r) = (b.val, 1) := by
  simp [utf8.DecodeRuneInString, utf8.RuneSelf, hb]

theorem coerceLoop_ascii (f : Nat) (b : Byte) (r : GoString) (hb : b.val < 0x80) :
    coerceLoop (f + 1) (b :: r) = b :: coerceLoop f r := by
  have hne : ¬ (b.val = utf8.RuneError ∧ True) := by
    simp only [utf8.RuneError]; omega
  simp only [coerceLoop, decode_ascii b r hb, hne, if_false]
  rfl

theorem encode_ascii (b : Byte) (hb : b.val < 0x80) : utf8.EncodeRune b.val = [b] := by
  unfold utf8.EncodeRune
  rw [if_pos hb, byte_eq _ b (by omega)]

/-- The escape that the encoder writes for an ASCII byte outside the safe set is
read back as that byte. -/
theorem parse_escapeByte (k : Nat) (b : Byte) (x : GoString) (hb : b.val < 0x80) :
    json.parseStringBody (k + 1) (json.escapeByte b ++ x) =
      json.prepend [b] (json.parseStringBody k x) := by
  unfold json.escapeByte
  split
  · rename_i h
    have : b = byte 0x22 ∨ b = byte 0x5C := by
      rcases h with h | h
      · exact Or.inr (Fin.ext h)
      · exact Or.inl (Fin.ext h)
    exact parse_escape_same k b x this
  · split
    · rename_i h
      have e : b = byte 0x08 := Fin.ext h
      exact parse_escape_short k _ b x (Or.inl ⟨rfl, e⟩)
    · split
      · rename_i h
        have e : b = byte 0x0C := Fin.ext h
        exact parse_escape_short k _ b x (Or.inr (Or.inl ⟨rfl, e⟩))
      · split
        · rename_i h
          have e : b = byte 0x0A := Fin.ext h
          exact parse_escape_short k _ b x (Or.inr (Or.inr (Or.inl ⟨rfl, e⟩)))
        · split
          · rename_i h
            have e : b = byte 0x0D := Fin.ext h
            exact parse_escape_short k _ b x (Or.inr (Or.inr (Or.inr (Or.inl ⟨rfl, e⟩))))
          · split
            · rename_i h
              have e : b = byte 0x09 := Fin.ext h
              exact parse_escape_short k _ b x (Or.inr (Or.inr (Or.inr (Or.inr ⟨rfl, e⟩))))
            · have hs : utf16.IsSurrogate b.val = false := by
                simp only [utf16.IsSurrogate, Bool.and_eq_false_iff, decide_eq_false_iff_not]
                omega
              have hu : str "\\u00" = [byte 0x5C, byte 0x75, byte 0x30, byte 0x30] := by decide
              rw [hu]
              have := parse_escape_u k (byte 0x30) (byte 0x30) (json.hex (b.val / 16))
                (json.hex (b.val % 16)) x b.val (getu4_u00 b.val b.isLt x) hs
              rw [encode_ascii b hb] at this
              exact this

theorem escapeByte_length (b : Byte) : 2 ≤ (json.escapeByte b).length := by
  unfold json.escapeByte
  repeat' split
  all_goals simp [str, utf8.EncodeRune]

/-- Reading back what `appendString` writes between the quotes gives the string
coerced to valid UTF-8, and leaves the input after the closing quote. -/
theorem parse_appendStringLoop (f : Nat) :
    ∀ (s : GoString) (fuel : Nat) (rest : GoString), s.length ≤ f →
      (json.appendStringLoop f s).length + 1 ≤ fuel →
      json.parseStringBody fuel (json.appendStringLoop f s ++ byte 0x22 :: rest) =
        some (coerceLoop f s, rest) := by
  induction f with
  | zero =>
    intro s fuel rest hs hf
    obtain ⟨k, rfl⟩ : ∃ k, fuel = k + 1 := ⟨fuel - 1, by omega⟩
    simp [json.appendStringLoop, json.parseStringBody, coerceLoop]
  | succ f ih =>
    intro s fuel rest hs hf
    obtain ⟨k, rfl⟩ : ∃ k, fuel = k + 1 := ⟨fuel - 1, by omega⟩
    cases s with
    | nil => simp [json.appendStringLoop, json.parseStringBody, coerceLoop]
    | cons b r =>
      have hr : r.length ≤ f := by simpa using hs
      by_cases hb : b.val < 0x80
      · have hb2 : b.val < utf8.RuneSelf := hb
        rw [coerceLoop_ascii f b r hb]
        by_cases hsafe : json.htmlSafeSet b = true
        · have hal : json.appendStringLoop (f + 1) (b :: r) = b :: json.appendStringLoop f r := by
            simp only [json.appendStringLoop, hb2, hsafe, if_true]
          rw [hal] at hf ⊢
          simp only [List.length_cons] at hf
          rw [List.cons_append, parse_plain k b _ hsafe, ih r k rest hr (by omega), prepend_some]
          rfl
        · have hal : json.appendStringLoop (f + 1) (b :: r) =
              json.escapeByte b ++ json.appendStringLoop f r := by
            simp only [json.appendStringLoop, hb2, hsafe, if_true, if_false]
            simp
          rw [hal] at hf ⊢
          have hl := escapeByte_length b
          simp only [List.length_append] at hf
          rw [List.append_assoc, parse_escapeByte k b _ hb, ih r k rest hr (by omega),
            prepend_some]
          rfl
      · have hb2 : ¬ b.val < utf8.RuneSelf := hb
        have hb3 : 0x80 ≤ b.val := by omega
        by_cases hv : (utf8.DecodeRuneInString (b :: r)).1 = utf8.RuneError ∧
            (utf8.DecodeRuneInString (b :: r)).2 = 1
        · have hal : json.appendStringLoop (f + 1) (b :: r) =
              str "\\ufffd" ++ json.appendStringLoop f r := by
            simp only [json.appendStringLoop, hb2, if_false, decode_take, hv, and_self, if_true]
          have hco : coerceLoop (f + 1) (b :: r) =
              [byte 0xEF, byte 0xBF, byte 0xBD] ++ coerceLoop f r := by
            simp only [coerceLoop, hv, and_self, if_true]
          have hu : str "\\ufffd" =
              [byte 0x5C, byte 0x75, byte 0x66, byte 0x66, byte 0x66, byte 0x64] := by decide
          rw [hal, hu] at hf ⊢
          simp only [List.length_append, List.length_cons, List.length_nil] at hf
          rw [hco]
          have hp := parse_escape_u k (byte 0x66) (byte 0x66) (byte 0x66) (byte 0x64)
            (json.appendStringLoop f r ++ byte 0x22 :: rest) 0xFFFD (by rfl) (by decide)
          have he : utf8.EncodeRune 0xFFFD = [byte 0xEF, byte 0xBF, byte 0xBD] := by decide
          rw [he] at hp
          simp only [List.cons_append, List.nil_append, List.append_assoc]
          rw [hp, ih r k rest hr (by omega), prepend_some]
          rfl
        · obtain ⟨n, p, hd2, hpl, hn1, htake, hdrop, hnr, henc, hdec, hsur, h2028⟩ :=
            decode_valid b r hb3 hv
          have hv2 : ¬ ((utf8.DecodeRuneInString (b :: r)).1 = utf8.RuneError ∧ n + 1 = 1) := by
            omega
          have hco : coerceLoop (f + 1) (b :: r) = (b :: p) ++ coerceLoop f (r.drop n) := by
            simp only [coerceLoop, hd2, hv2, if_false, htake, hdrop]
          have hdl : (r.drop n).length ≤ f := by
            simp only [List.length_drop]; omega
          rw [hco]
          by_cases hls : (utf8.DecodeRuneInString (b :: r)).1 = 0x2028 ∨
              (utf8.DecodeRuneInString (b :: r)).1 = 0x2029
          · have hal : json.appendStringLoop (f + 1) (b :: r) =
                str "\\u202" ++ [json.hex ((utf8.DecodeRuneInString (b :: r)).1 % 16)] ++
                  json.appendStringLoop f (r.drop n) := by
              simp only [json.appendStringLoop, hb2, if_false, decode_take, hd2, hv2, hls, if_true,
                hdrop]
            have hu : str "\\u202" = [byte 0x5C, byte 0x75, byte 0x32, byte 0x30, byte 0x32] := by
              decide
            rw [hal, hu] at hf ⊢
            simp only [List.length_append, List.length_cons, List.length_nil] at hf
            have hg : json.getu4 (byte 0x5C :: byte 0x75 :: byte 0x32 :: byte 0x30 :: byte 0x32 ::
                json.hex ((utf8.DecodeRuneInString (b :: r)).1 % 16) ::
                (json.appendStringLoop f (r.drop n) ++ byte 0x22 :: rest)) =
                some (utf8.DecodeRuneInString (b :: r)).1 := by
              rcases hls with e | e <;> rw [e] <;> rfl
            have hp := parse_escape_u k (byte 0x32) (byte 0x30) (byte 0x32) _ _ _ hg hsur
            simp only [List.cons_append, List.nil_append, List.append_assoc]
            rw [hp, ih (r.drop n) k rest hdl (by omega), prepend_some, henc]
            rfl
          · have hal : json.appendStringLoop (f + 1) (b :: r) =
                (b :: p) ++ json.appendStringLoop f (r.drop n) := by
              simp only [json.appendStringLoop, hb2, if_false, decode_take, hd2, hv2, hls, htake,
                hdrop]
            rw [hal] at hf ⊢
            simp only [List.length_append, List.length_cons] at hf
            simp only [List.cons_append, List.append_assoc]
            rw [parse_raw k b _ hb3, hdec, hd2, henc]
            have hdr : (b :: (p ++ (json.appendStringLoop f (r.drop n) ++ byte 0x22 :: rest))).drop
                (n + 1) = json.appendStringLoop f (r.drop n) ++ byte 0x22 :: rest := by
              rw [List.drop_succ_cons, ← hpl, List.drop_left]
            rw [hdr, ih (r.drop n) k rest hdl (by omega), prepend_some]
            rfl

/-! ## JSON values -/

theorem skipSpace_cons (c : Byte) (s : GoString) (h : json.isSpace c = false) :
    json.skipSpace (c :: s) = c :: s := by
  simp [json.skipSpace, h]

/-- The content of a string literal is read back, whatever the fuel above the
length of the literal. -/
theorem parse_string_text (s rest : GoString) (fuel : Nat)
    (hf : (json.appendStringLoop s.length s).length + 1 ≤ fuel) :
    json.parseStringBody fuel (json.appendStringLoop s.length s ++ byte 0x22 :: rest) =
      some (coerce s, rest) :=
  parse_appendStringLoop s.length s fuel rest (le_refl _) hf

theorem appendString_eq (s : GoString) :
    json.appendString s = byte 0x22 :: (json.appendStringLoop s.length s ++ [byte 0x22]) := by
  simp [json.appendString]

theorem appendString_length (s : GoString) :
    (json.appendString s).length = (json.appendStringLoop s.length s).length + 2 := by
  simp [json.appendString]

/-- A string literal is read back as a JSON string with the content coerced to
valid UTF-8. -/
theorem parseValue_string (s rest : GoString) (fuel : Nat) (hf : 1 ≤ fuel) :
    json.parseValue fuel (json.appendString s ++ rest) =
      some (json.Value.string (coerce s), rest) := by
  obtain ⟨k, rfl⟩ : ∃ k, fuel = k + 1 := ⟨fuel - 1, by omega⟩
  rw [appendString_eq]
  simp only [List.cons_append, List.append_assoc, List.singleton_append]
  rw [json.parseValue, skipSpace_cons _ _ (by decide)]
  simp only [if_true, List.nil_append]
  rw [parse_string_text s rest _ (by simp)]
  rfl

/-- The literal `null` is read back as the JSON value `null`. -/
theorem parseValue_null (rest : GoString) (fuel : Nat) (hf : 1 ≤ fuel) :
    json.parseValue fuel (str "null" ++ rest) = some (json.Value.null, rest) := by
  obtain ⟨k, rfl⟩ : ∃ k, fuel = k + 1 := ⟨fuel - 1, by omega⟩
  have hn : str "null" = [byte 0x6E, byte 0x75, byte 0x6C, byte 0x6C] := by decide
  rw [hn]
  simp only [List.cons_append, List.nil_append]
  rw [json.parseValue, skipSpace_cons _ _ (by decide)]
  simp only []
  rw [if_neg (by decide), if_neg (by decide), if_neg (by decide)]
  have h1 : ∀ x : GoString, strings.startsWith
      (byte 0x6E :: byte 0x75 :: byte 0x6C :: byte 0x6C :: x) (str "true") = false := by
    intro x; rfl
  have h2 : ∀ x : GoString, strings.startsWith
      (byte 0x6E :: byte 0x75 :: byte 0x6C :: byte 0x6C :: x) (str "false") = false := by
    intro x; rfl
  have h3 : ∀ x : GoString, strings.startsWith
      (byte 0x6E :: byte 0x75 :: byte 0x6C :: byte 0x6C :: x) (str "null") = true := by
    intro x
    rw [hn]
    cases x <;> simp [strings.startsWith]
  simp [h1, h2, h3]

theorem intercalate_two (sep a b : GoString) (l : List GoString) :
    List.intercalate sep (a :: b :: l) = a ++ sep ++ List.intercalate sep (b :: l) := by
  simp [List.intercalate, List.intersperse, List.append_assoc]

theorem intercalate_one (sep a : GoString) : List.intercalate sep [a] = a := by
  simp [List.intercalate]

/-- The elements of an array are read back one by one: `es` lists the text of
each element with the value that is read from it. -/
theorem parseElems_texts (es : List (GoString × json.Value))
    (hv : ∀ e ∈ es, ∀ (rest : GoString) (fuel : Nat), e.1.length ≤ fuel →
      json.parseValue fuel (e.1 ++ rest) = some (e.2, rest))
    (hne : es ≠ []) (rest : GoString) (fuel : Nat)
    (hf : (List.intercalate [byte 0x2C] (es.map Prod.fst)).length + 1 ≤ fuel) :
    json.parseElems fuel (List.intercalate [byte 0x2C] (es.map Prod.fst) ++ byte 0x5D :: rest) =
      some (es.map Prod.snd, rest) := by
  induction es generalizing fuel with
  | nil => exact absurd rfl hne
  | cons e es ih =>
    obtain ⟨k, rfl⟩ : ∃ k, fuel = k + 1 := ⟨fuel - 1, by omega⟩
    cases es with
    | nil =>
      simp only [List.map_cons, List.map_nil, intercalate_one] at hf ⊢
      rw [json.parseElems, hv e (by simp) _ k (by omega)]
      simp only []
      rw [skipSpace_cons _ _ (by decide)]
      simp only []
      rw [if_neg (by decide)]
      simp
    | cons e2 es2 =>
      simp only [List.map_cons, intercalate_two, List.length_append, List.length_cons,
        List.length_nil] at hf ⊢
      rw [json.parseElems]
      simp only [List.append_assoc]
      rw [hv e (by simp) _ k (by omega)]
      simp only [List.singleton_append]
      rw [skipSpace_cons _ _ (by decide)]
      simp only [if_true]
      have := ih (fun x hx => hv x (by simp [hx])) (by simp) k
        (by simp only [List.map_cons]; omega)
      simp only [List.map_cons] at this
      rw [this]
      rfl

/-- The members of an object are read back one by one: `es` lists, for each
member, the text of its key between the quotes, the key that is read from it, the
text of its value and the value that is read from it. -/
theorem parseMembers_texts (es : List (GoString × GoString × GoString × json.Value))
    (hk : ∀ e ∈ es, ∀ (rest : GoString) (fuel : Nat), e.1.length + 1 ≤ fuel →
      json.parseStringBody fuel (e.1 ++ byte 0x22 :: rest) = some (e.2.1, rest))
    (hv : ∀ e ∈ es, ∀ (rest : GoString) (fuel : Nat), e.2.2.1.length ≤ fuel →
      json.parseValue fuel (e.2.2.1 ++ rest) = some (e.2.2.2, rest))
    (hne : es ≠ []) (rest : GoString) (fuel : Nat)
    (hf : (List.intercalate [byte 0x2C]
      (es.map (fun e => byte 0x22 :: (e.1 ++ byte 0x22 :: byte 0x3A :: e.2.2.1)))).length + 1
        ≤ fuel) :
    json.parseMembers fuel
      (List.intercalate [byte 0x2C]
        (es.map (fun e => byte 0x22 :: (e.1 ++ byte 0x22 :: byte 0x3A :: e.2.2.1))) ++
          byte 0x7D :: rest) =
      some (es.map (fun e => (e.2.1, e.2.2.2)), rest) := by
  induction es generalizing fuel with
  | nil => exact absurd rfl hne
  | cons e es ih =>
    obtain ⟨k, rfl⟩ : ∃ k, fuel = k + 1 := ⟨fuel - 1, by omega⟩
    cases es with
    | nil =>
      simp only [List.map_cons, List.map_nil, intercalate_one, List.length_cons,
        List.length_append] at hf ⊢
      rw [json.parseMembers]
      simp only [List.cons_append, List.append_assoc]
      rw [skipSpace_cons _ _ (by decide)]
      simp only [if_true]
      rw [hk e (by simp) _ _ (by simp)]
      simp only []
      rw [skipSpace_cons _ _ (by decide)]
      simp only [if_true]
      rw [hv e (by simp) _ k (by omega)]
      simp only []
      rw [skipSpace_cons _ _ (by decide)]
      simp only []
      rw [if_neg (by decide)]
      simp
    | cons e2 es2 =>
      simp only [List.map_cons, intercalate_two, List.length_append, List.length_cons,
        List.length_nil] at hf ⊢
      rw [json.parseMembers]
      simp only [List.cons_append, List.append_assoc, List.nil_append]
      rw [skipSpace_cons _ _ (by decide)]
      simp only [if_true]
      rw [hk e (by simp) _ _ (by simp)]
      simp only []
      rw [skipSpace_cons _ _ (by decide)]
      simp only [if_true]
      rw [hv e (by simp) _ k (by omega)]
      simp only []
      rw [skipSpace_cons _ _ (by decide)]
      simp only [if_true]
      have := ih (fun x hx => hk x (by simp [hx])) (fun x hx => hv x (by simp [hx])) (by simp) k
        (by simp only [List.map_cons, List.length_cons, List.length_append]; omega)
      simp only [List.map_cons] at this
      rw [this]
      rfl

theorem intercalate_head (sep : GoString) (l : List GoString) (c : Byte) (hne : l ≠ [])
    (h : ∀ x ∈ l, ∃ y, x = c :: y) : ∃ y, List.intercalate sep l = c :: y := by
  match l, hne with
  | [a], _ =>
    obtain ⟨y, hy⟩ := h a (by simp)
    exact ⟨y, by rw [intercalate_one, hy]⟩
  | a :: b :: l, _ =>
    obtain ⟨y, hy⟩ := h a (by simp)
    exact ⟨y ++ sep ++ List.intercalate sep (b :: l), by
      rw [intercalate_two, hy]; simp⟩

/-- An array of strings is read back as the array of the coerced strings. -/
theorem parseValue_array (l : List GoString) (rest : GoString) (fuel : Nat)
    (hf : (json.encodeArray l).length ≤ fuel) :
    json.parseValue fuel (json.encodeArray l ++ rest) =
      some (json.Value.array (l.map (fun s => json.Value.string (coerce s))), rest) := by
  unfold json.encodeArray at hf ⊢
  simp only [List.length_append, List.length_cons, List.length_nil] at hf
  obtain ⟨k, rfl⟩ : ∃ k, fuel = k + 1 := ⟨fuel - 1, by omega⟩
  simp only [List.singleton_append, List.cons_append, List.append_assoc]
  rw [json.parseValue, skipSpace_cons _ _ (by decide)]
  simp only [List.nil_append]
  rw [if_neg (by decide)]
  simp only [if_true]
  by_cases hl : l = []
  · subst hl
    simp only [List.map_nil, List.intercalate, List.intersperse, List.flatten, List.nil_append]
    rw [skipSpace_cons _ _ (by decide)]
    simp
  · obtain ⟨y, hy⟩ := intercalate_head [byte 0x2C] (l.map json.appendString) (byte 0x22)
      (by simpa using hl) (by
        intro x hx
        obtain ⟨s, _, rfl⟩ := List.mem_map.1 hx
        exact ⟨_, appendString_eq s⟩)
    have hsk : json.skipSpace (List.intercalate [byte 0x2C] (l.map json.appendString) ++
        (byte 0x5D :: rest)) = List.intercalate [byte 0x2C] (l.map json.appendString) ++
        (byte 0x5D :: rest) := by
      rw [hy, List.cons_append, skipSpace_cons _ _ (by decide)]
    rw [hsk]
    have hq : (List.intercalate [byte 0x2C] (l.map json.appendString) ++ (byte 0x5D :: rest)) =
        byte 0x22 :: (y ++ byte 0x5D :: rest) := by rw [hy]; rfl
    have hes := parseElems_texts (l.map (fun s => (json.appendString s, json.Value.string (coerce s))))
      (by
        intro e he r f h1
        obtain ⟨s, _, rfl⟩ := List.mem_map.1 he
        rw [appendString_length] at h1
        exact parseValue_string s r f (by omega))
      (by simpa using hl) rest k
    simp only [List.map_map, Function.comp_def] at hes
    have hmap : (l.map fun x => json.appendString x) = l.map json.appendString := rfl
    rw [hmap] at hes
    rw [hq]
    simp only []
    rw [if_neg (by decide), ← hq, hes (by omega)]
    rfl

/-- A map of strings is read back as the object of its coerced entries in the
order of the sorted keys. -/
theorem parseValue_map (m : StringMap) (rest : GoString) (fuel : Nat)
    (hf : (json.encodeMap m).length ≤ fuel) :
    json.parseValue fuel (json.encodeMap m ++ rest) =
      some (json.Value.object ((sort.Strings m.keys).map
        (fun k => (coerce k, json.Value.string (coerce ((m.lookup k).getD []))))), rest) := by
  unfold json.encodeMap at hf ⊢
  have htext : ∀ k : GoString,
      json.appendString k ++ [byte 0x3A] ++ json.appendString ((m.lookup k).getD []) =
        byte 0x22 :: (json.appendStringLoop k.length k ++
          byte 0x22 :: byte 0x3A :: json.appendString ((m.lookup k).getD [])) := by
    intro k
    rw [appendString_eq k]
    simp
  simp only [htext] at hf ⊢
  generalize sort.Strings m.keys = ks at hf ⊢
  simp only [List.length_append, List.length_cons, List.length_nil] at hf
  obtain ⟨k, rfl⟩ : ∃ k, fuel = k + 1 := ⟨fuel - 1, by omega⟩
  simp only [List.singleton_append, List.cons_append, List.append_assoc]
  rw [json.parseValue, skipSpace_cons _ _ (by decide)]
  simp only [List.nil_append]
  rw [if_neg (by decide), if_neg (by decide)]
  simp only [if_true]
  by_cases hl : ks = []
  · subst hl
    simp only [List.map_nil, List.intercalate, List.intersperse, List.flatten, List.nil_append]
    rw [skipSpace_cons _ _ (by decide)]
    simp
  · have hes := parseMembers_texts
      (ks.map (fun k => (json.appendStringLoop k.length k, coerce k,
        json.appendString ((m.lookup k).getD []),
        json.Value.string (coerce ((m.lookup k).getD [])))))
      (by
        intro e he r f h1
        obtain ⟨s, _, rfl⟩ := List.mem_map.1 he
        exact parse_string_text s r f h1)
      (by
        intro e he r f h1
        obtain ⟨s, _, rfl⟩ := List.mem_map.1 he
        simp only [appendString_length] at h1
        exact parseValue_string _ r f (by omega))
      (by simpa using hl) rest k
    simp only [List.map_map, Function.comp_def] at hes
    obtain ⟨y, hy⟩ := intercalate_head [byte 0x2C]
      (ks.map (fun k => byte 0x22 :: (json.appendStringLoop k.length k ++
          byte 0x22 :: byte 0x3A :: json.appendString ((m.lookup k).getD [])))) (byte 0x22)
      (by simpa using hl) (by
        intro x hx
        obtain ⟨s, _, rfl⟩ := List.mem_map.1 hx
        exact ⟨_, rfl⟩)
    have hq : (List.intercalate [byte 0x2C]
        (ks.map (fun k => byte 0x22 :: (json.appendStringLoop k.length k ++
          byte 0x22 :: byte 0x3A :: json.appendString ((m.lookup k).getD [])))) ++
        (byte 0x7D :: rest)) = byte 0x22 :: (y ++ byte 0x7D :: rest) := by rw [hy]; rfl
    rw [hq, skipSpace_cons _ _ (by decide)]
    simp only []
    rw [if_neg (by decide), ← hq, hes (by omega)]
    rfl

/-- A name of safe ASCII bytes between quotes is read back as it is. -/
theorem parse_safe_name (name : GoString) (h : ∀ b ∈ name, json.htmlSafeSet b = true)
    (rest : GoString) (fuel : Nat) (hf : name.length + 1 ≤ fuel) :
    json.parseStringBody fuel (name ++ byte 0x22 :: rest) = some (name, rest) := by
  induction name generalizing fuel with
  | nil =>
    obtain ⟨k, rfl⟩ : ∃ k, fuel = k + 1 := ⟨fuel - 1, by omega⟩
    simp [json.parseStringBody]
  | cons b name ih =>
    obtain ⟨k, rfl⟩ : ∃ k, fuel = k + 1 := ⟨fuel - 1, by omega⟩
    simp only [List.length_cons] at hf
    rw [List.cons_append, parse_plain k b _ (h b (by simp)),
      ih (fun x hx => h x (by simp [hx])) k (by omega), prepend_some]
    rfl

/-- What the encoder writes for the value of a field is read back as the JSON
value of that field. -/
theorem parseValue_encodeValue (v : json.FieldValue) (rest : GoString) (fuel : Nat)
    (hf : (json.encodeValue v).length ≤ fuel) :
    json.parseValue fuel (json.encodeValue v ++ rest) = some (jsonValue v, rest) := by
  have hnull : (str "null").length = 4 := by decide
  cases v with
  | string s =>
    simp only [json.encodeValue, appendString_length] at hf
    exact parseValue_string s rest fuel (by omega)
  | slice x =>
    cases x with
    | none =>
      simp only [json.encodeValue, hnull] at hf
      exact parseValue_null rest fuel (by omega)
    | some l => exact parseValue_array l rest fuel hf
  | map x =>
    cases x with
    | none =>
      simp only [json.encodeValue, hnull] at hf
      exact parseValue_null rest fuel (by omega)
    | some m => exact parseValue_map m rest fuel hf

/-! ## The JSON rendering of a report -/

theorem intercalate_flatMap (sep a : GoString) (l : List GoString) :
    List.intercalate sep (a :: l) = a ++ l.flatMap (fun g => sep ++ g) := by
  induction l generalizing a with
  | nil => simp [List.intercalate]
  | cons b l ih =>
    rw [intercalate_two, ih b]
    simp [List.append_assoc]

theorem fieldText_eq (f : json.Field) :
    fieldText f = byte 0x22 :: (f.name ++ byte 0x22 :: byte 0x3A :: json.encodeValue f.value) := by
  simp [fieldText]

theorem structEncodeLoop_eq (fields : List json.Field) (buf : GoString) (next : Byte) :
    json.structEncodeLoop fields (buf, next) =
      match activeFields fields with
      | [] => (buf, next)
      | f :: fs =>
        (buf ++ [next] ++ fieldText f ++ fs.flatMap (fun g => [byte 0x2C] ++ fieldText g),
          byte 0x2C) := by
  induction fields generalizing buf next with
  | nil => rfl
  | cons f0 fields ih =>
    by_cases ho : (f0.omitEmpty && json.isEmptyValue f0.value) = true
    · have ha : activeFields (f0 :: fields) = activeFields fields := by
        unfold activeFields
        rw [List.filter_cons, if_neg (by simp only [ho]; decide)]
      rw [ha, json.structEncodeLoop, if_pos ho, ih]
    · have ha : activeFields (f0 :: fields) = f0 :: activeFields fields := by
        have ho2 : (f0.omitEmpty && json.isEmptyValue f0.value) = false := by
          simpa using ho
        unfold activeFields
        rw [List.filter_cons, if_pos (by simp only [ho2]; decide)]
      rw [ha, json.structEncodeLoop, if_neg ho, ih]
      have ht : buf ++ [next] ++ ([byte 0x22] ++ f0.name ++ [byte 0x22, byte 0x3A]) ++
          json.encodeValue f0.value = buf ++ [next] ++ fieldText f0 := by
        simp [fieldText]
      rw [ht]
      cases activeFields fields with
      | nil => simp
      | cons g gs => simp [List.append_assoc]

/-- The text that the struct encoder writes: the texts of the fields that are
written, separated by commas, between braces. -/
theorem structEncode_eq (fields : List json.Field) (hne : activeFields fields ≠ []) :
    json.structEncode fields =
      byte 0x7B :: (List.intercalate [byte 0x2C] ((activeFields fields).map fieldText) ++
        [byte 0x7D]) := by
  unfold json.structEncode
  simp only [structEncodeLoop_eq]
  cases ha : activeFields fields with
  | nil => exact absurd ha hne
  | cons f fs =>
    simp only [List.map_cons, intercalate_flatMap, List.flatMap_map]
    rw [if_neg (by decide)]
    simp [List.append_assoc]

/-- The JSON text of a struct is read back as the object of the fields that are
written, each with its name and the JSON value of its value. -/
theorem parse_structEncode (fields : List json.Field)
    (hsafe : ∀ f ∈ fields, ∀ b ∈ f.name, json.htmlSafeSet b = true)
    (hne : activeFields fields ≠ []) :
    json.parse (json.structEncode fields ++ [byte 0x0A]) =
      some (json.Value.object
        ((activeFields fields).map (fun f => (f.name, jsonValue f.value)))) := by
  rw [structEncode_eq fields hne]
  have hmem : ∀ f ∈ activeFields fields, f ∈ fields := fun f hf => (List.mem_filter.1 hf).1
  have hes := parseMembers_texts
    ((activeFields fields).map (fun f => (f.name, f.name, json.encodeValue f.value,
      jsonValue f.value)))
    (by
      intro e he r fu h1
      obtain ⟨f, hf, rfl⟩ := List.mem_map.1 he
      exact parse_safe_name f.name (hsafe f (hmem f hf)) r fu h1)
    (by
      intro e he r fu h1
      obtain ⟨f, _, rfl⟩ := List.mem_map.1 he
      exact parseValue_encodeValue f.value r fu h1)
    (by simpa using hne) [byte 0x0A]
  simp only [List.map_map, Function.comp_def] at hes
  have hft : (fun f : json.Field =>
      byte 0x22 :: (f.name ++ byte 0x22 :: byte 0x3A :: json.encodeValue f.value)) = fieldText := by
    funext f
    exact (fieldText_eq f).symm
  rw [hft] at hes
  obtain ⟨y, hy⟩ := intercalate_head [byte 0x2C] ((activeFields fields).map fieldText) (byte 0x22)
    (by simpa using hne) (by
      intro x hx
      obtain ⟨f, _, rfl⟩ := List.mem_map.1 hx
      exact ⟨_, fieldText_eq f⟩)
  unfold json.parse
  simp only [List.cons_append, List.append_assoc, List.singleton_append, List.length_cons]
  rw [json.parseValue, skipSpace_cons _ _ (by decide)]
  simp only [List.nil_append]
  rw [if_neg (by decide), if_neg (by decide)]
  simp only [if_true]
  have hq : List.intercalate [byte 0x2C] ((activeFields fields).map fieldText) ++
      byte 0x7D :: [byte 0x0A] = byte 0x22 :: (y ++ byte 0x7D :: [byte 0x0A]) := by
    rw [hy]; rfl
  rw [hq, skipSpace_cons _ _ (by decide)]
  simp only []
  rw [if_neg (by decide), ← hq, hes _ (by
    simp only [List.length_append, List.length_cons, List.length_nil]; omega)]
  simp only [Option.map_some']
  have : json.skipSpace [byte 0x0A] = [] := by decide
  rw [this]
  rfl

theorem jsonFields_safe (info : RequestInfo) :
    ∀ f ∈ info.jsonFields, ∀ b ∈ f.name, json.htmlSafeSet b = true := by
  intro f hf
  simp only [RequestInfo.jsonFields, List.mem_cons, List.mem_singleton, List.not_mem_nil,
    or_false] at hf
  rcases hf with h | h | h | h | h | h | h | h | h | h | h | h | h | h | h | h <;>
    (subst h; simp only []; decide)

/-- The fields of a report that the encoder writes: all of them, except `name`
when the name is empty. -/
theorem activeFields_jsonFields (info : RequestInfo) :
    activeFields info.jsonFields =
      [⟨str "hostname", false, .string info.Hostname⟩] ++
      (if info.Name ≠ [] then [⟨str "name", true, .string info.Name⟩] else []) ++
      [⟨str "ip", false, .slice info.IP⟩,
       ⟨str "remote_addr", false, .string info.RemoteAddr⟩,
       ⟨str "host", false, .string info.Host⟩,
       ⟨str "url", false, .string info.URL⟩,
       ⟨str "method", false, .string info.Method⟩,
       ⟨str "real_ip", false, .string info.RealIP⟩,
       ⟨str "protocol", false, .string info.Protocol⟩,
       ⟨str "headers", false, .map info.Headers⟩,
       ⟨str "environment", false, .map info.Environment⟩,
       ⟨str "os", false, .string info.OS⟩,
       ⟨str "architecture", false, .string info.Architecture⟩,
       ⟨str "runtime", false, .string info.Runtime⟩,
       ⟨str "time", false, .string info.Time⟩,
       ⟨str "version", false, .string info.Version⟩] := by
  by_cases hn : info.Name = []
  · simp [activeFields, RequestInfo.jsonFields, List.filter_cons, json.isEmptyValue, hn]
  · simp [activeFields, RequestInfo.jsonFields, List.filter_cons, json.isEmptyValue, hn]

/-- The JSON text of a report is read back as the object of the fields that are
written. -/
theorem parse_Encode (info : RequestInfo) :
    json.parse (Encode info) =
      some (json.Value.object
        ((activeFields info.jsonFields).map (fun f => (f.name, jsonValue f.value)))) :=
  parse_structEncode info.jsonFields (jsonFields_safe info) (by
    rw [activeFields_jsonFields]; simp)

/-- The keys of the object that is read back from the JSON text of a report. -/
theorem Encode_member_keys (info : RequestInfo) :
    ((activeFields info.jsonFields).map (fun f => (f.name, jsonValue f.value))).map Prod.fst =
      [str "hostname"] ++ (if info.Name ≠ [] then [str "name"] else []) ++
        [str "ip", str "remote_addr", str "host", str "url", str "method", str "real_ip",
         str "protocol", str "headers", str "environment", str "os", str "architecture",
         str "runtime", str "time", str "version"] := by
  rw [activeFields_jsonFields]
  by_cases hn : info.Name = [] <;> simp [hn]

theorem name_key_iff (info : RequestInfo) :
    str "name" ∈ [str "hostname"] ++ (if info.Name ≠ [] then [str "name"] else []) ++
        [str "ip", str "remote_addr", str "host", str "url", str "method", str "real_ip",
         str "protocol", str "headers", str "environment", str "os", str "architecture",
         str "runtime", str "time", str "version"] ↔ info.Name ≠ [] := by
  by_cases hn : info.Name = []
  · simp only [hn, ne_eq, not_true_eq_false, if_false, List.append_nil, iff_false]
    decide
  · simp only [hn, ne_eq, not_false_eq_true, if_true, iff_true]
    simp

/-- C7: for every report, the JSON text that `Encode` writes is one JSON object.
Its keys are, in this order, `hostname`, then `name` if and only if the name is
not empty, then `ip`, `remote_addr`, `host`, `url`, `method`, `real_ip`,
`protocol`, `headers`, `environment`, `os`, `architecture`, `runtime`, `time` and
`version`: the other fifteen keys are present whatever the values of their
fields are. -/
theorem Encode_object_keys (info : RequestInfo) :
    ∃ members : List (GoString × json.Value),
      json.parse (Encode info) = some (json.Value.object members) ∧
      members.map Prod.fst =
        [str "hostname"] ++ (if info.Name ≠ [] then [str "name"] else []) ++
        [str "ip", str "remote_addr", str "host", str "url", str "method", str "real_ip",
         str "protocol", str "headers", str "environment", str "os", str "architecture",
         str "runtime", str "time", str "version"] ∧
      (str "name" ∈ members.map Prod.fst ↔ info.Name ≠ []) ∧
      (∀ key ∈ [str "hostname", str "ip", str "remote_addr", str "host", str "url",
          str "method", str "real_ip", str "protocol", str "headers", str "environment",
          str "os", str "architecture", str "runtime", str "time", str "version"],
        key ∈ members.map Prod.fst) := by
  refine ⟨_, parse_Encode info, ?_⟩
  have hkeys := Encode_member_keys info
  refine ⟨hkeys, ?_, ?_⟩
  · rw [hkeys]
    exact name_key_iff info
  · rw [hkeys]
    intro key hk
    simp only [List.mem_cons, List.mem_singleton, List.not_mem_nil, or_false] at hk
    simp only [List.mem_append, List.mem_cons, List.mem_singleton, List.not_mem_nil, or_false]
    rcases hk with h | h | h | h | h | h | h | h | h | h | h | h | h | h | h <;> simp [h]

/-! ## Decoding the JSON rendering -/

theorem decodeElems_strings (l : List GoString) :
    json.decodeElems [] (l.map (fun s => json.Value.string (coerce s))) = .ok (l.map coerce) := by
  induction l with
  | nil => rfl
  | cons a l ih =>
    simp only [List.map_cons, json.decodeElems, json.decodeString, List.tail_nil, ih]

theorem decodeSlice_jsonValue (x : Option (List GoString)) :
    json.decodeSlice none (jsonValue (.slice x)) = .ok (x.map (fun l => l.map coerce)) := by
  cases x with
  | none => rfl
  | some l =>
    simp only [jsonValue, json.decodeSlice, Option.getD_none, decodeElems_strings, Option.map_some']

theorem decodeMembers_strings (m : StringMap) (ks : List GoString) (acc : StringMap) :
    json.decodeMembers acc
      (ks.map (fun k => (coerce k, json.Value.string (coerce ((m.lookup k).getD []))))) =
      .ok (ks.foldl (fun acc k => acc.insert (coerce k) (coerce ((m.lookup k).getD []))) acc) := by
  induction ks generalizing acc with
  | nil => rfl
  | cons k ks ih =>
    simp only [List.map_cons, json.decodeMembers, json.decodeString, List.foldl_cons, ih]

theorem decodeMap_jsonValue (x : Option StringMap) :
    json.decodeMap none (jsonValue (.map x)) = .ok (x.map coerceMap) := by
  cases x with
  | none => rfl
  | some m =>
    simp only [jsonValue, json.decodeMap, Option.getD_none, decodeMembers_strings,
      Option.map_some', coerceMap]

theorem decodeString_jsonValue (cur s : GoString) :
    json.decodeString cur (jsonValue (.string s)) = .ok (coerce s) := rfl

theorem coerce_nil : coerce [] = [] := rfl

/-- Decoding the JSON text of a report into a zero report gives the report with
every string coerced to valid UTF-8. -/
theorem Unmarshal_Encode (info : RequestInfo) :
    Unmarshal (Encode info) RequestInfo.zero = .ok info.coerced := by
  have i0 : RequestInfo.fieldIndex (str "hostname") = some 0 := by decide
  have i1 : RequestInfo.fieldIndex (str "name") = some 1 := by decide
  have i2 : RequestInfo.fieldIndex (str "ip") = some 2 := by decide
  have i3 : RequestInfo.fieldIndex (str "remote_addr") = some 3 := by decide
  have i4 : RequestInfo.fieldIndex (str "host") = some 4 := by decide
  have i5 : RequestInfo.fieldIndex (str "url") = some 5 := by decide
  have i6 : RequestInfo.fieldIndex (str "method") = some 6 := by decide
  have i7 : RequestInfo.fieldIndex (str "real_ip") = some 7 := by decide
  have i8 : RequestInfo.fieldIndex (str "protocol") = some 8 := by decide
  have i9 : RequestInfo.fieldIndex (str "headers") = some 9 := by decide
  have i10 : RequestInfo.fieldIndex (str "environment") = some 10 := by decide
  have i11 : RequestInfo.fieldIndex (str "os") = some 11 := by decide
  have i12 : RequestInfo.fieldIndex (str "architecture") = some 12 := by decide
  have i13 : RequestInfo.fieldIndex (str "runtime") = some 13 := by decide
  have i14 : RequestInfo.fieldIndex (str "time") = some 14 := by decide
  have i15 : RequestInfo.fieldIndex (str "version") = some 15 := by decide
  unfold Unmarshal
  rw [parse_Encode, activeFields_jsonFields]
  by_cases hn : info.Name = []
  · simp only [hn, ne_eq, not_true_eq_false, if_false, List.append_nil, List.singleton_append,
      List.map_cons, List.map_nil, RequestInfo.decodeObject, i0, i2, i3, i4, i5, i6, i7, i8, i9,
      i10, i11, i12, i13, i14, i15, RequestInfo.decodeField, decodeString_jsonValue,
      decodeSlice_jsonValue, decodeMap_jsonValue, Except.map, RequestInfo.zero,
      RequestInfo.coerced, coerce_nil]
  · simp only [hn, ne_eq, not_false_eq_true, if_true, List.singleton_append, List.cons_append,
      List.nil_append,
      List.map_cons, List.map_nil, RequestInfo.decodeObject, i0, i1, i2, i3, i4, i5, i6, i7, i8,
      i9, i10, i11, i12, i13, i14, i15, RequestInfo.decodeField, decodeString_jsonValue,
      decodeSlice_jsonValue, decodeMap_jsonValue, Except.map, RequestInfo.zero,
      RequestInfo.coerced]

theorem coerceLoop_valid (f : Nat) : ∀ s : GoString, validLoop f s = true → coerceLoop f s = s := by
  induction f with
  | zero =>
    intro s h
    cases s with
    | nil => rfl
    | cons b r => simp [validLoop] at h
  | succ f ih =>
    intro s h
    cases s with
    | nil => rfl
    | cons b r =>
      simp only [validLoop] at h
      simp only [coerceLoop]
      split at h
      · cases h
      · rename_i hv
        rw [if_neg hv, ih _ h, List.take_append_drop]

/-- Coercion to valid UTF-8 leaves a valid string as it is. -/
theorem coerce_valid (s : GoString) (h : ValidString s = true) : coerce s = s :=
  coerceLoop_valid s.length s h

theorem foldl_insert_keys_lookup (g : GoString → GoString) (ks : List GoString)
    (init : StringMap) (k : GoString) :
    (ks.foldl (fun acc x => acc.insert x (g x)) init).lookup k =
      if k ∈ ks then some (g k) else init.lookup k := by
  induction ks generalizing init with
  | nil => simp
  | cons x ks ih =>
    rw [List.foldl_cons, ih]
    by_cases hk : k ∈ ks
    · simp [hk]
    · by_cases hx : k = x
      · subst hx
        simp [hk, AList.lookup_insert]
      · simp [hk, hx, AList.lookup_insert_ne hx]

theorem foldl_insert_congr (f g : GoString → GoString × GoString) (ks : List GoString)
    (init : StringMap) (h : ∀ k ∈ ks, f k = g k) :
    ks.foldl (fun acc k => acc.insert (f k).1 (f k).2) init =
      ks.foldl (fun acc k => acc.insert (g k).1 (g k).2) init := by
  induction ks generalizing init with
  | nil => rfl
  | cons x ks ih =>
    simp only [List.foldl_cons]
    rw [h x (by simp), ih _ (fun k hk => h k (by simp [hk]))]

/-- A map whose keys and values are valid UTF-8 is decoded with the same
entries. -/
theorem coerceMap_valid (m : StringMap) (h : ValidMap (some m)) :
    (coerceMap m).entries.Perm m.entries := by
  have hc : coerceMap m =
      (sort.Strings m.keys).foldl (fun acc k => acc.insert k ((m.lookup k).getD [])) ∅ := by
    unfold coerceMap
    apply foldl_insert_congr (fun k => (coerce k, coerce ((m.lookup k).getD [])))
      (fun k => (k, (m.lookup k).getD []))
    intro k hk
    have hk2 : k ∈ m.keys := (Strings_perm m.keys).mem_iff.1 hk
    obtain ⟨h1, h2⟩ := h k hk2
    simp only [index] at h2
    rw [coerce_valid k h1, coerce_valid _ h2]
  apply List.lookup_ext (coerceMap m).nodupKeys m.nodupKeys
  intro k v
  have hl : List.dlookup k (coerceMap m).entries = (coerceMap m).lookup k := rfl
  have hr : List.dlookup k m.entries = m.lookup k := rfl
  rw [hl, hr, hc, foldl_insert_keys_lookup (fun k => (m.lookup k).getD [])]
  by_cases hk : k ∈ m.keys
  · have hk2 : k ∈ sort.Strings m.keys := (Strings_perm m.keys).mem_iff.2 hk
    rw [if_pos hk2]
    cases hlk : m.lookup k with
    | none => exact absurd (AList.lookup_eq_none.1 hlk) (fun hn => hn (AList.mem_keys.2 hk))
    | some w => simp
  · have hk2 : k ∉ sort.Strings m.keys := fun hh => hk ((Strings_perm m.keys).mem_iff.1 hh)
    rw [if_neg hk2]
    have : m.lookup k = none := AList.lookup_eq_none.2 (fun hn => hk (AList.mem_keys.1 hn))
    rw [this]
    simp

theorem SameMap_coerce (x : Option StringMap) (h : ValidMap x) : SameMap (x.map coerceMap) x := by
  cases x with
  | none => trivial
  | some m => exact coerceMap_valid m h

theorem map_coerce_valid (l : List GoString) (h : ∀ s ∈ l, ValidString s = true) :
    l.map coerce = l := by
  induction l with
  | nil => rfl
  | cons a l ih =>
    rw [List.map_cons, coerce_valid a (h a (by simp)), ih (fun s hs => h s (by simp [hs]))]

/-- A report whose strings are valid UTF-8 has the same value in every field as
its coerced form. -/
theorem coerced_Same (info : RequestInfo) (h : info.ValidUTF8) : info.coerced.Same info := by
  obtain ⟨h1, h2, h3, h4, h5, h6, h7, h8, h9, h10, h11, h12, h13, h14, h15, h16⟩ := h
  refine ⟨coerce_valid _ h1, coerce_valid _ h2, ?_, coerce_valid _ h4, coerce_valid _ h5,
    coerce_valid _ h6, coerce_valid _ h7, coerce_valid _ h8, coerce_valid _ h9,
    SameMap_coerce _ h10, SameMap_coerce _ h11, coerce_valid _ h12, coerce_valid _ h13,
    coerce_valid _ h14, coerce_valid _ h15, coerce_valid _ h16⟩
  show info.IP.map (fun l => l.map coerce) = info.IP
  cases hip : info.IP with
  | none => rfl
  | some l =>
    rw [hip] at h3
    simp only [Option.map_some', Option.some.injEq]
    exact map_coerce_valid l h3

/-- The keys of the object that is read back from the JSON text of a report. -/
theorem parse_Encode_name_key (info : RequestInfo) (v : json.Value)
    (h : json.parse (Encode info) = some v) : str "name" ∈ v.keys ↔ info.Name ≠ [] := by
  rw [parse_Encode] at h
  simp only [Option.some.injEq] at h
  subst h
  simp only [json.Value.keys]
  rw [Encode_member_keys]
  exact name_key_iff info

/-- C6 as stated fails: the report `badUTF8Info` has a header value that is not
valid UTF-8 (the byte 0xFF). The encoder writes it as the escape of U+FFFD, so
that decoding the JSON text gives `badUTF8Decoded`, whose headers differ from
those of `badUTF8Info`: the field `headers` is not reproduced. -/
theorem Unmarshal_Encode_badUTF8_counterexample :
    Unmarshal (Encode badUTF8Info) RequestInfo.zero = .ok badUTF8Decoded ∧
    index badUTF8Info.Headers (str "X") = [byte 0xFF] ∧
    index badUTF8Decoded.Headers (str "X") = [byte 0xEF, byte 0xBF, byte 0xBD] ∧
    badUTF8Decoded.Headers ≠ badUTF8Info.Headers ∧
    ¬ badUTF8Decoded.Same badUTF8Info := by
  refine ⟨by decide, by decide, by decide, by decide, ?_⟩
  intro h
  have hp : SameMap badUTF8Decoded.Headers badUTF8Info.Headers := h.2.2.2.2.2.2.2.2.2.1
  have hm : (⟨str "X", [byte 0xEF, byte 0xBF, byte 0xBD]⟩ : Σ _ : GoString, GoString) ∈
      [(⟨str "X", [byte 0xFF]⟩ : Σ _ : GoString, GoString)] :=
    (List.Perm.mem_iff hp).1 (by decide)
  revert hm
  decide

/-- C6, amended: for every report whose strings (the scalar fields, the
addresses, the keys and the values of both maps) are valid UTF-8, decoding the
JSON text that `Encode` writes into a zero report succeeds and gives a report
with the same value in every field: the scalar fields and the addresses are
equal, the maps have the same entries. The key `name` is on the wire if and only
if the name is not empty; an empty name is decoded as the empty name. -/
theorem Unmarshal_Encode_roundtrip (info : RequestInfo) (hv : info.ValidUTF8) :
    ∃ decoded : RequestInfo,
      Unmarshal (Encode info) RequestInfo.zero = .ok decoded ∧ decoded.Same info ∧
      (∀ v, json.parse (Encode info) = some v → (str "name" ∈ v.keys ↔ info.Name ≠ [])) ∧
      (info.Name = [] → decoded.Name = []) :=
  ⟨info.coerced, Unmarshal_Encode info, coerced_Same info hv,
    fun v h => parse_Encode_name_key info v h,
    fun h => by rw [(coerced_Same info hv).2.1, h]⟩

/-! ## The theorems at concrete inputs -/

/-- The request `unicodeSpaceRequest` gets `é`, the first element of its
`X-Forwarded-For` value without the white space around it; the request
`forwardedRequest`, which also has `X-Real-IP` set, gets the first entry of its
`X-Forwarded-For` value. -/
theorem getRealIP_forwarded_for_witness :
    (unicodeSpaceRequest.Header.Get (str "X-Forwarded-For") = str "\u00a0 é \u2003,b" ∧
      str "\u00a0 é \u2003,b" ≠ [] ∧
      Trimmed ((str "\u00a0 é \u2003,b").takeWhile (fun b => b != byte 0x2C))
        (getRealIP unicodeSpaceRequest) ∧
      getRealIP unicodeSpaceRequest = str "é") ∧
    (forwardedRequest.Header.Get (str "X-Forwarded-For") = str "192.168.1.1, 10.0.0.1" ∧
      str "192.168.1.1, 10.0.0.1" ≠ [] ∧
      getRealIP forwardedRequest =
        strings.TrimSpace ((str "192.168.1.1, 10.0.0.1").takeWhile (fun b => b != byte 0x2C)) ∧
      getRealIP forwardedRequest = str "192.168.1.1") :=
  ⟨⟨by decide, by decide,
      (getRealIP_forwarded_for.1 unicodeSpaceRequest (str "\u00a0 é \u2003,b") (by decide)
        (by decide)).1, by decide⟩,
    ⟨by decide, by decide,
      getRealIP_forwarded_for.2.1 forwardedRequest (str "192.168.1.1, 10.0.0.1") (by decide)
        (by decide), by decide⟩⟩

/-- The request `apiRequest` with `X-Real-IP: 10.0.0.1` and no `X-Forwarded-For` gets "10.0.0.1". -/
theorem getRealIP_real_ip_witness :
    apiRequest.Header.lookup (textproto.CanonicalMIMEHeaderKey (str "X-Forwarded-For")) = none ∧
    apiRequest.Header.lookup (textproto.CanonicalMIMEHeaderKey (str "X-Real-IP")) =
      some [str "10.0.0.1"] ∧
    str "10.0.0.1" ≠ [] ∧ getRealIP apiRequest = str "10.0.0.1" :=
  ⟨by decide, by decide, by decide,
    getRealIP_real_ip apiRequest (str "10.0.0.1") (by decide) (by decide) (by decide)⟩

/-- The request `plainRequest` without proxy headers gets the host of its remote address. -/
theorem getRealIP_remote_addr_witness :
    plainRequest.Header.lookup (textproto.CanonicalMIMEHeaderKey (str "X-Forwarded-For")) = none ∧
    plainRequest.Header.lookup (textproto.CanonicalMIMEHeaderKey (str "X-Real-IP")) = none ∧
    plainRequest.RemoteAddr = str "10.0.0.1:1234" ∧
    getRealIP plainRequest = str "10.0.0.1" :=
  ⟨by decide, by decide, rfl,
    (getRealIP_remote_addr plainRequest (by decide) (by decide)).2.2.2.2.1 rfl⟩

/-- The variable `TEST_INT=8080` of `testEnviron` is read as 8080. -/
theorem getEnvAsInt_parsed_or_default_witness :
    IsInt (os.Getenv testEnviron (str "TEST_INT")) 8080 ∧
    getEnvAsInt testEnviron (str "TEST_INT") 80 = 8080 :=
  ⟨(Atoi_iff _ _).1 (by decide),
    (getEnvAsInt_parsed_or_default testEnviron (str "TEST_INT") 80).1 8080
      ((Atoi_iff _ _).1 (by decide))⟩

/-- The address 192.168.1.10 of `testInterfaces` is in the result, in dotted form. -/
theorem getLocalIPs_dotted_quads_witness :
    str "192.168.1.10" ∈ (getLocalIPs testInterfaces).getD [] ∧
    IsDottedQuad (str "192.168.1.10") :=
  ⟨by decide, (getLocalIPs_dotted_quads testInterfaces).1 (str "192.168.1.10") (by decide)⟩

/-- The header `User-Agent` of `apiRequest` is in the headers map of the report. -/
theorem getRequestInfo_fields_witness :
    apiRequest.Header.lookup (str "User-Agent") = some [str "test-agent"] ∧
    ∃ headers : StringMap, (getRequestInfo testHost testConfig apiRequest).Headers = some headers ∧
      headers.lookup (str "User-Agent") = some (List.intercalate (str ", ") [str "test-agent"]) := by
  obtain ⟨_, _, _, _, _, _, _, headers, hh, _, hl⟩ :=
    getRequestInfo_fields.1 testHost testConfig apiRequest
  exact ⟨by decide, headers, hh, hl (str "User-Agent") [str "test-agent"] (by decide)⟩

theorem SameEntries_of_perm (a b : StringMap) (h : a.entries.Perm b.entries) :
    SameEntries (some a) (some b) := by
  refine ⟨?_, ?_⟩
  · exact h.map _
  · intro k
    simp only [index, AList.perm_lookup h]

theorem testInfo_single : SingleLine testInfo.Headers ∧ SingleLine testInfo.Environment := by
  unfold SingleLine
  decide

/-- The maps of the report `testInfo` hold no line terminator: the section of its
headers has two lines, one for each entry, and with its headers in the other
iteration order the report has the same text. -/
theorem formatAsText_sorted_sections_witness :
    (SingleLine testInfo.Headers ∧ SingleLine testInfo.Environment ∧
      ∃ hk : List GoString, hk.Perm (rangeKeys testInfo.Headers) ∧
        hk.Sorted (fun a b => less a b = true) ∧
        splitLines (unlines (hk.map (entryLine testInfo.Headers))) =
          hk.map (entryLine testInfo.Headers) ∧
        (splitLines (unlines (hk.map (entryLine testInfo.Headers)))).length = 2) ∧
    (SameEntries testInfo.Headers swappedHeaders ∧
      SameEntries testInfo.Environment testInfo.Environment ∧
      formatAsText { testInfo with Headers := swappedHeaders } = formatAsText testInfo) := by
  obtain ⟨hk, ek, h1, h2, _, _, _, _, _, h6, _, _⟩ := formatAsText_sorted_sections.1 testInfo
  exact ⟨⟨testInfo_single.1, testInfo_single.2, hk, h1, h2, (h6 testInfo_single.1).1,
      (h6 testInfo_single.1).2⟩,
    SameEntries_of_perm _ _ (List.Perm.swap _ _ _),
    SameEntries_of_perm _ _ (List.Perm.refl _),
    formatAsText_sorted_sections.2.1 testInfo swappedHeaders testInfo.Environment
      (SameEntries_of_perm _ _ (List.Perm.swap _ _ _))
      (SameEntries_of_perm _ _ (List.Perm.refl _))⟩

theorem testInfo_valid : testInfo.ValidUTF8 := by
  unfold RequestInfo.ValidUTF8 ValidMap
  decide

/-- The report `testInfo` is valid UTF-8 and is reproduced by decoding its JSON text. -/
theorem Unmarshal_Encode_roundtrip_witness :
    testInfo.ValidUTF8 ∧
    ∃ decoded : RequestInfo,
      Unmarshal (Encode testInfo) RequestInfo.zero = .ok decoded ∧ decoded.Same testInfo := by
  obtain ⟨decoded, h1, h2, _⟩ := Unmarshal_Encode_roundtrip testInfo testInfo_valid
  exact ⟨testInfo_valid, decoded, h1, h2⟩

/-- The JSON text of `testInfo`, whose name is not empty, has the keys `name` and `environment`. -/
theorem Encode_object_keys_witness :
    ∃ members : List (GoString × json.Value),
      json.parse (Encode testInfo) = some (json.Value.object members) ∧
      str "name" ∈ members.map Prod.fst ∧ str "environment" ∈ members.map Prod.fst := by
  obtain ⟨members, h1, _, h3, h4⟩ := Encode_object_keys testInfo
  exact ⟨members, h1, h3.2 (by decide), h4 (str "environment") (by decide)⟩

end Whoami
